import Mathlib

/-!
# models/method.go — a verification development

Shallow embedding of `src/models/method.go` (package `models` of
lightning-api-ng): the `Method` entity, its lazily cached accessors and
its pure helpers.

Conventions of the embedding.

* A Go `string` is a `GoString`, the list of its Unicode code points (a
  valid UTF-8 string).  The byte-wise operations the source uses
  (`strings.Contains`, `strings.Split`, `strings.Join`, `<`) agree with
  their code-point versions on valid UTF-8.
* A Go pointer `*Message` is a `MsgPtr`, the position of the message in
  the registry's storage; the message it points to is read through the
  current `App`.
* A call that may `panic` returns `Except GoString _`, the error being the
  panic value.
-/

namespace Models

/-- A Go string: the list of its code points. -/
abbrev GoString := List Char

/-! ## Package `strings` -/

/-- Lower-casing of one rune.  `strings.ToLower` has a fast path for ASCII
(`c += 'a' - 'A'` when `'A' <= c <= 'Z'`) and maps every other rune through
`unicode.ToLower`; the Unicode case table is not part of the repository and
is the parameter `tbl`, used for the runes `>= utf8.RuneSelf` only. -/
def toLowerRune (tbl : Char → Char) (c : Char) : Char :=
  if c.toNat < 128 then
    if 65 ≤ c.toNat ∧ c.toNat ≤ 90 then Char.ofNat (c.toNat + 32) else c
  else tbl c

/-- Embedding of `strings.ToLower`. -/
def ToLower (tbl : Char → Char) (s : GoString) : GoString :=
  s.map (toLowerRune tbl)

/-- Embedding of `strings.HasPrefix`. -/
def HasPrefix : GoString → GoString → Bool
  | _, [] => true
  | [], _ :: _ => false
  | c :: s, p :: ps => c == p && HasPrefix s ps

/-- Embedding of `strings.Contains(s, substr)`: `substr` starts at some position of
`s`. -/
def Contains : GoString → GoString → Bool
  | [], substr => HasPrefix [] substr
  | c :: s, substr => HasPrefix (c :: s) substr || Contains s substr

/-- Embedding of `strings.Split(s, sep)` for a separator of one character, which is how
the source calls it (`"\n"`): the pieces between the occurrences of `sep`,
never an empty slice. -/
def Split (s : GoString) (sep : Char) : List GoString :=
  match s with
  | [] => [[]]
  | c :: s =>
    if c = sep then [] :: Split s sep
    else
      match Split s sep with
      | [] => [[c]]
      | l :: ls => (c :: l) :: ls

/-- Embedding of `strings.Join(elems, sep)`. -/
def Join : List GoString → GoString → GoString
  | [], _ => []
  | [e], _ => e
  | e :: e2 :: es, sep => e ++ sep ++ Join (e2 :: es) sep

/-- The comparison `a < b` of two Go strings: lexicographic (byte order and
code-point order agree on UTF-8). -/
def stringLess : GoString → GoString → Bool
  | [], [] => false
  | [], _ :: _ => true
  | _ :: _, [] => false
  | a :: as, b :: bs =>
    if a.toNat < b.toNat then true
    else if b.toNat < a.toNat then false
    else stringLess as bs

/-! ## Data model -/

/-- Modelled from the spec: a field of a message, its name and the full name
of its type.  The declaration of `Message` is not part of the source file;
the spec gives a message "a list of typed fields" that "reference other
message or enum types by fully-qualified name". -/
structure Field where
  Name : GoString
  FullType : GoString
deriving DecidableEq, Repr

/-- Modelled from the spec: a message definition.  Its declaration is not
part of the source file, which reads `FullName` and writes `Source`. -/
structure Message where
  FullName : GoString
  Source : GoString
  Fields : List Field
deriving DecidableEq, Repr

/-- Modelled from the spec: an enum definition.  Its declaration is not part
of the source file, which reads `FullName`. -/
structure Enum where
  FullName : GoString
deriving DecidableEq, Repr

/-- Modelled from the spec: the REST mapping of a method.  Its declaration is
not part of the source file, which reads `Method` and `Path`. -/
structure RestMapping where
  Method : GoString
  Path : GoString
deriving DecidableEq, Repr

/-- A `*Message`: the position of the message in the registry. -/
abbrev MsgPtr := Nat

/-- A `*Enum`: the position of the enum in the registry. -/
abbrev EnumPtr := Nat

/-- Embedding of `type Method struct`.  `Service` (the link to the
application, passed explicitly as an `App` here) and `CodeSamples` are left
out.  The four lower-case fields are the caches; `none` is Go's `nil`. -/
structure Method where
  Name : GoString
  Description : GoString
  Source : GoString
  CommandLine : GoString
  CommandLineHelp : GoString
  RequestType : GoString
  RequestFullType : GoString
  RequestTypeSource : GoString
  RequestStreaming : Bool
  ResponseType : GoString
  ResponseFullType : GoString
  ResponseTypeSource : GoString
  ResponseStreaming : Bool
  RestMapping : Option RestMapping
  request : Option MsgPtr
  response : Option MsgPtr
  nestedMessages : Option (List MsgPtr)
  nestedEnums : Option (List EnumPtr)
deriving DecidableEq, Repr

/-! ## Pure accessors -/

/-- Embedding of `Method.IsDeprecated`. -/
def Method.IsDeprecated (tbl : Char → Char) (m : Method) : Bool :=
  Contains (ToLower tbl m.Description) "deprecated".toList

/-- Embedding of `Method.HasRestMapping`. -/
def Method.HasRestMapping (m : Method) : Bool :=
  match m.RestMapping with
  | none => false
  | some r => r.Path != []

/-- Embedding of `Method.RestMethod`. -/
def Method.RestMethod (m : Method) : GoString :=
  if m.HasRestMapping then
    match m.RestMapping with
    | some r => r.Method
    | none => []
  else []

/-- Embedding of `Method.RestPath`. -/
def Method.RestPath (m : Method) : GoString :=
  if m.HasRestMapping then
    match m.RestMapping with
    | some r => r.Path
    | none => []
  else []

/-- Embedding of `Method.StreamingDirection`. -/
def Method.StreamingDirection (m : Method) : GoString :=
  if m.RequestStreaming && m.ResponseStreaming then "bidirectional".toList
  else if m.ResponseStreaming then "server".toList
  else if m.RequestStreaming then "client".toList
  else []

/-- Embedding of `parseDescription`. -/
def parseDescription (description : GoString) : GoString :=
  if description = [] then []
  else
    let lines := Split description '\n'
    if Contains (lines.headD []) ": `".toList then
      Join (lines.drop 1) "\n".toList
    else description

/-! ## The registry and the collaborators of `Method` -/

/-- A call made to the registry or to the resolver. -/
inductive Event where
  | getMessage (name : GoString)
  | getNestedMessages (root : MsgPtr) (depth : Nat)
  | getNestedEnums (root : MsgPtr) (depth : Nat)
deriving DecidableEq, Repr

/-- Modelled from the spec: the application (`m.Service.Pkg.App`) with its
type registry, which is not part of the source file.  The spec makes the
registry a lookup from a fully-qualified name to the message, the messages
being "shared (not copied) across every Method that references them".
`Messages` and `Enums` are the registry's storage, a `MsgPtr` (`EnumPtr`)
being a position in it.  `calls` is a ghost field: the calls made to the
registry and the resolver so far, oldest first. -/
structure App where
  Messages : List Message
  Enums : List Enum
  calls : List Event
deriving DecidableEq, Repr

/-- The message a pointer points to (`*msg`). -/
def App.msg (app : App) (p : MsgPtr) : Message :=
  app.Messages.getD p ⟨[], [], []⟩

/-- The enum a pointer points to. -/
def App.enum (app : App) (p : EnumPtr) : Enum :=
  app.Enums.getD p ⟨[]⟩

/-- The position of the first message of full name `name`. -/
def findMessage (name : GoString) : List Message → Option MsgPtr
  | [] => none
  | msg :: rest =>
    if msg.FullName = name then some 0 else (findMessage name rest).map (· + 1)

/-- The position of the first enum of full name `name`. -/
def findEnum (name : GoString) : List Enum → Option EnumPtr
  | [] => none
  | e :: rest =>
    if e.FullName = name then some 0 else (findEnum name rest).map (· + 1)

/-- Modelled from the spec: the registry lookup `App.GetMessage(name)`, which
is not part of the source file.  The spec: `resolve(full_name)` returns the
registry's own message of that full name, or fails when there is none;
`unknown` is the text of that error. -/
def App.GetMessage (app : App) (unknown : GoString → GoString) (name : GoString) :
    Except GoString MsgPtr :=
  match findMessage name app.Messages with
  | some p => .ok p
  | none => .error (unknown name)

/-- The assignment `msg.Source = source` through the pointer `p`. -/
def App.setSource (app : App) (p : MsgPtr) (source : GoString) : App :=
  { app with Messages := app.Messages.set p { app.msg p with Source := source } }

/-- Ghost: record a call. -/
def App.record (app : App) (e : Event) : App :=
  { app with calls := app.calls ++ [e] }

/-- A Go `map[string]V`: its entries, no key twice.  The order of `entries`
is the representation's, not the order of a `range` loop. -/
structure GoMap (V : Type) where
  entries : List (GoString × V)
  nodupKeys : (entries.map Prod.fst).Nodup

/-- Embedding of `make(map[string]V)`. -/
def GoMap.empty {V : Type} : GoMap V := ⟨[], List.nodup_nil⟩

/-- The lookup `all[k]` of a Go map. -/
def GoMap.lookup {V : Type} (all : GoMap V) (k : GoString) : Option V :=
  (all.entries.find? (fun kv => kv.1 = k)).map Prod.snd

/-- The assignment `all[k] = v` of a Go map. -/
def GoMap.insert {V : Type} (all : GoMap V) (k : GoString) (v : V) : GoMap V :=
  if h : k ∈ all.entries.map Prod.fst then
    ⟨all.entries.map (fun kv => if kv.1 = k then (k, v) else kv), by
      have hfst : (all.entries.map (fun kv => if kv.1 = k then (k, v) else kv)).map Prod.fst
          = all.entries.map Prod.fst := by
        rw [List.map_map]
        refine List.map_congr_left (fun kv _ => ?_)
        simp only [Function.comp]
        split
        · next hk => exact hk.symm
        · rfl
      rw [hfst]; exact all.nodupKeys⟩
  else
    ⟨all.entries ++ [(k, v)], by
      rw [List.map_append, List.nodup_append]
      refine ⟨all.nodupKeys, by simp, ?_⟩
      intro a ha hb
      simp only [List.map_cons, List.map_nil, List.mem_singleton] at hb
      exact h (hb ▸ ha)⟩

/-- What `method.go` calls and does not define.
* `unicodeToLower`: the case table of package `unicode`.
* `unknown`: the text of the error of `App.GetMessage` for a name.
* `GetNestedMessages`, `GetNestedEnums`: the nested-type resolver
  (`App.GetNestedMessages(root, all, depth)`), which fills the map it is
  given; here it returns the filled map.
* `range`: the order in which a `for ... range` loop visits a map, which Go
  leaves unspecified.
* `SortFunc`: `slices.SortFunc` of golang.org/x/exp. -/
structure Env where
  unicodeToLower : Char → Char
  unknown : GoString → GoString
  GetNestedMessages : App → MsgPtr → GoMap MsgPtr → Nat → GoMap MsgPtr
  GetNestedEnums : App → MsgPtr → GoMap EnumPtr → Nat → GoMap EnumPtr
  range : GoMap Nat → List (GoString × Nat)
  SortFunc : (Nat → Nat → Bool) → List Nat → List Nat

/-- A `range` loop visits every entry of the map once, in some order. -/
def Env.RangeOk (E : Env) : Prop :=
  ∀ all : GoMap Nat, (E.range all).Perm all.entries

/-- A strict weak ordering, what `slices.SortFunc` requires of `less`. -/
def StrictWeak {α : Type} (less : α → α → Bool) : Prop :=
  (∀ a b, less a b = true → less b a = false) ∧
  (∀ a b c, less a b = false → less b c = false → less a c = false)

/-- The contract of `slices.SortFunc`: the slice is permuted, and when `less`
is a strict weak ordering no element is followed by a smaller one. -/
def Env.SortOk (E : Env) : Prop :=
  ∀ (less : Nat → Nat → Bool) (data : List Nat),
    (E.SortFunc less data).Perm data ∧
    (StrictWeak less →
      (E.SortFunc less data).Pairwise (fun a b => less b a = false))

/-- The inner loop of `insertionSortLessFunc` of golang.org/x/exp/slices,
`for j := i; j > a && less(data[j], data[j-1]); j--` swapping `data[j]` and
`data[j-1]`: `x` is `data[i]`, the list is `data[a:i]` from right to left. -/
def insertBack {α : Type} (less : α → α → Bool) (x : α) : List α → List α
  | [] => [x]
  | y :: ys => if less x y then y :: insertBack less x ys else x :: y :: ys

/-- Embedding of `insertionSortLessFunc` of golang.org/x/exp/slices, which is
all that `slices.SortFunc` does to a slice of at most 6 elements. -/
def insertionSortLessFunc {α : Type} (less : α → α → Bool) (data : List α) : List α :=
  (data.foldl (fun sorted x => insertBack less x sorted) []).reverse

/-! ## The cached accessors -/

/-- Embedding of `Method.Request`. -/
def Method.Request (E : Env) (m : Method) (app : App) :
    Except GoString (MsgPtr × Method × App) :=
  match m.request with
  | some p => .ok (p, m, app)
  | none =>
    match app.GetMessage E.unknown m.RequestFullType with
    | .error err =>
      .error ("Error getting message ".toList ++ m.RequestFullType ++ " for ".toList
        ++ m.Name ++ ": ".toList ++ err)
    | .ok msg =>
      let app := (app.record (.getMessage m.RequestFullType)).setSource msg m.RequestTypeSource
      .ok (msg, { m with request := some msg }, app)

/-- Embedding of `Method.Response`. -/
def Method.Response (E : Env) (m : Method) (app : App) :
    Except GoString (MsgPtr × Method × App) :=
  match m.response with
  | some p => .ok (p, m, app)
  | none =>
    match app.GetMessage E.unknown m.ResponseFullType with
    | .error err =>
      .error ("Error getting message ".toList ++ m.ResponseFullType ++ " for ".toList
        ++ m.Name ++ ": ".toList ++ err)
    | .ok msg =>
      let app := (app.record (.getMessage m.ResponseFullType)).setSource msg m.ResponseTypeSource
      .ok (msg, { m with response := some msg }, app)

/-- The `less` of `NestedMessages`:
`strings.ToLower(i.FullName) < strings.ToLower(j.FullName)`. -/
def lessMessage (E : Env) (app : App) (i j : MsgPtr) : Bool :=
  stringLess (ToLower E.unicodeToLower (app.msg i).FullName)
    (ToLower E.unicodeToLower (app.msg j).FullName)

/-- The `less` of `NestedEnums`. -/
def lessEnum (E : Env) (app : App) (i j : EnumPtr) : Bool :=
  stringLess (ToLower E.unicodeToLower (app.enum i).FullName)
    (ToLower E.unicodeToLower (app.enum j).FullName)

/-- The first half of `NestedMessages`: a new map, filled by the resolver run
from `m.Request()` and then from `m.Response()`, with depth 10. -/
def Method.collectMessages (E : Env) (m : Method) (app : App) :
    Except GoString (GoMap MsgPtr × Method × App) :=
  match m.Request E app with
  | .error e => .error e
  | .ok (req, m, app) =>
    let messages := E.GetNestedMessages app req GoMap.empty 10
    let app := app.record (.getNestedMessages req 10)
    match m.Response E app with
    | .error e => .error e
    | .ok (resp, m, app) =>
      let messages := E.GetNestedMessages app resp messages 10
      let app := app.record (.getNestedMessages resp 10)
      .ok (messages, m, app)

/-- The first half of `NestedEnums`. -/
def Method.collectEnums (E : Env) (m : Method) (app : App) :
    Except GoString (GoMap EnumPtr × Method × App) :=
  match m.Request E app with
  | .error e => .error e
  | .ok (req, m, app) =>
    let enums := E.GetNestedEnums app req GoMap.empty 10
    let app := app.record (.getNestedEnums req 10)
    match m.Response E app with
    | .error e => .error e
    | .ok (resp, m, app) =>
      let enums := E.GetNestedEnums app resp enums 10
      let app := app.record (.getNestedEnums resp 10)
      .ok (enums, m, app)

/-- Embedding of `Method.NestedMessages`: the cached slice when there is one;
otherwise the values of the collected map, in the order of the `range` loop,
sorted by `slices.SortFunc` and cached.  `make([]*Message, 0, n)` is not
`nil`, also when `n` is 0. -/
def Method.NestedMessages (E : Env) (m : Method) (app : App) :
    Except GoString (List MsgPtr × Method × App) :=
  match m.nestedMessages with
  | some l => .ok (l, m, app)
  | none =>
    match m.collectMessages E app with
    | .error e => .error e
    | .ok (messages, m, app) =>
      let nested := (E.range messages).map Prod.snd
      let nested := E.SortFunc (lessMessage E app) nested
      .ok (nested, { m with nestedMessages := some nested }, app)

/-- Embedding of `Method.NestedEnums`. -/
def Method.NestedEnums (E : Env) (m : Method) (app : App) :
    Except GoString (List EnumPtr × Method × App) :=
  match m.nestedEnums with
  | some l => .ok (l, m, app)
  | none =>
    match m.collectEnums E app with
    | .error e => .error e
    | .ok (enums, m, app) =>
      let nested := (E.range enums).map Prod.snd
      let nested := E.SortFunc (lessEnum E app) nested
      .ok (nested, { m with nestedEnums := some nested }, app)

/-- The four cached accessors of a method. -/
inductive Accessor where
  | Request
  | Response
  | NestedMessages
  | NestedEnums
deriving DecidableEq, Repr

/-- What a cached accessor returns: a `*Message`, a `[]*Message` or a
`[]*Enum`. -/
inductive Value where
  | message (p : MsgPtr)
  | messages (l : List MsgPtr)
  | enums (l : List EnumPtr)
deriving DecidableEq, Repr

/-- One call of a cached accessor. -/
def Method.call (E : Env) (a : Accessor) (m : Method) (app : App) :
    Except GoString (Value × Method × App) :=
  match a with
  | .Request => (m.Request E app).map (fun r => (.message r.1, r.2))
  | .Response => (m.Response E app).map (fun r => (.message r.1, r.2))
  | .NestedMessages => (m.NestedMessages E app).map (fun r => (.messages r.1, r.2))
  | .NestedEnums => (m.NestedEnums E app).map (fun r => (.enums r.1, r.2))

/-- A sequence of calls of cached accessors on one method, the results
dropped. -/
def Method.calls (E : Env) : List Accessor → Method → App → Except GoString (Method × App)
  | [], m, app => .ok (m, app)
  | a :: rest, m, app =>
    match m.call E a app with
    | .error e => .error e
    | .ok (_, m, app) => Method.calls E rest m app

/-- The cache slot an accessor reads. -/
def Method.cached (m : Method) : Accessor → Option Value
  | .Request => m.request.map .message
  | .Response => m.response.map .message
  | .NestedMessages => m.nestedMessages.map .messages
  | .NestedEnums => m.nestedEnums.map .enums

/-! ## A concrete environment -/

/-- Modelled from the spec: the registry lookup of an enum by its full
name. -/
def App.GetEnum (app : App) (name : GoString) : Option EnumPtr :=
  findEnum name app.Enums

/-- Modelled from the spec: the nested-type resolver `App.GetNestedMessages`
is not part of the source file.  The spec: walk the root's fields; "for a
referenced message not yet in the visited set, resolve it via the Type
Registry, record it, and recurse into its fields"; at depth 0 stop
descending. -/
def GetNestedMessages (unknown : GoString → GoString) (app : App) :
    Nat → MsgPtr → GoMap MsgPtr → GoMap MsgPtr
  | 0, _, all => all
  | depth + 1, root, all =>
    (app.msg root).Fields.foldl (fun all f =>
      match all.lookup f.FullType with
      | some _ => all
      | none =>
        match app.GetMessage unknown f.FullType with
        | .error _ => all
        | .ok p => GetNestedMessages unknown app depth p (all.insert f.FullType p)) all

/-- Modelled from the spec: the resolver `App.GetNestedEnums` is not part of
the source file.  The spec: "for a referenced enum not yet visited, resolve
and record it (enums are leaves)"; referenced messages are descended into,
down to depth 0. -/
def GetNestedEnums (unknown : GoString → GoString) (app : App) :
    Nat → MsgPtr → GoMap EnumPtr → GoMap EnumPtr
  | 0, _, all => all
  | depth + 1, root, all =>
    (app.msg root).Fields.foldl (fun all f =>
      match app.GetEnum f.FullType with
      | some e =>
        match all.lookup f.FullType with
        | some _ => all
        | none => all.insert f.FullType e
      | none =>
        match app.GetMessage unknown f.FullType with
        | .error _ => all
        | .ok p => GetNestedEnums unknown app depth p all) all

/-- An environment: ASCII-only lower-casing, the resolvers as the spec
describes them, a `range` loop that visits the entries in the order `order`
puts them, and the insertion sort `slices.SortFunc` runs on short slices. -/
def goEnv (order : List (GoString × Nat) → List (GoString × Nat)) : Env where
  unicodeToLower := id
  unknown := fun _ => "UnknownType".toList
  GetNestedMessages := fun app root all depth =>
    GetNestedMessages (fun _ => "UnknownType".toList) app depth root all
  GetNestedEnums := fun app root all depth =>
    GetNestedEnums (fun _ => "UnknownType".toList) app depth root all
  range := fun all => order all.entries
  SortFunc := insertionSortLessFunc

/-- A method as `NewMethod` leaves its caches: all `nil`. -/
def exampleMethod (name reqType reqSource respType respSource : GoString) : Method where
  Name := name
  Description := []
  Source := []
  CommandLine := []
  CommandLineHelp := []
  RequestType := reqType
  RequestFullType := reqType
  RequestTypeSource := reqSource
  RequestStreaming := false
  ResponseType := respType
  ResponseFullType := respType
  ResponseTypeSource := respSource
  ResponseStreaming := false
  RestMapping := none
  request := none
  response := none
  nestedMessages := none
  nestedEnums := none

/-- A registry with a request that has fields of types `lnrpc.Foo` and
`lnrpc.foo`, a response with a field of type `lnrpc.Foo` and one of the
enum `lnrpc.Kind`, and a message `lnrpc.Bar` with fields of types
`lnrpc.Foo` and `lnrpc.Resp`. -/
def exampleApp : App where
  Messages :=
    [ ⟨"lnrpc.Req".toList, "rpc.proto".toList,
        [⟨"a".toList, "lnrpc.foo".toList⟩, ⟨"b".toList, "lnrpc.Foo".toList⟩,
         ⟨"n".toList, "string".toList⟩]⟩,
      ⟨"lnrpc.Resp".toList, "rpc.proto".toList,
        [⟨"c".toList, "lnrpc.Foo".toList⟩, ⟨"k".toList, "lnrpc.Kind".toList⟩]⟩,
      ⟨"lnrpc.Foo".toList, "rpc.proto".toList, [⟨"self".toList, "lnrpc.Foo".toList⟩]⟩,
      ⟨"lnrpc.foo".toList, "rpc.proto".toList, []⟩,
      ⟨"lnrpc.Bar".toList, "rpc.proto".toList,
        [⟨"f".toList, "lnrpc.Foo".toList⟩, ⟨"r".toList, "lnrpc.Resp".toList⟩]⟩ ]
  Enums := [⟨"lnrpc.Kind".toList⟩]
  calls := []

/-! ## Observations of a method -/

/-- Every filled cache slot of `m` is filled with the same value in `m1`. -/
def Method.Extends (m m1 : Method) : Prop :=
  ∀ a v, m.cached a = some v → m1.cached a = some v

/-- The `Source` of the message `m.Request()` returns, read when the call has
returned. -/
def Method.requestSource (E : Env) (m : Method) (app : App) : Option GoString :=
  match m.Request E app with
  | .error _ => none
  | .ok (p, _, app) => some (app.msg p).Source

/-- The calls `between` on `m`, then `m.Request()`: the `Source` of the message
that last call returns. -/
def Method.requestSourceAfter (E : Env) (m : Method) (between : List Accessor) (app : App) :
    Option GoString :=
  match m.calls E between app with
  | .error _ => none
  | .ok (m, app) => m.requestSource E app

/-- The call `m.Request()`, then `other.Request()`, then `m.Request()` again:
the `Source` of the message that last call returns. -/
def Method.requestSourceAfterOther (E : Env) (m other : Method) (app : App) :
    Option GoString :=
  match m.Request E app with
  | .error _ => none
  | .ok (_, m, app) =>
    match other.Request E app with
    | .error _ => none
    | .ok (_, _, app) => m.requestSource E app

/-- The list `NestedMessages()` returns, if it returns. -/
def Method.nestedMessageList (E : Env) (m : Method) (app : App) : Option (List MsgPtr) :=
  match m.NestedMessages E app with
  | .error _ => none
  | .ok (l, _, _) => some l

/-- The entries of the map `NestedMessages()` collects, if it does. -/
def Method.collectedMessages (E : Env) (m : Method) (app : App) :
    Option (List (GoString × MsgPtr)) :=
  match m.collectMessages E app with
  | .error _ => none
  | .ok (all, _, _) => some all.entries

/-! ## Several methods on one application -/

/-- One step of a run: a cached accessor is called on the method under
observation, or on another method of the same application. -/
inductive Step where
  | own (a : Accessor)
  | other (m : Method) (a : Accessor)
deriving DecidableEq, Repr

/-- A run of steps; the method under observation and the application are
threaded through, the other methods come with the steps. -/
def Method.run (E : Env) : List Step → Method → App → Except GoString (Method × App)
  | [], m, app => .ok (m, app)
  | .own a :: rest, m, app =>
    match m.call E a app with
    | .error e => .error e
    | .ok (_, m, app) => Method.run E rest m app
  | .other o a :: rest, m, app =>
    match o.call E a app with
    | .error e => .error e
    | .ok (_, _, app) => Method.run E rest m app

/-- The method records the source location `S` for the type `T`, on whichever
side it uses that type. -/
def Method.AgreesAt (m : Method) (T S : GoString) : Prop :=
  (m.RequestFullType = T → m.RequestTypeSource = S) ∧
  (m.ResponseFullType = T → m.ResponseTypeSource = S)

/-- The other method of a step, if any, records the source `S` for the type
`T`. -/
def Step.AgreesAt (T S : GoString) : Step → Prop
  | .own _ => True
  | .other o _ => o.AgreesAt T S

/-- From `app` to `app1` no message changed its full name, and a message of
full name `T` that changed its source has the source `S`. -/
def TaggedAt (T S : GoString) (app app1 : App) : Prop :=
  ∀ q, (app1.msg q).FullName = (app.msg q).FullName ∧
    ((app.msg q).FullName = T →
      (app1.msg q).Source = (app.msg q).Source ∨ (app1.msg q).Source = S)

/-- The method `m` has the request and response declarations of `m0`; its
cached request and response are messages of the declared full names; and
they report the source `S` when that full name is `T`. -/
def Method.GoodAt (m m0 : Method) (T S : GoString) (app : App) : Prop :=
  m.RequestFullType = m0.RequestFullType ∧ m.RequestTypeSource = m0.RequestTypeSource ∧
  m.ResponseFullType = m0.ResponseFullType ∧ m.ResponseTypeSource = m0.ResponseTypeSource ∧
  (∀ p, m.request = some p →
    (app.msg p).FullName = m.RequestFullType ∧
      (m.RequestFullType = T → (app.msg p).Source = S)) ∧
  (∀ p, m.response = some p →
    (app.msg p).FullName = m.ResponseFullType ∧
      (m.ResponseFullType = T → (app.msg p).Source = S))

/-- What a call does to the method `m` and the application `app`, leaving
`m1` and `app1`: the messages of full name `T` are tagged with the source `S`
only, the method keeps recording `S` for `T`, and it stays good. -/
def Method.Effect (T S : GoString) (m : Method) (app : App) (m1 : Method) (app1 : App) :
    Prop :=
  TaggedAt T S app app1 ∧ m1.AgreesAt T S ∧ ∀ m0, m.GoodAt m0 T S app → m1.GoodAt m0 T S app1

/-! ## Construction and export -/

/-- Modelled from the spec: a REST mapping declaration of a method definition
(`defs.RESTMapping`), whose declaration is not part of the source file.  The
spec gives it an HTTP verb, a URL path template and a body field. -/
structure RESTMappingDef where
  Method : GoString
  Path : GoString
  Body : GoString
deriving DecidableEq, Repr

/-- Modelled from the spec: a method definition (`defs.ServiceMethod`), whose
declaration is not part of the source file; the fields are those
`NewMethod` reads.  `RESTMappings` is a slice, `none` being the `nil` slice;
its elements are pointers, taken non-nil. -/
structure ServiceMethod where
  Name : GoString
  Description : GoString
  Source : GoString
  CommandLine : GoString
  CommandLineHelp : GoString
  RequestType : GoString
  RequestFullType : GoString
  RequestTypeSource : GoString
  RequestStreaming : Bool
  ResponseType : GoString
  ResponseFullType : GoString
  ResponseTypeSource : GoString
  ResponseStreaming : Bool
  RESTMappings : Option (List RESTMappingDef)
deriving DecidableEq, Repr

/-- What `NewMethod` calls and the source file does not define:
`NewRestMapping` of package `models` and `markdown.CleanDescription`. -/
structure DefsEnv where
  NewRestMapping : RESTMappingDef → RestMapping
  CleanDescription : GoString → Bool → GoString

/-- Embedding of `NewMethod`.  The owning service and the code samples are
left out, as they are in `Method`. -/
def NewMethod (D : DefsEnv) (methodDef : ServiceMethod) : Method :=
  let m : Method :=
    { Name := methodDef.Name
      Description := parseDescription methodDef.Description
      Source := methodDef.Source
      CommandLine := methodDef.CommandLine
      CommandLineHelp := D.CleanDescription methodDef.CommandLineHelp false
      RequestType := methodDef.RequestType
      RequestFullType := methodDef.RequestFullType
      RequestTypeSource := methodDef.RequestTypeSource
      RequestStreaming := methodDef.RequestStreaming
      ResponseType := methodDef.ResponseType
      ResponseFullType := methodDef.ResponseFullType
      ResponseTypeSource := methodDef.ResponseTypeSource
      ResponseStreaming := methodDef.ResponseStreaming
      RestMapping := none
      request := none
      response := none
      nestedMessages := none
      nestedEnums := none }
  match methodDef.RESTMappings with
  | some (first :: _) => { m with RestMapping := some (D.NewRestMapping first) }
  | _ => m

/-- What `ExportMarkdown` does besides resolving the request: it updates the
request message, prints a line, runs the rendering engine. -/
inductive ExportEvent where
  | updateMessage (r : RestMapping) (msg : MsgPtr)
  | printf (text : GoString)
  | executeMethodTemplate (filePath : GoString)
deriving DecidableEq, Repr

/-- The event is a run of the rendering engine. -/
def ExportEvent.isRender : ExportEvent → Bool
  | .executeMethodTemplate _ => true
  | _ => false

/-- What `ExportMarkdown` calls and the source file does not define:
`RestMapping.UpdateMessage`, which changes the message it is given;
`strcase.ToKebab` and `markdown.ToKebabCase`; and the rendering engine
`markdown.ExecuteMethodTemplate`, of which the error it returns is kept
(`none` is `nil`). -/
structure ExportEnv where
  UpdateMessage : RestMapping → App → MsgPtr → App
  ToKebab : GoString → GoString
  ToKebabCase : GoString → GoString
  ExecuteMethodTemplate : App → Method → GoString → Option GoString

/-- The first statement of `ExportMarkdown`: when `m.RestMapping != nil`, the
request is resolved and the mapping updates it. -/
def Method.applyRestMapping (E : Env) (X : ExportEnv) (m : Method) (app : App) :
    Except GoString (Method × App × List ExportEvent) :=
  match m.RestMapping with
  | some r =>
    match m.Request E app with
    | .error e => .error e
    | .ok (msg, m, app) => .ok (m, X.UpdateMessage r app msg, [.updateMessage r msg])
  | none => .ok (m, app, [])

/-- Embedding of `Method.ExportMarkdown`.  The result holds the error
returned (`none` is `nil`), the method and the application as the call
leaves them, and what the call did, in order. -/
def Method.ExportMarkdown (E : Env) (X : ExportEnv) (m : Method) (servicePath : GoString)
    (app : App) : Except GoString (Option GoString × Method × App × List ExportEvent) :=
  match m.applyRestMapping E X app with
  | .error e => .error e
  | .ok (m, app, done) =>
    let fileName := X.ToKebab m.Name
    let filePath := servicePath ++ "/".toList ++ fileName ++ ".mdx".toList
    let done := done ++ [.printf ("Exporting method ".toList ++ m.Name ++ " to ".toList
      ++ filePath ++ "\n".toList)]
    let filePath := servicePath ++ "/".toList ++ X.ToKebabCase m.Name ++ ".mdx".toList
    let err := X.ExecuteMethodTemplate app m filePath
    let done := done ++ [.executeMethodTemplate filePath]
    match err with
    | some e => .ok (some e, m, app, done)
    | none => .ok (none, m, app, done)

/-- An export environment: an update that leaves the message as it is, the
identity for the two casing functions, and an engine that fails on the
method named `Broken` and succeeds on the others. -/
def exampleExport : ExportEnv where
  UpdateMessage := fun _ app _ => app
  ToKebab := id
  ToKebabCase := id
  ExecuteMethodTemplate := fun _ m _ =>
    if m.Name = "Broken".toList then some "template: no such file".toList else none

/-- The panic of `ExportMarkdown`, if it panicked. -/
def Method.exportPanic (E : Env) (X : ExportEnv) (m : Method) (servicePath : GoString)
    (app : App) : Option GoString :=
  match m.ExportMarkdown E X servicePath app with
  | .error e => some e
  | .ok _ => none

/-! ## The reference structure of the registry -/

/-- The pointer `m.Request()` returns: the cached one, or the registry's
message of full name `RequestFullType`. -/
def Method.requestRoot (m : Method) (app : App) : Option MsgPtr :=
  match m.request with
  | some p => some p
  | none => findMessage m.RequestFullType app.Messages

/-- The pointer `m.Response()` returns. -/
def Method.responseRoot (m : Method) (app : App) : Option MsgPtr :=
  match m.response with
  | some p => some p
  | none => findMessage m.ResponseFullType app.Messages

/-- The resolvers of the environment are the ones modelled from the spec. -/
def Env.SpecResolvers (E : Env) : Prop :=
  (∀ app root all depth,
    E.GetNestedMessages app root all depth
      = Models.GetNestedMessages E.unknown app depth root all) ∧
  (∀ app root all depth,
    E.GetNestedEnums app root all depth
      = Models.GetNestedEnums E.unknown app depth root all)

/-- The full names of the messages within `d` field type references of the
message at `p`: the types of its fields that are messages, and the names
within `d - 1` references of those. -/
def namesWithin (app : App) : Nat → MsgPtr → List GoString
  | 0, _ => []
  | d + 1, p =>
    (app.msg p).Fields.flatMap (fun f =>
      match findMessage f.FullType app.Messages with
      | some q => f.FullType :: namesWithin app d q
      | none => [])

/-- The enums that are field types of the message at `p` or of a message
within `d - 1` field type references of it, in the order of the fields. -/
def enumsWithin (app : App) : Nat → MsgPtr → List (GoString × EnumPtr)
  | 0, _ => []
  | d + 1, p =>
    (app.msg p).Fields.flatMap (fun f =>
      match app.GetEnum f.FullType with
      | some e => [(f.FullType, e)]
      | none =>
        match findMessage f.FullType app.Messages with
        | some q => enumsWithin app d q
        | none => [])

/-- Every chain of field type references that starts at the message at `p`
has at most `d` references. -/
def pathsEnd (app : App) : Nat → MsgPtr → Bool
  | 0, p => (app.msg p).Fields.all (fun f => (findMessage f.FullType app.Messages).isNone)
  | d + 1, p =>
    (app.msg p).Fields.all (fun f =>
      match findMessage f.FullType app.Messages with
      | some q => pathsEnd app d q
      | none => true)

/-- The message at `p` has a field of type `name`, which is the message at
`q`, and no field of another message type. -/
def App.onlyRef (app : App) (p : MsgPtr) (name : GoString) (q : MsgPtr) : Bool :=
  decide (findMessage name app.Messages = some q) &&
  (app.msg p).Fields.any (fun f => decide (f.FullType = name)) &&
  (app.msg p).Fields.all (fun f =>
    decide (f.FullType = name) || (findMessage f.FullType app.Messages).isNone)

/-- A chain of message references from the message at `p`: each message
refers to the next one of `chain` and to no other message. -/
def App.chain (app : App) : MsgPtr → List (GoString × MsgPtr) → Bool
  | _, [] => true
  | p, (name, q) :: rest => app.onlyRef p name q && app.chain q rest

/-- The entries of `l` added to the map, in order, an entry whose key the map
holds being skipped. -/
def GoMap.addAll {V : Type} (all : GoMap V) (l : List (GoString × V)) : GoMap V :=
  l.foldl (fun all kv =>
    match all.lookup kv.1 with
    | some _ => all
    | none => all.insert kv.1 kv.2) all

/-- Two result sets merged by full name: the entries of the first, and the
entries of the second whose full name the first does not hold. -/
def GoMap.merge {V : Type} (a b : GoMap V) : GoMap V := a.addAll b.entries

/-- Modelled from the spec: the collecting half of `nested_messages()` as the
spec words it, "The traversal is invoked independently for the request root and the response
root into two separate result sets, then merged by the caller". -/
def Method.collectMessagesSeparate (E : Env) (m : Method) (app : App) :
    Except GoString (GoMap MsgPtr × Method × App) :=
  match m.Request E app with
  | .error e => .error e
  | .ok (req, m, app) =>
    let fromRequest := E.GetNestedMessages app req GoMap.empty 10
    let app := app.record (.getNestedMessages req 10)
    match m.Response E app with
    | .error e => .error e
    | .ok (resp, m, app) =>
      let fromResponse := E.GetNestedMessages app resp GoMap.empty 10
      let app := app.record (.getNestedMessages resp 10)
      .ok (fromRequest.merge fromResponse, m, app)

/-- Modelled from the spec: the collecting half of `nested_enums()` as the
spec words it, with two separate result sets merged by the caller. -/
def Method.collectEnumsSeparate (E : Env) (m : Method) (app : App) :
    Except GoString (GoMap EnumPtr × Method × App) :=
  match m.Request E app with
  | .error e => .error e
  | .ok (req, m, app) =>
    let fromRequest := E.GetNestedEnums app req GoMap.empty 10
    let app := app.record (.getNestedEnums req 10)
    match m.Response E app with
    | .error e => .error e
    | .ok (resp, m, app) =>
      let fromResponse := E.GetNestedEnums app resp GoMap.empty 10
      let app := app.record (.getNestedEnums resp 10)
      .ok (fromRequest.merge fromResponse, m, app)

/-- Modelled from the spec: the accessor `nested_messages()`, the two separate
result sets merged by full name, sorted case-insensitively by full name and
cached.  The merged map is another map than the one `NestedMessages()`
fills, so its `range` loop has an order of its own, `range2`. -/
def Method.NestedMessagesSeparate (E : Env) (range2 : GoMap Nat → List (GoString × Nat))
    (m : Method) (app : App) : Except GoString (List MsgPtr × Method × App) :=
  match m.nestedMessages with
  | some l => .ok (l, m, app)
  | none =>
    match m.collectMessagesSeparate E app with
    | .error e => .error e
    | .ok (messages, m, app) =>
      let nested := (range2 messages).map Prod.snd
      let nested := E.SortFunc (lessMessage E app) nested
      .ok (nested, { m with nestedMessages := some nested }, app)

/-- Modelled from the spec: the accessor `nested_enums()`, the two separate
result sets merged by full name, sorted and cached. -/
def Method.NestedEnumsSeparate (E : Env) (range2 : GoMap Nat → List (GoString × Nat))
    (m : Method) (app : App) : Except GoString (List EnumPtr × Method × App) :=
  match m.nestedEnums with
  | some l => .ok (l, m, app)
  | none =>
    match m.collectEnumsSeparate E app with
    | .error e => .error e
    | .ok (enums, m, app) =>
      let nested := (range2 enums).map Prod.snd
      let nested := E.SortFunc (lessEnum E app) nested
      .ok (nested, { m with nestedEnums := some nested }, app)

/-- The full names of the messages `NestedMessages()` lists, if it
returns. -/
def Method.nestedMessageNames (E : Env) (m : Method) (app : App) : Option (List GoString) :=
  match m.NestedMessages E app with
  | .error _ => none
  | .ok (l, _, app) => some (l.map (fun p => (app.msg p).FullName))

/-- The full names of the messages `nested_messages()` as the spec words it
lists, if it returns. -/
def Method.nestedMessageNamesSeparate (E : Env) (range2 : GoMap Nat → List (GoString × Nat))
    (m : Method) (app : App) : Option (List GoString) :=
  match m.NestedMessagesSeparate E range2 app with
  | .error _ => none
  | .ok (l, _, app) => some (l.map (fun p => (app.msg p).FullName))

/-- The full name of the `i`-th message of `chainApp`: `lnrpc.C` followed by
`i` times `1`. -/
def chainName (i : Nat) : GoString := "lnrpc.C".toList ++ List.replicate i '1'

/-- A registry of `n + 1` messages in a chain: the `i`-th has one field, of
the type of the next message, the last has none. -/
def chainApp (n : Nat) : App where
  Messages := (List.range (n + 1)).map (fun i =>
    ⟨chainName i, "chain.proto".toList,
      if i < n then [⟨"next".toList, chainName (i + 1)⟩] else []⟩)
  Enums := []
  calls := []

/-- One turn of the loop of `GetNestedMessages` over the fields of the root,
with `d` the depth left for the messages referred to. -/
def visitMessageField (unknown : GoString → GoString) (app : App) (d : Nat)
    (all : GoMap MsgPtr) (f : Field) : GoMap MsgPtr :=
  match all.lookup f.FullType with
  | some _ => all
  | none =>
    match app.GetMessage unknown f.FullType with
    | .error _ => all
    | .ok p => GetNestedMessages unknown app d p (all.insert f.FullType p)

/-- One turn of the loop of `GetNestedEnums` over the fields of the root. -/
def visitEnumField (unknown : GoString → GoString) (app : App) (d : Nat)
    (all : GoMap EnumPtr) (f : Field) : GoMap EnumPtr :=
  match app.GetEnum f.FullType with
  | some e =>
    match all.lookup f.FullType with
    | some _ => all
    | none => all.insert f.FullType e
  | none =>
    match app.GetMessage unknown f.FullType with
    | .error _ => all
    | .ok p => GetNestedEnums unknown app d p all

/-- The map holds the types of the fields of the message at `p` that are
messages. -/
def ChildrenIn (app : App) (p : MsgPtr) (all : GoMap MsgPtr) : Prop :=
  ∀ f ∈ (app.msg p).Fields, ∀ q, findMessage f.FullType app.Messages = some q →
    f.FullType ∈ all.entries.map Prod.fst

/-- Every entry of the map is a full name with the registry's message of
that name. -/
def Resolved (app : App) (all : GoMap MsgPtr) : Prop :=
  ∀ kv ∈ all.entries, findMessage kv.1 app.Messages = some kv.2

/-- The two applications hold the same messages up to their sources, and the
same enums. -/
def App.Similar (app app1 : App) : Prop :=
  app1.Messages.map (fun msg => (msg.FullName, msg.Fields))
    = app.Messages.map (fun msg => (msg.FullName, msg.Fields)) ∧
  app1.Enums = app.Enums

/-- One entry added to the map, skipped when the map holds its key. -/
def GoMap.addOne {V : Type} (all : GoMap V) (kv : GoString × V) : GoMap V :=
  match all.lookup kv.1 with
  | some _ => all
  | none => all.insert kv.1 kv.2

/-- The registry resolves the request type and the response type of the
method to the messages at `rq` and `rp`, and a cached request or response of
the method is that message. -/
def Method.Rooted (m : Method) (app : App) (rq rp : MsgPtr) : Prop :=
  findMessage m.RequestFullType app.Messages = some rq ∧
  (m.request = none ∨ m.request = some rq) ∧
  findMessage m.ResponseFullType app.Messages = some rp ∧
  (m.response = none ∨ m.response = some rp)

/-- A registry with no cycle: the request and the response both refer to
`lnrpc.Inner`, and three fields are of an enum type. -/
def treeApp : App where
  Messages :=
    [ ⟨"lnrpc.TreeReq".toList, "tree.proto".toList,
        [⟨"inner".toList, "lnrpc.Inner".toList⟩, ⟨"kind".toList, "lnrpc.Kind".toList⟩]⟩,
      ⟨"lnrpc.TreeResp".toList, "tree.proto".toList,
        [⟨"side".toList, "lnrpc.Side".toList⟩, ⟨"inner".toList, "lnrpc.Inner".toList⟩,
         ⟨"leaf".toList, "lnrpc.Leaf".toList⟩]⟩,
      ⟨"lnrpc.Inner".toList, "tree.proto".toList,
        [⟨"kind".toList, "lnrpc.Kind".toList⟩, ⟨"count".toList, "uint32".toList⟩]⟩,
      ⟨"lnrpc.Leaf".toList, "tree.proto".toList, []⟩ ]
  Enums := [⟨"lnrpc.Kind".toList⟩, ⟨"lnrpc.Side".toList⟩]
  calls := []

/-- The full names of the enums `NestedEnums()` lists, if it returns. -/
def Method.nestedEnumNames (E : Env) (m : Method) (app : App) : Option (List GoString) :=
  match m.NestedEnums E app with
  | .error _ => none
  | .ok (l, _, app) => some (l.map (fun p => (app.enum p).FullName))

/-- The full name of the `i`-th message of the side chain of `forkApp`:
`lnrpc.A` followed by `i` times `1`. -/
def sideName (i : Nat) : GoString := "lnrpc.A".toList ++ List.replicate i '1'

/-- A registry of two chains that meet: the 13 messages of `chainApp 12`, then
`lnrpc.Fork`, which refers to the first of the 9 messages of a side chain, the
last of which refers to `lnrpc.C1`, the second message of the first chain. -/
def forkApp : App where
  Messages := (chainApp 12).Messages ++
    ⟨"lnrpc.Fork".toList, "fork.proto".toList, [⟨"next".toList, sideName 1⟩]⟩ ::
      (List.range 9).map (fun i =>
        ⟨sideName (i + 1), "fork.proto".toList,
          [⟨"next".toList, if i < 8 then sideName (i + 2) else chainName 1⟩]⟩)
  Enums := []
  calls := []

/-! ## Lemmas on the string functions -/

theorem HasPrefix_iff (s p : GoString) : HasPrefix s p = true ↔ p <+: s := by
  induction p generalizing s with
  | nil => cases s <;> simp [HasPrefix]
  | cons x p ih =>
    cases s with
    | nil => simp [HasPrefix]
    | cons c s =>
      simp only [HasPrefix, Bool.and_eq_true, beq_iff_eq, ih, List.cons_prefix_cons]
      constructor
      · rintro ⟨h1, h2⟩; exact ⟨h1.symm, h2⟩
      · rintro ⟨h1, h2⟩; exact ⟨h1.symm, h2⟩

theorem Contains_iff (s substr : GoString) : Contains s substr = true ↔ substr <:+: s := by
  induction s with
  | nil =>
    simp only [Contains, HasPrefix_iff, List.prefix_nil, List.infix_nil]
  | cons c s ih =>
    simp only [Contains, Bool.or_eq_true, HasPrefix_iff, ih, List.infix_cons_iff]

theorem infix_map_iff {α β : Type} (f : α → β) (s : List α) (p : List β) :
    p <:+: s.map f ↔ ∃ t, t <:+: s ∧ t.map f = p := by
  constructor
  · rintro ⟨a, b, h⟩
    obtain ⟨ab, b', _, hab, hb⟩ := List.map_eq_append_iff.1 h.symm
    obtain ⟨a', t, rfl, ha, ht⟩ := List.map_eq_append_iff.1 hab
    subst_vars
    exact ⟨t, ⟨a', b', rfl⟩, rfl⟩
  · rintro ⟨t, ⟨a, b, rfl⟩, rfl⟩
    exact ⟨a.map f, b.map f, by simp⟩

theorem Split_ne_nil (s : GoString) (sep : Char) : Split s sep ≠ [] := by
  induction s with
  | nil => simp [Split]
  | cons c s ih =>
    unfold Split
    split
    · simp
    · split <;> simp

theorem Join_Split (s : GoString) (sep : Char) : Join (Split s sep) [sep] = s := by
  induction s with
  | nil => simp [Split, Join]
  | cons c s ih =>
    unfold Split
    split
    · next h =>
      obtain ⟨l, ls, hl⟩ := List.exists_cons_of_ne_nil (Split_ne_nil s sep)
      rw [hl] at ih ⊢
      simp [Join, ih, h]
    · split
      · next h => exact absurd h (Split_ne_nil s sep)
      · next l ls h =>
        rw [h] at ih
        cases ls with
        | nil => simpa [Join] using ih
        | cons e es => simp only [Join, List.cons_append, List.append_assoc] at ih ⊢; rw [ih]

theorem Split_head (s : GoString) (sep : Char) :
    (Split s sep).headD [] = s.takeWhile (fun c => c != sep) := by
  induction s with
  | nil => simp [Split]
  | cons c s ih =>
    unfold Split
    split
    · next h => simp [h]
    · next h =>
      split
      · next h2 => exact absurd h2 (Split_ne_nil s sep)
      · next l ls h2 =>
        rw [h2] at ih
        simp only [List.headD_cons] at ih
        have hc : (c != sep) = true := by simpa using h
        simp [List.takeWhile, hc, ih]

theorem Split_tail (s : GoString) (sep : Char) :
    Join ((Split s sep).drop 1) [sep] = (s.dropWhile (fun c => c != sep)).drop 1 := by
  induction s with
  | nil => simp [Split, Join]
  | cons c s ih =>
    unfold Split
    split
    · next h => simp [h, Join_Split]
    · next h =>
      split
      · next h2 => exact absurd h2 (Split_ne_nil s sep)
      · next l ls h2 =>
        rw [h2] at ih
        simp only [List.drop_succ_cons, List.drop_zero] at ih
        have hc : (c != sep) = true := by simpa using h
        simp [List.dropWhile, hc, ih]

/-! ## Claims on the pure accessors -/

/-- C2: `StreamingDirection()` is "bidirectional" when both streaming flags
are set, "server" when only `ResponseStreaming` is, "client" when only
`RequestStreaming` is, and the empty string when neither is. -/
theorem StreamingDirection_cases (m : Method) :
    m.StreamingDirection =
      match m.RequestStreaming, m.ResponseStreaming with
      | true, true => "bidirectional".toList
      | false, true => "server".toList
      | true, false => "client".toList
      | false, false => [] := by
  unfold Method.StreamingDirection
  cases m.RequestStreaming <;> cases m.ResponseStreaming <;> rfl

/-- C3: `HasRestMapping()` is false when the mapping is absent and when it is
present with an empty path, true otherwise; `RestMethod()` and `RestPath()`
are empty in the two false cases and the mapping's `Method` and `Path`
otherwise. -/
theorem RestMapping_accessors (m : Method) :
    (m.HasRestMapping =
      match m.RestMapping with
      | none => false
      | some r => if r.Path = [] then false else true) ∧
    (m.RestMethod =
      match m.RestMapping with
      | none => []
      | some r => if r.Path = [] then [] else r.Method) ∧
    (m.RestPath =
      match m.RestMapping with
      | none => []
      | some r => if r.Path = [] then [] else r.Path) := by
  unfold Method.RestMethod Method.RestPath Method.HasRestMapping
  cases m.RestMapping with
  | none => simp
  | some r =>
    by_cases h : r.Path = [] <;> simp [h]

/-- C4: with the first line of `d` the text before its first newline,
`parseDescription d` is `d` without that line and the newline that ends it
when the line contains a colon, a space and a backtick, and is `d` itself
when the line does not, whatever the later lines contain. -/
theorem parseDescription_first_line (d : GoString) :
    parseDescription d =
      if Contains (d.takeWhile (fun c => c != '\n')) ": `".toList = true then
        (d.dropWhile (fun c => c != '\n')).drop 1
      else d := by
  unfold parseDescription
  by_cases hd : d = []
  · subst hd; decide
  · have hj : Join ((Split d '\n').drop 1) "\n".toList
        = (d.dropWhile (fun c => c != '\n')).drop 1 := Split_tail d '\n'
    simp only [hd, if_false, Split_head, hj]

/-- C5: `IsDeprecated()` is true exactly when some substring of the
description lower-cases to "deprecated"; it is true for
"DEPRECATED: use X instead"; and it is the same for two methods with the
same description, whatever their other fields. -/
theorem IsDeprecated_iff (tbl : Char → Char) (m : Method) :
    (m.IsDeprecated tbl = true ↔
      ∃ t : GoString, t <:+: m.Description ∧ ToLower tbl t = "deprecated".toList) ∧
    ({ m with Description := "DEPRECATED: use X instead".toList }.IsDeprecated tbl = true) ∧
    (∀ other : Method,
      { other with Description := m.Description }.IsDeprecated tbl = m.IsDeprecated tbl) := by
  refine ⟨?_, ?_, fun _ => rfl⟩
  · unfold Method.IsDeprecated ToLower
    rw [Contains_iff, infix_map_iff]
  · rfl

/-! ## Lemmas on the order of strings and on the sort -/

theorem Char_toNat_inj (a b : Char) (h : a.toNat = b.toNat) : a = b := by
  apply Char.ext
  apply UInt32.ext
  exact h

theorem stringLess_asymm : ∀ a b : GoString, stringLess a b = true → stringLess b a = false
  | [], [], h => by simp [stringLess] at h
  | [], _ :: _, _ => by simp [stringLess]
  | _ :: _, [], h => by simp [stringLess] at h
  | a :: as, b :: bs, h => by
    simp only [stringLess] at h ⊢
    by_cases h1 : a.toNat < b.toNat
    · rw [if_neg (by omega), if_pos h1]
    · rw [if_neg h1] at h
      by_cases h2 : b.toNat < a.toNat
      · simp [h2] at h
      · rw [if_neg h2] at h
        rw [if_neg h2, if_neg h1]
        exact stringLess_asymm as bs h

theorem stringLess_negtrans : ∀ a b c : GoString,
    stringLess a b = false → stringLess b c = false → stringLess a c = false
  | [], [], c, _, h2 => h2
  | [], _ :: _, _, h1, _ => by simp [stringLess] at h1
  | _ :: _, _, [], _, _ => by simp [stringLess]
  | _ :: _, [], _ :: _, _, h2 => by simp [stringLess] at h2
  | a :: as, b :: bs, c :: cs, h1, h2 => by
    simp only [stringLess] at h1 h2 ⊢
    by_cases hab : a.toNat < b.toNat
    · simp [hab] at h1
    · rw [if_neg hab] at h1
      by_cases hbc : b.toNat < c.toNat
      · simp [hbc] at h2
      · rw [if_neg hbc] at h2
        rw [if_neg (by omega)]
        by_cases hba : b.toNat < a.toNat
        · rw [if_pos (by omega)]
        · rw [if_neg hba] at h1
          by_cases hcb : c.toNat < b.toNat
          · rw [if_pos (by omega)]
          · rw [if_neg hcb] at h2
            rw [if_neg (by omega)]
            exact stringLess_negtrans as bs cs h1 h2

theorem stringLess_total : ∀ a b : GoString,
    stringLess b a = false → stringLess a b = true ∨ a = b
  | [], [], _ => Or.inr rfl
  | [], _ :: _, _ => by simp [stringLess]
  | _ :: _, [], h => by simp [stringLess] at h
  | a :: as, b :: bs, h => by
    simp only [stringLess] at h ⊢
    by_cases hba : b.toNat < a.toNat
    · simp [hba] at h
    · rw [if_neg hba] at h
      by_cases hab : a.toNat < b.toNat
      · simp [hab]
      · rw [if_neg hab] at h
        rw [if_neg hab, if_neg hba]
        have hc : a = b := Char_toNat_inj a b (by omega)
        rcases stringLess_total as bs h with h3 | h3
        · exact Or.inl h3
        · exact Or.inr (by rw [hc, h3])

theorem strictWeak_of_key {α : Type} (key : α → GoString) :
    StrictWeak (fun a b => stringLess (key a) (key b)) :=
  ⟨fun _ _ h => stringLess_asymm _ _ h, fun _ _ _ h1 h2 => stringLess_negtrans _ _ _ h1 h2⟩

theorem insertBack_perm {α : Type} (less : α → α → Bool) (x : α) (l : List α) :
    (insertBack less x l).Perm (x :: l) := by
  induction l with
  | nil => exact List.Perm.refl _
  | cons y ys ih =>
    unfold insertBack
    split
    · exact (List.Perm.cons y ih).trans (List.Perm.swap x y ys)
    · exact List.Perm.refl _

theorem insertBack_sorted {α : Type} (less : α → α → Bool) (hw : StrictWeak less) (x : α)
    (l : List α) (hl : l.Pairwise (fun a b => less a b = false)) :
    (insertBack less x l).Pairwise (fun a b => less a b = false) := by
  induction l with
  | nil => simp [insertBack]
  | cons y ys ih =>
    rw [List.pairwise_cons] at hl
    unfold insertBack
    split
    · next h =>
      rw [List.pairwise_cons]
      refine ⟨fun w hmem => ?_, ih hl.2⟩
      rcases List.mem_cons.1 ((insertBack_perm less x ys).mem_iff.1 hmem) with rfl | hmem
      · exact hw.1 _ _ h
      · exact hl.1 w hmem
    · next h =>
      have hxy : less x y = false := by simpa using h
      rw [List.pairwise_cons]
      refine ⟨fun w hmem => ?_, List.pairwise_cons.2 hl⟩
      rcases List.mem_cons.1 hmem with rfl | hmem
      · exact hxy
      · exact hw.2 _ _ _ hxy (hl.1 w hmem)

theorem foldl_insertBack_perm {α : Type} (less : α → α → Bool) (data sorted : List α) :
    (data.foldl (fun sorted x => insertBack less x sorted) sorted).Perm (data ++ sorted) := by
  induction data generalizing sorted with
  | nil => exact List.Perm.refl _
  | cons x data ih =>
    simp only [List.foldl_cons, List.cons_append]
    refine (ih _).trans ?_
    exact ((insertBack_perm less x sorted).append_left data).trans List.perm_middle

theorem foldl_insertBack_sorted {α : Type} (less : α → α → Bool) (hw : StrictWeak less)
    (data sorted : List α) (hs : sorted.Pairwise (fun a b => less a b = false)) :
    (data.foldl (fun sorted x => insertBack less x sorted) sorted).Pairwise
      (fun a b => less a b = false) := by
  induction data generalizing sorted with
  | nil => exact hs
  | cons x data ih => exact ih _ (insertBack_sorted less hw x sorted hs)

theorem insertionSortLessFunc_perm {α : Type} (less : α → α → Bool) (data : List α) :
    (insertionSortLessFunc less data).Perm data := by
  unfold insertionSortLessFunc
  refine (List.reverse_perm _).trans ?_
  simpa using foldl_insertBack_perm less data []

theorem insertionSortLessFunc_sorted {α : Type} (less : α → α → Bool) (hw : StrictWeak less)
    (data : List α) :
    (insertionSortLessFunc less data).Pairwise (fun a b => less b a = false) := by
  unfold insertionSortLessFunc
  rw [List.pairwise_reverse]
  exact foldl_insertBack_sorted less hw data [] List.Pairwise.nil

theorem goEnv_SortOk (order : List (GoString × Nat) → List (GoString × Nat)) :
    (goEnv order).SortOk :=
  fun less data =>
    ⟨insertionSortLessFunc_perm less data, fun hw => insertionSortLessFunc_sorted less hw data⟩

theorem goEnv_RangeOk (order : List (GoString × Nat) → List (GoString × Nat))
    (h : ∀ l, (order l).Perm l) : (goEnv order).RangeOk :=
  fun all => h all.entries

/-! ## Lemmas on the registry and on `Request` and `Response` -/

theorem findMessage_some (name : GoString) (d : Message) :
    ∀ (l : List Message) (p : MsgPtr), findMessage name l = some p →
      p < l.length ∧ (l.getD p d).FullName = name
  | [], _, h => by simp [findMessage] at h
  | msg :: rest, p, h => by
    unfold findMessage at h
    split at h
    · next hn =>
      cases h
      exact ⟨by simp, by simpa using hn⟩
    · cases hr : findMessage name rest with
      | none => simp [hr] at h
      | some q =>
        simp only [hr, Option.map_some', Option.some.injEq] at h
        subst h
        obtain ⟨h1, h2⟩ := findMessage_some name d rest q hr
        exact ⟨by simpa using h1, by simpa using h2⟩

theorem GetMessage_valid (app : App) (unknown : GoString → GoString) (name : GoString)
    (p : MsgPtr) (h : app.GetMessage unknown name = .ok p) :
    p < app.Messages.length ∧ (app.msg p).FullName = name := by
  unfold App.GetMessage at h
  cases hf : findMessage name app.Messages with
  | none => simp [hf] at h
  | some q =>
    simp only [hf, Except.ok.injEq] at h
    subst h
    exact findMessage_some name _ _ _ hf

theorem msg_setSource_self (app : App) (p : MsgPtr) (source : GoString)
    (hp : p < app.Messages.length) :
    (app.setSource p source).msg p = { app.msg p with Source := source } := by
  simp [App.setSource, App.msg, List.getD_eq_getElem?_getD, List.getElem?_set, hp]

theorem msg_setSource_other (app : App) (p q : MsgPtr) (source : GoString) (hq : q ≠ p) :
    (app.setSource p source).msg q = app.msg q := by
  simp [App.setSource, App.msg, List.getD_eq_getElem?_getD, List.getElem?_set, Ne.symm hq]

theorem msg_record (app : App) (e : Event) (p : MsgPtr) : (app.record e).msg p = app.msg p := rfl

theorem Request_miss (E : Env) (m : Method) (app : App) (hc : m.request = none) :
    m.Request E app =
      match app.GetMessage E.unknown m.RequestFullType with
      | .error err =>
        .error ("Error getting message ".toList ++ m.RequestFullType ++ " for ".toList
          ++ m.Name ++ ": ".toList ++ err)
      | .ok msg =>
        .ok (msg, { m with request := some msg },
          (app.record (.getMessage m.RequestFullType)).setSource msg m.RequestTypeSource) := by
  unfold Method.Request
  rw [hc]

theorem Response_miss (E : Env) (m : Method) (app : App) (hc : m.response = none) :
    m.Response E app =
      match app.GetMessage E.unknown m.ResponseFullType with
      | .error err =>
        .error ("Error getting message ".toList ++ m.ResponseFullType ++ " for ".toList
          ++ m.Name ++ ": ".toList ++ err)
      | .ok msg =>
        .ok (msg, { m with response := some msg },
          (app.record (.getMessage m.ResponseFullType)).setSource msg m.ResponseTypeSource) := by
  unfold Method.Response
  rw [hc]

/-! ## Claims on `Request` and `Response` -/

/-- C6: when the registry resolves `RequestFullType` to a message, the first
call of `Request()` returns that message, which then has `Source` equal to
the method's `RequestTypeSource` and its other fields as the registry held
them; no other message of the registry changes.  The same for `Response()`
with `ResponseFullType` and `ResponseTypeSource`. -/
theorem first_call_tags_source (E : Env) (m : Method) (app : App) :
    (m.request = none → ∀ p, app.GetMessage E.unknown m.RequestFullType = .ok p →
      ∃ app1, m.Request E app = .ok (p, { m with request := some p }, app1) ∧
        app1.msg p = { app.msg p with Source := m.RequestTypeSource } ∧
        ∀ q, q ≠ p → app1.msg q = app.msg q) ∧
    (m.response = none → ∀ p, app.GetMessage E.unknown m.ResponseFullType = .ok p →
      ∃ app1, m.Response E app = .ok (p, { m with response := some p }, app1) ∧
        app1.msg p = { app.msg p with Source := m.ResponseTypeSource } ∧
        ∀ q, q ≠ p → app1.msg q = app.msg q) := by
  constructor
  · intro hc p hp
    refine ⟨_, by rw [Request_miss E m app hc, hp], ?_, ?_⟩
    · exact msg_setSource_self (app.record _) p _ (GetMessage_valid app _ _ p hp).1
    · intro q hq
      exact msg_setSource_other (app.record _) p q _ hq
  · intro hc p hp
    refine ⟨_, by rw [Response_miss E m app hc, hp], ?_, ?_⟩
    · exact msg_setSource_self (app.record _) p _ (GetMessage_valid app _ _ p hp).1
    · intro q hq
      exact msg_setSource_other (app.record _) p q _ hq

/-- Witness of C6 on the example registry. -/
theorem first_call_tags_source_witness :
    (∃ app1, (exampleMethod "Echo".toList "lnrpc.Req".toList "a.proto".toList
          "lnrpc.Resp".toList "b.proto".toList).Request (goEnv id) exampleApp
        = .ok (0, { exampleMethod "Echo".toList "lnrpc.Req".toList "a.proto".toList
          "lnrpc.Resp".toList "b.proto".toList with request := some 0 }, app1) ∧
      app1.msg 0 = { exampleApp.msg 0 with Source := "a.proto".toList } ∧
      ∀ q, q ≠ 0 → app1.msg q = exampleApp.msg q) ∧
    (∃ app1, (exampleMethod "Echo".toList "lnrpc.Req".toList "a.proto".toList
          "lnrpc.Resp".toList "b.proto".toList).Response (goEnv id) exampleApp
        = .ok (1, { exampleMethod "Echo".toList "lnrpc.Req".toList "a.proto".toList
          "lnrpc.Resp".toList "b.proto".toList with response := some 1 }, app1) ∧
      app1.msg 1 = { exampleApp.msg 1 with Source := "b.proto".toList } ∧
      ∀ q, q ≠ 1 → app1.msg q = exampleApp.msg q) :=
  ⟨(first_call_tags_source (goEnv id) (exampleMethod "Echo".toList "lnrpc.Req".toList
      "a.proto".toList "lnrpc.Resp".toList "b.proto".toList) exampleApp).1 rfl 0 rfl,
   (first_call_tags_source (goEnv id) (exampleMethod "Echo".toList "lnrpc.Req".toList
      "a.proto".toList "lnrpc.Resp".toList "b.proto".toList) exampleApp).2 rfl 1 rfl⟩

theorem Request_error_names (E : Env) (m : Method) (app : App) (hc : m.request = none)
    (e : GoString) (h : m.Request E app = .error e) :
    ∃ err, app.GetMessage E.unknown m.RequestFullType = .error err ∧
      e = "Error getting message ".toList ++ m.RequestFullType ++ " for ".toList
        ++ m.Name ++ ": ".toList ++ err := by
  rw [Request_miss E m app hc] at h
  cases hg : app.GetMessage E.unknown m.RequestFullType with
  | error err =>
    rw [hg] at h
    simp only [Except.error.injEq] at h
    exact ⟨err, rfl, h.symm⟩
  | ok p => rw [hg] at h; simp at h

theorem Response_error_names (E : Env) (m : Method) (app : App) (hc : m.response = none)
    (e : GoString) (h : m.Response E app = .error e) :
    ∃ err, app.GetMessage E.unknown m.ResponseFullType = .error err ∧
      e = "Error getting message ".toList ++ m.ResponseFullType ++ " for ".toList
        ++ m.Name ++ ": ".toList ++ err := by
  rw [Response_miss E m app hc] at h
  cases hg : app.GetMessage E.unknown m.ResponseFullType with
  | error err =>
    rw [hg] at h
    simp only [Except.error.injEq] at h
    exact ⟨err, rfl, h.symm⟩
  | ok p => rw [hg] at h; simp at h

theorem panic_text_names (ty name err : GoString) :
    Contains ("Error getting message ".toList ++ ty ++ " for ".toList ++ name
        ++ ": ".toList ++ err) ty = true ∧
    Contains ("Error getting message ".toList ++ ty ++ " for ".toList ++ name
        ++ ": ".toList ++ err) name = true := by
  constructor
  · rw [Contains_iff]
    exact ⟨"Error getting message ".toList, " for ".toList ++ name ++ ": ".toList ++ err,
      by simp [List.append_assoc]⟩
  · rw [Contains_iff]
    exact ⟨"Error getting message ".toList ++ ty ++ " for ".toList, ": ".toList ++ err,
      by simp [List.append_assoc]⟩

/-- C7: with no cached request, `Request()` panics exactly when the registry
cannot resolve `RequestFullType`; the panic text is
"Error getting message <RequestFullType> for <Name>: <error>", which contains
the type and the method name; and a message it returns is the one the
registry resolved, never another.  The same for `Response()` with
`ResponseFullType`. -/
theorem panics_iff_unresolved (E : Env) (m : Method) (app : App) :
    (m.request = none →
      ((∃ e, m.Request E app = .error e) ↔
        ∃ err, app.GetMessage E.unknown m.RequestFullType = .error err) ∧
      (∀ e, m.Request E app = .error e →
        (∃ err, app.GetMessage E.unknown m.RequestFullType = .error err ∧
          e = "Error getting message ".toList ++ m.RequestFullType ++ " for ".toList
            ++ m.Name ++ ": ".toList ++ err) ∧
        Contains e m.RequestFullType = true ∧ Contains e m.Name = true) ∧
      (∀ p m1 app1, m.Request E app = .ok (p, m1, app1) →
        app.GetMessage E.unknown m.RequestFullType = .ok p)) ∧
    (m.response = none →
      ((∃ e, m.Response E app = .error e) ↔
        ∃ err, app.GetMessage E.unknown m.ResponseFullType = .error err) ∧
      (∀ e, m.Response E app = .error e →
        (∃ err, app.GetMessage E.unknown m.ResponseFullType = .error err ∧
          e = "Error getting message ".toList ++ m.ResponseFullType ++ " for ".toList
            ++ m.Name ++ ": ".toList ++ err) ∧
        Contains e m.ResponseFullType = true ∧ Contains e m.Name = true) ∧
      (∀ p m1 app1, m.Response E app = .ok (p, m1, app1) →
        app.GetMessage E.unknown m.ResponseFullType = .ok p)) := by
  constructor
  · intro hc
    refine ⟨⟨?_, ?_⟩, ?_, ?_⟩
    · rintro ⟨e, he⟩
      obtain ⟨err, h1, _⟩ := Request_error_names E m app hc e he
      exact ⟨err, h1⟩
    · rintro ⟨err, he⟩
      exact ⟨_, by rw [Request_miss E m app hc, he]⟩
    · intro e he
      obtain ⟨err, h1, h2⟩ := Request_error_names E m app hc e he
      refine ⟨⟨err, h1, h2⟩, ?_⟩
      rw [h2]
      exact panic_text_names _ _ _
    · intro p m1 app1 h
      rw [Request_miss E m app hc] at h
      cases hg : app.GetMessage E.unknown m.RequestFullType with
      | error err => rw [hg] at h; simp at h
      | ok q =>
        rw [hg] at h
        simp only [Except.ok.injEq, Prod.mk.injEq] at h
        rw [h.1]
  · intro hc
    refine ⟨⟨?_, ?_⟩, ?_, ?_⟩
    · rintro ⟨e, he⟩
      obtain ⟨err, h1, _⟩ := Response_error_names E m app hc e he
      exact ⟨err, h1⟩
    · rintro ⟨err, he⟩
      exact ⟨_, by rw [Response_miss E m app hc, he]⟩
    · intro e he
      obtain ⟨err, h1, h2⟩ := Response_error_names E m app hc e he
      refine ⟨⟨err, h1, h2⟩, ?_⟩
      rw [h2]
      exact panic_text_names _ _ _
    · intro p m1 app1 h
      rw [Response_miss E m app hc] at h
      cases hg : app.GetMessage E.unknown m.ResponseFullType with
      | error err => rw [hg] at h; simp at h
      | ok q =>
        rw [hg] at h
        simp only [Except.ok.injEq, Prod.mk.injEq] at h
        rw [h.1]

/-- Witness of C7: a method whose request type and response type are not in
the example registry. -/
theorem panics_iff_unresolved_witness :
    (∃ e, (exampleMethod "Echo".toList "lnrpc.Gone".toList [] "lnrpc.Lost".toList []).Request
        (goEnv id) exampleApp = .error e) ∧
    (∃ e, (exampleMethod "Echo".toList "lnrpc.Gone".toList [] "lnrpc.Lost".toList []).Response
        (goEnv id) exampleApp = .error e) :=
  ⟨((panics_iff_unresolved (goEnv id) (exampleMethod "Echo".toList "lnrpc.Gone".toList []
      "lnrpc.Lost".toList []) exampleApp).1 rfl).1.2 ⟨_, rfl⟩,
   ((panics_iff_unresolved (goEnv id) (exampleMethod "Echo".toList "lnrpc.Gone".toList []
      "lnrpc.Lost".toList []) exampleApp).2 rfl).1.2 ⟨_, rfl⟩⟩

/-! ## Claims on the nested lists -/

theorem sorted_values (E : Env) (hrange : E.RangeOk) (hsort : E.SortOk)
    (all : GoMap Nat) (key : Nat → GoString)
    (hkey : ∀ kv ∈ all.entries, key kv.2 = kv.1) :
    let l := E.SortFunc (fun i j => stringLess (ToLower E.unicodeToLower (key i))
      (ToLower E.unicodeToLower (key j))) ((E.range all).map Prod.snd)
    l.Perm (all.entries.map Prod.snd) ∧
    (l.map key).Perm (all.entries.map Prod.fst) ∧
    (l.map key).Nodup ∧
    l.Pairwise (fun p q =>
      stringLess (ToLower E.unicodeToLower (key p)) (ToLower E.unicodeToLower (key q)) = true ∨
      ToLower E.unicodeToLower (key p) = ToLower E.unicodeToLower (key q)) := by
  intro l
  have hperm : l.Perm (all.entries.map Prod.snd) :=
    (hsort _ _).1.trans ((hrange all).map Prod.snd)
  have hnames : (l.map key).Perm (all.entries.map Prod.fst) := by
    refine (hperm.map key).trans ?_
    rw [List.map_map]
    exact List.Perm.of_eq (List.map_congr_left (fun kv hkv => hkey kv hkv))
  refine ⟨hperm, hnames, hnames.nodup_iff.2 all.nodupKeys, ?_⟩
  have hs := (hsort (fun i j => stringLess (ToLower E.unicodeToLower (key i))
      (ToLower E.unicodeToLower (key j))) ((E.range all).map Prod.snd)).2
    (strictWeak_of_key (fun i => ToLower E.unicodeToLower (key i)))
  exact hs.imp (fun h => stringLess_total _ _ h)

/-- C1: on a method with no cached list, with `req` what `m.Request()` returns
and `resp` what `m.Response()` then returns, `NestedMessages()` returns the
values of the map that the resolver run from `req` into an empty map and
then the resolver run from `resp` into that same map have filled, each once;
the map being keyed by the messages' full names, the full names of the list
are the keys of that map, none twice (a type found from both roots is one
key); and the list is in non-decreasing order of the lower-cased full name.
The same for `NestedEnums()`. -/
theorem nested_lists_sorted_once (E : Env) (hrange : E.RangeOk) (hsort : E.SortOk)
    (m : Method) (app : App) :
    (∀ (req : MsgPtr) (ma : Method) (appa : App) (resp : MsgPtr) (mb : Method) (appb : App),
      m.nestedMessages = none →
      m.Request E app = .ok (req, ma, appa) →
      ma.Response E (appa.record (.getNestedMessages req 10)) = .ok (resp, mb, appb) →
      (∀ kv ∈ (E.GetNestedMessages appb resp
          (E.GetNestedMessages appa req GoMap.empty 10) 10).entries,
        ((appb.record (.getNestedMessages resp 10)).msg kv.2).FullName = kv.1) →
      ∃ l, m.NestedMessages E app
          = .ok (l, { mb with nestedMessages := some l },
              appb.record (.getNestedMessages resp 10)) ∧
        l.Perm ((E.GetNestedMessages appb resp
          (E.GetNestedMessages appa req GoMap.empty 10) 10).entries.map Prod.snd) ∧
        (l.map (fun p => ((appb.record (.getNestedMessages resp 10)).msg p).FullName)).Perm
          ((E.GetNestedMessages appb resp
            (E.GetNestedMessages appa req GoMap.empty 10) 10).entries.map Prod.fst) ∧
        (l.map (fun p => ((appb.record (.getNestedMessages resp 10)).msg p).FullName)).Nodup ∧
        l.Pairwise (fun p q =>
          stringLess
            (ToLower E.unicodeToLower
              ((appb.record (.getNestedMessages resp 10)).msg p).FullName)
            (ToLower E.unicodeToLower
              ((appb.record (.getNestedMessages resp 10)).msg q).FullName) = true ∨
          ToLower E.unicodeToLower ((appb.record (.getNestedMessages resp 10)).msg p).FullName
            = ToLower E.unicodeToLower
              ((appb.record (.getNestedMessages resp 10)).msg q).FullName)) ∧
    (∀ (req : MsgPtr) (ma : Method) (appa : App) (resp : MsgPtr) (mb : Method) (appb : App),
      m.nestedEnums = none →
      m.Request E app = .ok (req, ma, appa) →
      ma.Response E (appa.record (.getNestedEnums req 10)) = .ok (resp, mb, appb) →
      (∀ kv ∈ (E.GetNestedEnums appb resp
          (E.GetNestedEnums appa req GoMap.empty 10) 10).entries,
        ((appb.record (.getNestedEnums resp 10)).enum kv.2).FullName = kv.1) →
      ∃ l, m.NestedEnums E app
          = .ok (l, { mb with nestedEnums := some l },
              appb.record (.getNestedEnums resp 10)) ∧
        l.Perm ((E.GetNestedEnums appb resp
          (E.GetNestedEnums appa req GoMap.empty 10) 10).entries.map Prod.snd) ∧
        (l.map (fun p => ((appb.record (.getNestedEnums resp 10)).enum p).FullName)).Perm
          ((E.GetNestedEnums appb resp
            (E.GetNestedEnums appa req GoMap.empty 10) 10).entries.map Prod.fst) ∧
        (l.map (fun p => ((appb.record (.getNestedEnums resp 10)).enum p).FullName)).Nodup ∧
        l.Pairwise (fun p q =>
          stringLess
            (ToLower E.unicodeToLower
              ((appb.record (.getNestedEnums resp 10)).enum p).FullName)
            (ToLower E.unicodeToLower
              ((appb.record (.getNestedEnums resp 10)).enum q).FullName) = true ∨
          ToLower E.unicodeToLower ((appb.record (.getNestedEnums resp 10)).enum p).FullName
            = ToLower E.unicodeToLower
              ((appb.record (.getNestedEnums resp 10)).enum q).FullName)) := by
  constructor
  · intro req ma appa resp mb appb hc hreq hresp hkey
    refine ⟨_, ?_, sorted_values E hrange hsort _
      (fun p => ((appb.record (.getNestedMessages resp 10)).msg p).FullName) hkey⟩
    unfold Method.NestedMessages Method.collectMessages
    rw [hc, hreq]
    simp only
    rw [hresp]
    rfl
  · intro req ma appa resp mb appb hc hreq hresp hkey
    refine ⟨_, ?_, sorted_values E hrange hsort _
      (fun p => ((appb.record (.getNestedEnums resp 10)).enum p).FullName) hkey⟩
    unfold Method.NestedEnums Method.collectEnums
    rw [hc, hreq]
    simp only
    rw [hresp]
    rfl

/-- Witness of C1: the method of the example registry whose request,
`lnrpc.Resp`, has fields of type `lnrpc.Foo` and of the enum `lnrpc.Kind`, and
whose response, `lnrpc.Bar`, has fields of types `lnrpc.Foo` and `lnrpc.Resp`:
the run from the request collects `lnrpc.Foo`, the run from the response adds
`lnrpc.Resp`, and `lnrpc.Foo`, found from both, is listed once. -/
theorem nested_lists_sorted_once_witness :
    (∃ (req : MsgPtr) (ma : Method) (appa : App) (resp : MsgPtr) (mb : Method) (appb : App),
      (exampleMethod "Echo".toList "lnrpc.Resp".toList [] "lnrpc.Bar".toList []).Request
        (goEnv id) exampleApp = .ok (req, ma, appa) ∧
      ma.Response (goEnv id) (appa.record (.getNestedMessages req 10)) = .ok (resp, mb, appb) ∧
      ((goEnv id).GetNestedMessages appa req GoMap.empty 10).entries
        = [("lnrpc.Foo".toList, 2)] ∧
      ((goEnv id).GetNestedMessages appb resp
        ((goEnv id).GetNestedMessages appa req GoMap.empty 10) 10).entries
        = [("lnrpc.Foo".toList, 2), ("lnrpc.Resp".toList, 1)] ∧
      ∃ l, (exampleMethod "Echo".toList "lnrpc.Resp".toList [] "lnrpc.Bar".toList
            []).NestedMessages (goEnv id) exampleApp
          = .ok (l, { mb with nestedMessages := some l },
              appb.record (.getNestedMessages resp 10)) ∧
        l.Perm (((goEnv id).GetNestedMessages appb resp
          ((goEnv id).GetNestedMessages appa req GoMap.empty 10) 10).entries.map Prod.snd) ∧
        (l.map (fun p => ((appb.record (.getNestedMessages resp 10)).msg p).FullName)).Nodup) ∧
    (∃ (req : MsgPtr) (ma : Method) (appa : App) (resp : MsgPtr) (mb : Method) (appb : App),
      (exampleMethod "Echo".toList "lnrpc.Resp".toList [] "lnrpc.Bar".toList []).Request
        (goEnv id) exampleApp = .ok (req, ma, appa) ∧
      ma.Response (goEnv id) (appa.record (.getNestedEnums req 10)) = .ok (resp, mb, appb) ∧
      ((goEnv id).GetNestedEnums appb resp
        ((goEnv id).GetNestedEnums appa req GoMap.empty 10) 10).entries
        = [("lnrpc.Kind".toList, 0)] ∧
      ∃ l, (exampleMethod "Echo".toList "lnrpc.Resp".toList [] "lnrpc.Bar".toList
            []).NestedEnums (goEnv id) exampleApp
          = .ok (l, { mb with nestedEnums := some l },
              appb.record (.getNestedEnums resp 10)) ∧
        l.Perm (((goEnv id).GetNestedEnums appb resp
          ((goEnv id).GetNestedEnums appa req GoMap.empty 10) 10).entries.map Prod.snd) ∧
        (l.map (fun p => ((appb.record (.getNestedEnums resp 10)).enum p).FullName)).Nodup) := by
  refine ⟨⟨_, _, _, _, _, _, rfl, rfl, rfl, rfl, ?_⟩, ⟨_, _, _, _, _, _, rfl, rfl, rfl, ?_⟩⟩
  · obtain ⟨l, h1, h2, _, h4, _⟩ :=
      (nested_lists_sorted_once (goEnv id) (goEnv_RangeOk id (fun l => List.Perm.refl l))
        (goEnv_SortOk id)
        (exampleMethod "Echo".toList "lnrpc.Resp".toList [] "lnrpc.Bar".toList [])
        exampleApp).1 _ _ _ _ _ _ rfl rfl rfl (by decide)
    exact ⟨l, h1, h2, h4⟩
  · obtain ⟨l, h1, h2, _, h4, _⟩ :=
      (nested_lists_sorted_once (goEnv id) (goEnv_RangeOk id (fun l => List.Perm.refl l))
        (goEnv_SortOk id)
        (exampleMethod "Echo".toList "lnrpc.Resp".toList [] "lnrpc.Bar".toList [])
        exampleApp).2 _ _ _ _ _ _ rfl rfl rfl (by decide)
    exact ⟨l, h1, h2, h4⟩

/-! ## The caches -/

theorem Extends_refl (m : Method) : m.Extends m := fun _ _ h => h

theorem Extends_trans {m m1 m2 : Method} (h1 : m.Extends m1) (h2 : m1.Extends m2) :
    m.Extends m2 := fun a v h => h2 a v (h1 a v h)

theorem Request_shape (E : Env) (m : Method) (app : App) (p : MsgPtr) (m1 : Method)
    (app1 : App) (h : m.Request E app = .ok (p, m1, app1)) :
    m1 = { m with request := some p } ∧ (m.request = none ∨ m.request = some p) := by
  unfold Method.Request at h
  cases hc : m.request with
  | some q =>
    rw [hc] at h
    simp only [Except.ok.injEq, Prod.mk.injEq] at h
    obtain ⟨rfl, rfl, _⟩ := h
    exact ⟨by cases m; simp_all, Or.inr rfl⟩
  | none =>
    rw [hc] at h
    cases hg : app.GetMessage E.unknown m.RequestFullType with
    | error err => rw [hg] at h; simp at h
    | ok q =>
      rw [hg] at h
      simp only [Except.ok.injEq, Prod.mk.injEq] at h
      obtain ⟨rfl, rfl, _⟩ := h
      exact ⟨rfl, Or.inl rfl⟩

theorem Response_shape (E : Env) (m : Method) (app : App) (p : MsgPtr) (m1 : Method)
    (app1 : App) (h : m.Response E app = .ok (p, m1, app1)) :
    m1 = { m with response := some p } ∧ (m.response = none ∨ m.response = some p) := by
  unfold Method.Response at h
  cases hc : m.response with
  | some q =>
    rw [hc] at h
    simp only [Except.ok.injEq, Prod.mk.injEq] at h
    obtain ⟨rfl, rfl, _⟩ := h
    exact ⟨by cases m; simp_all, Or.inr rfl⟩
  | none =>
    rw [hc] at h
    cases hg : app.GetMessage E.unknown m.ResponseFullType with
    | error err => rw [hg] at h; simp at h
    | ok q =>
      rw [hg] at h
      simp only [Except.ok.injEq, Prod.mk.injEq] at h
      obtain ⟨rfl, rfl, _⟩ := h
      exact ⟨rfl, Or.inl rfl⟩

theorem Extends_request (m : Method) (p : MsgPtr) (h : m.request = none ∨ m.request = some p) :
    m.Extends { m with request := some p } := by
  intro a v hv
  cases a <;> simp only [Method.cached] at hv ⊢
  · rcases h with h | h <;> rw [h] at hv <;> simp_all
  all_goals exact hv

theorem Extends_response (m : Method) (p : MsgPtr)
    (h : m.response = none ∨ m.response = some p) :
    m.Extends { m with response := some p } := by
  intro a v hv
  cases a <;> simp only [Method.cached] at hv ⊢
  · exact hv
  · rcases h with h | h <;> rw [h] at hv <;> simp_all
  all_goals exact hv

theorem Extends_nestedMessages (m : Method) (l : List MsgPtr) (h : m.nestedMessages = none) :
    m.Extends { m with nestedMessages := some l } := by
  intro a v hv
  cases a <;> simp only [Method.cached] at hv ⊢
  · exact hv
  · exact hv
  · rw [h] at hv; simp at hv
  · exact hv

theorem Extends_nestedEnums (m : Method) (l : List EnumPtr) (h : m.nestedEnums = none) :
    m.Extends { m with nestedEnums := some l } := by
  intro a v hv
  cases a <;> simp only [Method.cached] at hv ⊢
  · exact hv
  · exact hv
  · exact hv
  · rw [h] at hv; simp at hv

theorem collectMessages_shape (E : Env) (m : Method) (app : App) (all : GoMap MsgPtr)
    (m1 : Method) (app1 : App) (h : m.collectMessages E app = .ok (all, m1, app1)) :
    m.Extends m1 ∧ m1.nestedMessages = m.nestedMessages := by
  unfold Method.collectMessages at h
  cases hq : m.Request E app with
  | error e => rw [hq] at h; simp at h
  | ok r =>
    obtain ⟨req, ma, appa⟩ := r
    rw [hq] at h
    simp only at h
    cases hp : ma.Response E (appa.record (.getNestedMessages req 10)) with
    | error e => rw [hp] at h; simp at h
    | ok r2 =>
      obtain ⟨resp, mb, appb⟩ := r2
      rw [hp] at h
      simp only [Except.ok.injEq, Prod.mk.injEq] at h
      obtain ⟨_, rfl, _⟩ := h
      obtain ⟨rfl, h1⟩ := Request_shape E m app req ma appa hq
      obtain ⟨rfl, h2⟩ := Response_shape E _ _ resp mb appb hp
      exact ⟨Extends_trans (Extends_request m req h1) (Extends_response _ resp h2), rfl⟩

theorem collectEnums_shape (E : Env) (m : Method) (app : App) (all : GoMap EnumPtr)
    (m1 : Method) (app1 : App) (h : m.collectEnums E app = .ok (all, m1, app1)) :
    m.Extends m1 ∧ m1.nestedEnums = m.nestedEnums := by
  unfold Method.collectEnums at h
  cases hq : m.Request E app with
  | error e => rw [hq] at h; simp at h
  | ok r =>
    obtain ⟨req, ma, appa⟩ := r
    rw [hq] at h
    simp only at h
    cases hp : ma.Response E (appa.record (.getNestedEnums req 10)) with
    | error e => rw [hp] at h; simp at h
    | ok r2 =>
      obtain ⟨resp, mb, appb⟩ := r2
      rw [hp] at h
      simp only [Except.ok.injEq, Prod.mk.injEq] at h
      obtain ⟨_, rfl, _⟩ := h
      obtain ⟨rfl, h1⟩ := Request_shape E m app req ma appa hq
      obtain ⟨rfl, h2⟩ := Response_shape E _ _ resp mb appb hp
      exact ⟨Extends_trans (Extends_request m req h1) (Extends_response _ resp h2), rfl⟩

theorem NestedMessages_shape (E : Env) (m : Method) (app : App) (l : List MsgPtr)
    (m1 : Method) (app1 : App) (h : m.NestedMessages E app = .ok (l, m1, app1)) :
    m.Extends m1 ∧ m1.nestedMessages = some l := by
  unfold Method.NestedMessages at h
  cases hc : m.nestedMessages with
  | some l0 =>
    rw [hc] at h
    simp only [Except.ok.injEq, Prod.mk.injEq] at h
    obtain ⟨rfl, rfl, _⟩ := h
    exact ⟨Extends_refl m, hc⟩
  | none =>
    rw [hc] at h
    cases hcol : m.collectMessages E app with
    | error e => rw [hcol] at h; simp at h
    | ok r =>
      obtain ⟨all, ma, appa⟩ := r
      rw [hcol] at h
      simp only [Except.ok.injEq, Prod.mk.injEq] at h
      obtain ⟨rfl, rfl, _⟩ := h
      obtain ⟨h1, h2⟩ := collectMessages_shape E m app all ma appa hcol
      exact ⟨Extends_trans h1 (Extends_nestedMessages ma _ (h2.trans hc)), rfl⟩

theorem NestedEnums_shape (E : Env) (m : Method) (app : App) (l : List EnumPtr)
    (m1 : Method) (app1 : App) (h : m.NestedEnums E app = .ok (l, m1, app1)) :
    m.Extends m1 ∧ m1.nestedEnums = some l := by
  unfold Method.NestedEnums at h
  cases hc : m.nestedEnums with
  | some l0 =>
    rw [hc] at h
    simp only [Except.ok.injEq, Prod.mk.injEq] at h
    obtain ⟨rfl, rfl, _⟩ := h
    exact ⟨Extends_refl m, hc⟩
  | none =>
    rw [hc] at h
    cases hcol : m.collectEnums E app with
    | error e => rw [hcol] at h; simp at h
    | ok r =>
      obtain ⟨all, ma, appa⟩ := r
      rw [hcol] at h
      simp only [Except.ok.injEq, Prod.mk.injEq] at h
      obtain ⟨rfl, rfl, _⟩ := h
      obtain ⟨h1, h2⟩ := collectEnums_shape E m app all ma appa hcol
      exact ⟨Extends_trans h1 (Extends_nestedEnums ma _ (h2.trans hc)), rfl⟩

theorem call_fills (E : Env) (a : Accessor) (m : Method) (app : App) (v : Value)
    (m1 : Method) (app1 : App) (h : m.call E a app = .ok (v, m1, app1)) :
    m.Extends m1 ∧ m1.cached a = some v := by
  cases a <;> simp only [Method.call] at h
  · cases hr : m.Request E app with
    | error e => rw [hr] at h; simp [Except.map] at h
    | ok r =>
      obtain ⟨p, ma, appa⟩ := r
      rw [hr] at h
      simp only [Except.map, Except.ok.injEq, Prod.mk.injEq] at h
      obtain ⟨rfl, rfl, rfl⟩ := h
      obtain ⟨rfl, h1⟩ := Request_shape E m app p ma appa hr
      exact ⟨Extends_request m p h1, rfl⟩
  · cases hr : m.Response E app with
    | error e => rw [hr] at h; simp [Except.map] at h
    | ok r =>
      obtain ⟨p, ma, appa⟩ := r
      rw [hr] at h
      simp only [Except.map, Except.ok.injEq, Prod.mk.injEq] at h
      obtain ⟨rfl, rfl, rfl⟩ := h
      obtain ⟨rfl, h1⟩ := Response_shape E m app p ma appa hr
      exact ⟨Extends_response m p h1, rfl⟩
  · cases hr : m.NestedMessages E app with
    | error e => rw [hr] at h; simp [Except.map] at h
    | ok r =>
      obtain ⟨l, ma, appa⟩ := r
      rw [hr] at h
      simp only [Except.map, Except.ok.injEq, Prod.mk.injEq] at h
      obtain ⟨rfl, rfl, rfl⟩ := h
      obtain ⟨h1, h2⟩ := NestedMessages_shape E m app l ma appa hr
      exact ⟨h1, by simp [Method.cached, h2]⟩
  · cases hr : m.NestedEnums E app with
    | error e => rw [hr] at h; simp [Except.map] at h
    | ok r =>
      obtain ⟨l, ma, appa⟩ := r
      rw [hr] at h
      simp only [Except.map, Except.ok.injEq, Prod.mk.injEq] at h
      obtain ⟨rfl, rfl, rfl⟩ := h
      obtain ⟨h1, h2⟩ := NestedEnums_shape E m app l ma appa hr
      exact ⟨h1, by simp [Method.cached, h2]⟩

theorem calls_extends (E : Env) (between : List Accessor) :
    ∀ (m : Method) (app : App) (m1 : Method) (app1 : App),
      m.calls E between app = .ok (m1, app1) → m.Extends m1 := by
  induction between with
  | nil =>
    intro m app m1 app1 h
    simp only [Method.calls, Except.ok.injEq, Prod.mk.injEq] at h
    rw [← h.1]
    exact Extends_refl m
  | cons a rest ih =>
    intro m app m1 app1 h
    simp only [Method.calls] at h
    cases hc : m.call E a app with
    | error e => rw [hc] at h; simp at h
    | ok r =>
      obtain ⟨v, ma, appa⟩ := r
      rw [hc] at h
      exact Extends_trans (call_fills E a m app v ma appa hc).1 (ih ma appa m1 app1 h)

theorem call_hit (E : Env) (a : Accessor) (m : Method) (app : App) (v : Value)
    (h : m.cached a = some v) : m.call E a app = .ok (v, m, app) := by
  cases a <;> simp only [Method.cached, Option.map_eq_some'] at h <;>
    obtain ⟨x, hx, rfl⟩ := h
  · simp [Method.call, Method.Request, hx, Except.map]
  · simp [Method.call, Method.Response, hx, Except.map]
  · simp [Method.call, Method.NestedMessages, hx, Except.map]
  · simp [Method.call, Method.NestedEnums, hx, Except.map]

/-- C9: once a call of `Request()`, `Response()`, `NestedMessages()` or
`NestedEnums()` has returned `v`, then after any further calls of the four
accessors on the method, and in any state of the application, the same
accessor returns `v` again and leaves the method and the application as they
are, the record of the calls made to the registry and the resolver included;
`v` may be an empty list. -/
theorem cached_value_is_kept (E : Env) (a : Accessor) (m : Method) (app : App) (v : Value)
    (m1 : Method) (app1 : App) (hfirst : m.call E a app = .ok (v, m1, app1))
    (between : List Accessor) (m2 : Method) (app2 : App)
    (hbetween : m1.calls E between app1 = .ok (m2, app2)) (app3 : App) :
    m2.call E a app3 = .ok (v, m2, app3) :=
  call_hit E a m2 app3 v
    (calls_extends E between m1 app1 m2 app2 hbetween a v (call_fills E a m app v m1 app1 hfirst).2)

/-- Witness of C9: `NestedEnums()` on a method whose request and response have
no fields returns the empty list; after `Request()`, `NestedMessages()` and
`Response()` it returns the empty list again, on an empty registry too. -/
theorem cached_value_is_kept_witness :
    ∃ m1 app1 m2 app2,
      (exampleMethod "Echo".toList "lnrpc.foo".toList [] "lnrpc.foo".toList []).call (goEnv id)
        .NestedEnums exampleApp = .ok (.enums [], m1, app1) ∧
      m1.calls (goEnv id) [.Request, .NestedMessages, .Response] app1 = .ok (m2, app2) ∧
      m2.call (goEnv id) .NestedEnums ⟨[], [], []⟩ = .ok (.enums [], m2, ⟨[], [], []⟩) :=
  ⟨_, _, _, _, rfl, rfl,
    cached_value_is_kept (goEnv id) .NestedEnums
      (exampleMethod "Echo".toList "lnrpc.foo".toList [] "lnrpc.foo".toList []) exampleApp
      (.enums []) _ _ rfl [.Request, .NestedMessages, .Response] _ _ rfl ⟨[], [], []⟩⟩

/-- C8, counterexample: with two collected messages whose full names differ
in letter case only, `lnrpc.Foo` and `lnrpc.foo`, the map collected is the
same and the list `NestedMessages()` returns is `lnrpc.foo`, `lnrpc.Foo`
when the `range` loop visits the map in one order and `lnrpc.Foo`,
`lnrpc.foo` when it visits it in the other. -/
theorem nested_order_follows_range :
    (goEnv id).RangeOk ∧ (goEnv List.reverse).RangeOk ∧
    (goEnv id).SortOk ∧ (goEnv List.reverse).SortOk ∧
    (exampleApp.msg 2).FullName = "lnrpc.Foo".toList ∧
    (exampleApp.msg 3).FullName = "lnrpc.foo".toList ∧
    (exampleMethod "Echo".toList "lnrpc.Req".toList [] "lnrpc.Resp".toList []).collectedMessages
      (goEnv id) exampleApp = some [("lnrpc.foo".toList, 3), ("lnrpc.Foo".toList, 2)] ∧
    (exampleMethod "Echo".toList "lnrpc.Req".toList [] "lnrpc.Resp".toList []).collectedMessages
      (goEnv List.reverse) exampleApp = some [("lnrpc.foo".toList, 3), ("lnrpc.Foo".toList, 2)] ∧
    (exampleMethod "Echo".toList "lnrpc.Req".toList [] "lnrpc.Resp".toList []).nestedMessageList
      (goEnv id) exampleApp = some [3, 2] ∧
    (exampleMethod "Echo".toList "lnrpc.Req".toList [] "lnrpc.Resp".toList []).nestedMessageList
      (goEnv List.reverse) exampleApp = some [2, 3] :=
  ⟨goEnv_RangeOk id (fun l => List.Perm.refl l),
   goEnv_RangeOk List.reverse (fun l => List.reverse_perm l),
   goEnv_SortOk id, goEnv_SortOk List.reverse,
   by decide, by decide, by decide, by decide, by decide, by decide⟩

/-- C10, counterexample: for a method whose request and response are the
same registry message with two recorded sources, and for two methods that
record two sources for one request type, after `Response()` of the method,
or `Request()` of the other method, the message `Request()` returns reports
the source written last, not the method's `RequestTypeSource`. -/
theorem request_source_overwritten :
    (exampleMethod "Echo".toList "lnrpc.foo".toList "a.proto".toList "lnrpc.foo".toList
        "b.proto".toList).RequestTypeSource = "a.proto".toList ∧
    (exampleMethod "Echo".toList "lnrpc.foo".toList "a.proto".toList "lnrpc.foo".toList
        "b.proto".toList).requestSource (goEnv id) exampleApp = some "a.proto".toList ∧
    (exampleMethod "Echo".toList "lnrpc.foo".toList "a.proto".toList "lnrpc.foo".toList
        "b.proto".toList).requestSourceAfter (goEnv id) [.Request, .Response] exampleApp
      = some "b.proto".toList ∧
    (exampleMethod "First".toList "lnrpc.Req".toList "a.proto".toList "lnrpc.Resp".toList
        "a.proto".toList).requestSourceAfterOther (goEnv id)
      (exampleMethod "Second".toList "lnrpc.Req".toList "c.proto".toList "lnrpc.Resp".toList
        "c.proto".toList) exampleApp = some "c.proto".toList := by
  decide

/-! ## The order of the nested lists and the order of the `range` loop -/

theorem map_eq_of_injOn {α β : Type} (key : α → β) :
    ∀ (l1 l2 : List α), l1.map key = l2.map key →
      (∀ a ∈ l1, ∀ b ∈ l2, key a = key b → a = b) → l1 = l2
  | [], [], _, _ => rfl
  | [], _ :: _, h, _ => by simp at h
  | _ :: _, [], h, _ => by simp at h
  | a :: l1, b :: l2, h, hinj => by
    simp only [List.map_cons, List.cons.injEq] at h
    have hab : a = b := hinj a (List.mem_cons_self _ _) b (List.mem_cons_self _ _) h.1
    have ht := map_eq_of_injOn key l1 l2 h.2
      (fun x hx y hy => hinj x (List.mem_cons_of_mem _ hx) y (List.mem_cons_of_mem _ hy))
    rw [hab, ht]

theorem sorted_keys_unique (l1 l2 : List GoString) (hp : l1.Perm l2)
    (h1 : l1.Pairwise (fun x y => stringLess y x = false))
    (h2 : l2.Pairwise (fun x y => stringLess y x = false)) : l1 = l2 := by
  haveI : IsAntisymm GoString (fun x y => stringLess y x = false) :=
    ⟨fun x y hxy hyx => by
      rcases stringLess_total x y hxy with h | h
      · rw [h] at hyx; exact absurd hyx (by simp)
      · exact h⟩
  exact List.eq_of_perm_of_sorted hp h1 h2

theorem sorted_unique {α : Type} (key : α → GoString) (l1 l2 : List α) (hp : l1.Perm l2)
    (hnd : (l1.map key).Nodup)
    (h1 : l1.Pairwise (fun a b => stringLess (key b) (key a) = false))
    (h2 : l2.Pairwise (fun a b => stringLess (key b) (key a) = false)) : l1 = l2 := by
  have hk : l1.map key = l2.map key :=
    sorted_keys_unique _ _ (hp.map key) (List.pairwise_map.2 h1) (List.pairwise_map.2 h2)
  refine map_eq_of_injOn key l1 l2 hk (fun a ha b hb hab => ?_)
  exact List.inj_on_of_nodup_map hnd ha (hp.mem_iff.2 hb) hab

theorem SortFunc_range_independent (E : Env) (hsort : E.SortOk) (key : Nat → GoString)
    (entries r1 r2 : List (GoString × Nat)) (h1 : r1.Perm entries) (h2 : r2.Perm entries)
    (hnd : (entries.map (fun kv => key kv.2)).Nodup) :
    E.SortFunc (fun i j => stringLess (key i) (key j)) (r1.map Prod.snd) =
      E.SortFunc (fun i j => stringLess (key i) (key j)) (r2.map Prod.snd) := by
  have hs1 := hsort (fun i j => stringLess (key i) (key j)) (r1.map Prod.snd)
  have hs2 := hsort (fun i j => stringLess (key i) (key j)) (r2.map Prod.snd)
  have hp1 := hs1.1.trans (h1.map Prod.snd)
  have hp2 := hs2.1.trans (h2.map Prod.snd)
  refine sorted_unique key _ _ (hp1.trans hp2.symm) ?_ (hs1.2 (strictWeak_of_key key))
    (hs2.2 (strictWeak_of_key key))
  have : ((entries.map Prod.snd).map key).Nodup := by rw [List.map_map]; exact hnd
  exact (hp1.map key).nodup_iff.2 this

/-- C8, amended: when no two collected types have the same lower-cased full
name, the list `NestedMessages()` returns does not depend on the order in
which the `range` loop visits the collected map: with any other order
`range2` in place of the environment's, the call returns the same list and
the same state.  The same for `NestedEnums()`. -/
theorem nested_order_independent (E : Env) (hrange : E.RangeOk) (hsort : E.SortOk)
    (range2 : GoMap Nat → List (GoString × Nat))
    (hrange2 : ∀ all : GoMap Nat, (range2 all).Perm all.entries) (m : Method) (app : App) :
    (∀ (all : GoMap MsgPtr) (m1 : Method) (app1 : App),
      m.nestedMessages = none →
      m.collectMessages E app = .ok (all, m1, app1) →
      (all.entries.map (fun kv => ToLower E.unicodeToLower (app1.msg kv.2).FullName)).Nodup →
      m.NestedMessages { E with range := range2 } app = m.NestedMessages E app) ∧
    (∀ (all : GoMap EnumPtr) (m1 : Method) (app1 : App),
      m.nestedEnums = none →
      m.collectEnums E app = .ok (all, m1, app1) →
      (all.entries.map (fun kv => ToLower E.unicodeToLower (app1.enum kv.2).FullName)).Nodup →
      m.NestedEnums { E with range := range2 } app = m.NestedEnums E app) := by
  constructor
  · intro all m1 app1 hc hcol hnd
    have hcol2 : m.collectMessages { E with range := range2 } app = .ok (all, m1, app1) := hcol
    unfold Method.NestedMessages
    rw [hc, hcol, hcol2]
    have hsame : E.SortFunc (lessMessage { E with range := range2 } app1)
          ((range2 all).map Prod.snd)
        = E.SortFunc (lessMessage E app1) ((E.range all).map Prod.snd) :=
      SortFunc_range_independent E hsort
        (fun p => ToLower E.unicodeToLower (app1.msg p).FullName) all.entries
        (range2 all) (E.range all) (hrange2 all) (hrange all) hnd
    simp only [hsame]
  · intro all m1 app1 hc hcol hnd
    have hcol2 : m.collectEnums { E with range := range2 } app = .ok (all, m1, app1) := hcol
    unfold Method.NestedEnums
    rw [hc, hcol, hcol2]
    have hsame : E.SortFunc (lessEnum { E with range := range2 } app1)
          ((range2 all).map Prod.snd)
        = E.SortFunc (lessEnum E app1) ((E.range all).map Prod.snd) :=
      SortFunc_range_independent E hsort
        (fun p => ToLower E.unicodeToLower (app1.enum p).FullName) all.entries
        (range2 all) (E.range all) (hrange2 all) (hrange all) hnd
    simp only [hsame]

/-- Witness of the amended C8: the method whose request is `lnrpc.Bar`, which
collects `lnrpc.Foo` and `lnrpc.Resp`. -/
theorem nested_order_independent_witness :
    (exampleMethod "Echo".toList "lnrpc.Bar".toList [] "lnrpc.foo".toList []).collectedMessages
      (goEnv id) exampleApp = some [("lnrpc.Foo".toList, 2), ("lnrpc.Resp".toList, 1)] ∧
    (exampleMethod "Echo".toList "lnrpc.Bar".toList [] "lnrpc.foo".toList []).NestedMessages
        { goEnv id with range := fun all => all.entries.reverse } exampleApp
      = (exampleMethod "Echo".toList "lnrpc.Bar".toList [] "lnrpc.foo".toList []).NestedMessages
        (goEnv id) exampleApp ∧
    (exampleMethod "Echo".toList "lnrpc.Bar".toList [] "lnrpc.foo".toList []).NestedEnums
        { goEnv id with range := fun all => all.entries.reverse } exampleApp
      = (exampleMethod "Echo".toList "lnrpc.Bar".toList [] "lnrpc.foo".toList []).NestedEnums
        (goEnv id) exampleApp :=
  ⟨by decide,
   (nested_order_independent (goEnv id) (goEnv_RangeOk id (fun l => List.Perm.refl l))
      (goEnv_SortOk id) (fun all => all.entries.reverse) (fun all => List.reverse_perm _)
      _ exampleApp).1 _ _ _ rfl rfl (by decide),
   (nested_order_independent (goEnv id) (goEnv_RangeOk id (fun l => List.Perm.refl l))
      (goEnv_SortOk id) (fun all => all.entries.reverse) (fun all => List.reverse_perm _)
      _ exampleApp).2 _ _ _ rfl rfl (by decide)⟩

/-! ## The source a resolved message reports -/

theorem TaggedAt_refl (T S : GoString) (app : App) : TaggedAt T S app app :=
  fun _ => ⟨rfl, fun _ => Or.inl rfl⟩

theorem TaggedAt_trans {T S : GoString} {app app1 app2 : App}
    (h1 : TaggedAt T S app app1) (h2 : TaggedAt T S app1 app2) : TaggedAt T S app app2 := by
  intro q
  obtain ⟨n1, s1⟩ := h1 q
  obtain ⟨n2, s2⟩ := h2 q
  refine ⟨n2.trans n1, fun hT => ?_⟩
  rcases s2 (n1.trans hT) with s2 | s2
  · rw [s2]; exact s1 hT
  · exact Or.inr s2

theorem TaggedAt_record (T S : GoString) (app : App) (e : Event) :
    TaggedAt T S app (app.record e) := fun _ => ⟨rfl, fun _ => Or.inl rfl⟩

theorem TaggedAt_setSource (T S : GoString) (app : App) (p : MsgPtr) (source : GoString)
    (hp : p < app.Messages.length) (hs : (app.msg p).FullName = T → source = S) :
    TaggedAt T S app (app.setSource p source) := by
  intro q
  by_cases hq : q = p
  · subst hq
    rw [msg_setSource_self app q _ hp]
    exact ⟨rfl, fun hT => Or.inr (hs hT)⟩
  · rw [msg_setSource_other app p q _ hq]
    exact ⟨rfl, fun _ => Or.inl rfl⟩

theorem Request_effect (E : Env) (T S : GoString) (m : Method) (app : App)
    (hm : m.AgreesAt T S) (p : MsgPtr) (m1 : Method) (app1 : App)
    (h : m.Request E app = .ok (p, m1, app1)) :
    TaggedAt T S app app1 ∧ m1 = { m with request := some p } ∧
    (m.request = some p ∧ app1 = app ∨
      m.request = none ∧ (app1.msg p).FullName = m.RequestFullType ∧
        (app1.msg p).Source = m.RequestTypeSource) := by
  cases hc : m.request with
  | some q =>
    unfold Method.Request at h
    rw [hc] at h
    simp only [Except.ok.injEq, Prod.mk.injEq] at h
    obtain ⟨rfl, rfl, rfl⟩ := h
    exact ⟨TaggedAt_refl T S app, by cases m; simp_all, Or.inl ⟨rfl, rfl⟩⟩
  | none =>
    rw [Request_miss E m app hc] at h
    cases hg : app.GetMessage E.unknown m.RequestFullType with
    | error err => rw [hg] at h; simp at h
    | ok q =>
      rw [hg] at h
      simp only [Except.ok.injEq, Prod.mk.injEq] at h
      obtain ⟨rfl, rfl, rfl⟩ := h
      obtain ⟨hv, hn⟩ := GetMessage_valid app _ _ q hg
      have hself := msg_setSource_self (app.record (.getMessage m.RequestFullType)) q
        m.RequestTypeSource hv
      refine ⟨?_, rfl, Or.inr ⟨rfl, ?_, ?_⟩⟩
      · refine TaggedAt_trans (TaggedAt_record T S app _)
          (TaggedAt_setSource T S (app.record (.getMessage m.RequestFullType)) q _ hv ?_)
        intro hT
        exact hm.1 (hn.symm.trans hT)
      · rw [hself]; exact hn
      · rw [hself]

theorem Response_effect (E : Env) (T S : GoString) (m : Method) (app : App)
    (hm : m.AgreesAt T S) (p : MsgPtr) (m1 : Method) (app1 : App)
    (h : m.Response E app = .ok (p, m1, app1)) :
    TaggedAt T S app app1 ∧ m1 = { m with response := some p } ∧
    (m.response = some p ∧ app1 = app ∨
      m.response = none ∧ (app1.msg p).FullName = m.ResponseFullType ∧
        (app1.msg p).Source = m.ResponseTypeSource) := by
  cases hc : m.response with
  | some q =>
    unfold Method.Response at h
    rw [hc] at h
    simp only [Except.ok.injEq, Prod.mk.injEq] at h
    obtain ⟨rfl, rfl, rfl⟩ := h
    exact ⟨TaggedAt_refl T S app, by cases m; simp_all, Or.inl ⟨rfl, rfl⟩⟩
  | none =>
    rw [Response_miss E m app hc] at h
    cases hg : app.GetMessage E.unknown m.ResponseFullType with
    | error err => rw [hg] at h; simp at h
    | ok q =>
      rw [hg] at h
      simp only [Except.ok.injEq, Prod.mk.injEq] at h
      obtain ⟨rfl, rfl, rfl⟩ := h
      obtain ⟨hv, hn⟩ := GetMessage_valid app _ _ q hg
      have hself := msg_setSource_self (app.record (.getMessage m.ResponseFullType)) q
        m.ResponseTypeSource hv
      refine ⟨?_, rfl, Or.inr ⟨rfl, ?_, ?_⟩⟩
      · refine TaggedAt_trans (TaggedAt_record T S app _)
          (TaggedAt_setSource T S (app.record (.getMessage m.ResponseFullType)) q _ hv ?_)
        intro hT
        exact hm.2 (hn.symm.trans hT)
      · rw [hself]; exact hn
      · rw [hself]

theorem GoodAt_tagged (T S : GoString) (m0 m : Method) (app app1 : App)
    (hg : m.GoodAt m0 T S app) (ht : TaggedAt T S app app1) : m.GoodAt m0 T S app1 := by
  obtain ⟨h1, h2, h3, h4, h5, h6⟩ := hg
  refine ⟨h1, h2, h3, h4, ?_, ?_⟩
  · intro p hp
    obtain ⟨hn, hs⟩ := h5 p hp
    obtain ⟨tn, ts⟩ := ht p
    refine ⟨tn.trans hn, fun hT => ?_⟩
    rcases ts (hn.trans hT) with ts | ts
    · rw [ts]; exact hs hT
    · exact ts
  · intro p hp
    obtain ⟨hn, hs⟩ := h6 p hp
    obtain ⟨tn, ts⟩ := ht p
    refine ⟨tn.trans hn, fun hT => ?_⟩
    rcases ts (hn.trans hT) with ts | ts
    · rw [ts]; exact hs hT
    · exact ts

theorem Request_good (E : Env) (T S : GoString) (m0 m : Method) (app : App)
    (hm : m.AgreesAt T S) (hg : m.GoodAt m0 T S app) (p : MsgPtr) (m1 : Method) (app1 : App)
    (h : m.Request E app = .ok (p, m1, app1)) :
    m1.GoodAt m0 T S app1 ∧ (m0.RequestFullType = T → (app1.msg p).Source = S) := by
  obtain ⟨ht, rfl, hcase⟩ := Request_effect E T S m app hm p m1 app1 h
  have hg1 := GoodAt_tagged T S m0 m app app1 hg ht
  obtain ⟨h1, h2, h3, h4, h5, h6⟩ := hg1
  have hslot : (app1.msg p).FullName = m.RequestFullType ∧
      (m.RequestFullType = T → (app1.msg p).Source = S) := by
    rcases hcase with ⟨hc, _⟩ | ⟨_, hn, hs⟩
    · exact h5 p hc
    · exact ⟨hn, fun hT => hs.trans (hm.1 hT)⟩
  refine ⟨⟨h1, h2, h3, h4, ?_, h6⟩, fun hT => hslot.2 (h1.trans hT)⟩
  intro q hq
  simp only [Option.some.injEq] at hq
  subst hq
  exact hslot

theorem Response_good (E : Env) (T S : GoString) (m0 m : Method) (app : App)
    (hm : m.AgreesAt T S) (hg : m.GoodAt m0 T S app) (p : MsgPtr) (m1 : Method) (app1 : App)
    (h : m.Response E app = .ok (p, m1, app1)) :
    m1.GoodAt m0 T S app1 ∧ (m0.ResponseFullType = T → (app1.msg p).Source = S) := by
  obtain ⟨ht, rfl, hcase⟩ := Response_effect E T S m app hm p m1 app1 h
  have hg1 := GoodAt_tagged T S m0 m app app1 hg ht
  obtain ⟨h1, h2, h3, h4, h5, h6⟩ := hg1
  have hslot : (app1.msg p).FullName = m.ResponseFullType ∧
      (m.ResponseFullType = T → (app1.msg p).Source = S) := by
    rcases hcase with ⟨hc, _⟩ | ⟨_, hn, hs⟩
    · exact h6 p hc
    · exact ⟨hn, fun hT => hs.trans (hm.2 hT)⟩
  refine ⟨⟨h1, h2, h3, h4, h5, ?_⟩, fun hT => hslot.2 (h3.trans hT)⟩
  intro q hq
  simp only [Option.some.injEq] at hq
  subst hq
  exact hslot

theorem Effect_refl (T S : GoString) (m : Method) (app : App) (hm : m.AgreesAt T S) :
    m.Effect T S app m app := ⟨TaggedAt_refl T S app, hm, fun _ h => h⟩

theorem Effect_trans {T S : GoString} {m m1 m2 : Method} {app app1 app2 : App}
    (h1 : m.Effect T S app m1 app1) (h2 : m1.Effect T S app1 m2 app2) :
    m.Effect T S app m2 app2 :=
  ⟨TaggedAt_trans h1.1 h2.1, h2.2.1, fun m0 h => h2.2.2 m0 (h1.2.2 m0 h)⟩

theorem Effect_record (T S : GoString) (m : Method) (app : App) (e : Event)
    (hm : m.AgreesAt T S) : m.Effect T S app m (app.record e) :=
  ⟨TaggedAt_record T S app e, hm, fun _ h => h⟩

theorem Request_Effect (E : Env) (T S : GoString) (m : Method) (app : App)
    (hm : m.AgreesAt T S) (p : MsgPtr) (m1 : Method) (app1 : App)
    (h : m.Request E app = .ok (p, m1, app1)) : m.Effect T S app m1 app1 := by
  obtain ⟨ht, hshape, _⟩ := Request_effect E T S m app hm p m1 app1 h
  refine ⟨ht, ?_, fun m0 hg => (Request_good E T S m0 m app hm hg p m1 app1 h).1⟩
  rw [hshape]; exact hm

theorem Response_Effect (E : Env) (T S : GoString) (m : Method) (app : App)
    (hm : m.AgreesAt T S) (p : MsgPtr) (m1 : Method) (app1 : App)
    (h : m.Response E app = .ok (p, m1, app1)) : m.Effect T S app m1 app1 := by
  obtain ⟨ht, hshape, _⟩ := Response_effect E T S m app hm p m1 app1 h
  refine ⟨ht, ?_, fun m0 hg => (Response_good E T S m0 m app hm hg p m1 app1 h).1⟩
  rw [hshape]; exact hm

theorem collectMessages_Effect (E : Env) (T S : GoString) (m : Method) (app : App)
    (hm : m.AgreesAt T S) (all : GoMap MsgPtr) (m1 : Method) (app1 : App)
    (h : m.collectMessages E app = .ok (all, m1, app1)) : m.Effect T S app m1 app1 := by
  unfold Method.collectMessages at h
  cases hq : m.Request E app with
  | error e => rw [hq] at h; simp at h
  | ok r =>
    obtain ⟨req, ma, appa⟩ := r
    rw [hq] at h
    simp only at h
    cases hp : ma.Response E (appa.record (.getNestedMessages req 10)) with
    | error e => rw [hp] at h; simp at h
    | ok r2 =>
      obtain ⟨resp, mb, appb⟩ := r2
      rw [hp] at h
      simp only [Except.ok.injEq, Prod.mk.injEq] at h
      obtain ⟨_, rfl, rfl⟩ := h
      have e1 := Request_Effect E T S m app hm req ma appa hq
      have e2 := Effect_record T S ma appa (.getNestedMessages req 10) e1.2.1
      have e3 := Response_Effect E T S ma _ e1.2.1 resp mb appb hp
      have e4 := Effect_record T S mb appb (.getNestedMessages resp 10) e3.2.1
      exact Effect_trans (Effect_trans (Effect_trans e1 e2) e3) e4

theorem collectEnums_Effect (E : Env) (T S : GoString) (m : Method) (app : App)
    (hm : m.AgreesAt T S) (all : GoMap EnumPtr) (m1 : Method) (app1 : App)
    (h : m.collectEnums E app = .ok (all, m1, app1)) : m.Effect T S app m1 app1 := by
  unfold Method.collectEnums at h
  cases hq : m.Request E app with
  | error e => rw [hq] at h; simp at h
  | ok r =>
    obtain ⟨req, ma, appa⟩ := r
    rw [hq] at h
    simp only at h
    cases hp : ma.Response E (appa.record (.getNestedEnums req 10)) with
    | error e => rw [hp] at h; simp at h
    | ok r2 =>
      obtain ⟨resp, mb, appb⟩ := r2
      rw [hp] at h
      simp only [Except.ok.injEq, Prod.mk.injEq] at h
      obtain ⟨_, rfl, rfl⟩ := h
      have e1 := Request_Effect E T S m app hm req ma appa hq
      have e2 := Effect_record T S ma appa (.getNestedEnums req 10) e1.2.1
      have e3 := Response_Effect E T S ma _ e1.2.1 resp mb appb hp
      have e4 := Effect_record T S mb appb (.getNestedEnums resp 10) e3.2.1
      exact Effect_trans (Effect_trans (Effect_trans e1 e2) e3) e4

theorem NestedMessages_Effect (E : Env) (T S : GoString) (m : Method) (app : App)
    (hm : m.AgreesAt T S) (l : List MsgPtr) (m1 : Method) (app1 : App)
    (h : m.NestedMessages E app = .ok (l, m1, app1)) : m.Effect T S app m1 app1 := by
  unfold Method.NestedMessages at h
  cases hc : m.nestedMessages with
  | some l0 =>
    rw [hc] at h
    simp only [Except.ok.injEq, Prod.mk.injEq] at h
    obtain ⟨_, rfl, rfl⟩ := h
    exact Effect_refl T S m app hm
  | none =>
    rw [hc] at h
    cases hcol : m.collectMessages E app with
    | error e => rw [hcol] at h; simp at h
    | ok r =>
      obtain ⟨all, ma, appa⟩ := r
      rw [hcol] at h
      simp only [Except.ok.injEq, Prod.mk.injEq] at h
      obtain ⟨_, rfl, rfl⟩ := h
      have e1 := collectMessages_Effect E T S m app hm all ma appa hcol
      exact ⟨e1.1, e1.2.1, fun m0 hg => e1.2.2 m0 hg⟩

theorem NestedEnums_Effect (E : Env) (T S : GoString) (m : Method) (app : App)
    (hm : m.AgreesAt T S) (l : List EnumPtr) (m1 : Method) (app1 : App)
    (h : m.NestedEnums E app = .ok (l, m1, app1)) : m.Effect T S app m1 app1 := by
  unfold Method.NestedEnums at h
  cases hc : m.nestedEnums with
  | some l0 =>
    rw [hc] at h
    simp only [Except.ok.injEq, Prod.mk.injEq] at h
    obtain ⟨_, rfl, rfl⟩ := h
    exact Effect_refl T S m app hm
  | none =>
    rw [hc] at h
    cases hcol : m.collectEnums E app with
    | error e => rw [hcol] at h; simp at h
    | ok r =>
      obtain ⟨all, ma, appa⟩ := r
      rw [hcol] at h
      simp only [Except.ok.injEq, Prod.mk.injEq] at h
      obtain ⟨_, rfl, rfl⟩ := h
      have e1 := collectEnums_Effect E T S m app hm all ma appa hcol
      exact ⟨e1.1, e1.2.1, fun m0 hg => e1.2.2 m0 hg⟩

theorem call_Effect (E : Env) (T S : GoString) (a : Accessor) (m : Method)
    (app : App) (hm : m.AgreesAt T S) (v : Value) (m1 : Method) (app1 : App)
    (h : m.call E a app = .ok (v, m1, app1)) : m.Effect T S app m1 app1 := by
  cases a <;> simp only [Method.call] at h
  · cases hr : m.Request E app with
    | error e => rw [hr] at h; simp [Except.map] at h
    | ok r =>
      obtain ⟨p, ma, appa⟩ := r
      rw [hr] at h
      simp only [Except.map, Except.ok.injEq, Prod.mk.injEq] at h
      obtain ⟨_, rfl, rfl⟩ := h
      exact Request_Effect E T S m app hm p _ _ hr
  · cases hr : m.Response E app with
    | error e => rw [hr] at h; simp [Except.map] at h
    | ok r =>
      obtain ⟨p, ma, appa⟩ := r
      rw [hr] at h
      simp only [Except.map, Except.ok.injEq, Prod.mk.injEq] at h
      obtain ⟨_, rfl, rfl⟩ := h
      exact Response_Effect E T S m app hm p _ _ hr
  · cases hr : m.NestedMessages E app with
    | error e => rw [hr] at h; simp [Except.map] at h
    | ok r =>
      obtain ⟨p, ma, appa⟩ := r
      rw [hr] at h
      simp only [Except.map, Except.ok.injEq, Prod.mk.injEq] at h
      obtain ⟨_, rfl, rfl⟩ := h
      exact NestedMessages_Effect E T S m app hm p _ _ hr
  · cases hr : m.NestedEnums E app with
    | error e => rw [hr] at h; simp [Except.map] at h
    | ok r =>
      obtain ⟨p, ma, appa⟩ := r
      rw [hr] at h
      simp only [Except.map, Except.ok.injEq, Prod.mk.injEq] at h
      obtain ⟨_, rfl, rfl⟩ := h
      exact NestedEnums_Effect E T S m app hm p _ _ hr

theorem run_good (E : Env) (T S : GoString) (m0 : Method) (steps : List Step) :
    ∀ (m : Method) (app : App), m.AgreesAt T S → m.GoodAt m0 T S app →
      (∀ s ∈ steps, s.AgreesAt T S) →
      ∀ (m1 : Method) (app1 : App), m.run E steps app = .ok (m1, app1) →
        m1.AgreesAt T S ∧ m1.GoodAt m0 T S app1 := by
  induction steps with
  | nil =>
    intro m app hm hg _ m1 app1 h
    simp only [Method.run, Except.ok.injEq, Prod.mk.injEq] at h
    obtain ⟨rfl, rfl⟩ := h
    exact ⟨hm, hg⟩
  | cons s rest ih =>
    intro m app hm hg hs m1 app1 h
    have hrest : ∀ s ∈ rest, s.AgreesAt T S :=
      fun s hmem => hs s (List.mem_cons_of_mem _ hmem)
    cases s with
    | own a =>
      simp only [Method.run] at h
      cases hc : m.call E a app with
      | error e => rw [hc] at h; simp at h
      | ok r =>
        obtain ⟨v, ma, appa⟩ := r
        rw [hc] at h
        have e := call_Effect E T S a m app hm v ma appa hc
        exact ih ma appa e.2.1 (e.2.2 m0 hg) hrest m1 app1 h
    | other o a =>
      simp only [Method.run] at h
      cases hc : o.call E a app with
      | error e => rw [hc] at h; simp at h
      | ok r =>
        obtain ⟨v, oa, appa⟩ := r
        rw [hc] at h
        have ho : o.AgreesAt T S := hs (.other o a) (List.mem_cons_self _ _)
        have e := call_Effect E T S a o app ho v oa appa hc
        exact ih m appa hm (GoodAt_tagged T S m0 m app appa hg e.1) hrest m1 app1 h

theorem GoodAt_fresh (m : Method) (T S : GoString) (app : App) (hreq : m.request = none)
    (hresp : m.response = none) : m.GoodAt m T S app := by
  refine ⟨rfl, rfl, rfl, rfl, ?_, ?_⟩
  · intro p hp
    rw [hreq] at hp
    cases hp
  · intro p hp
    rw [hresp] at hp
    cases hp

/-- C10, amended: take a method with no cached request and response, and a
run of calls of the cached accessors on it and on other methods of the
application.  If every side, of this method or of another, that uses the
method's request type records the method's `RequestTypeSource` for it, then
after the run the message `Request()` returns reports `Source` equal to
`RequestTypeSource`.  Likewise for `Response()`, the response type and
`ResponseTypeSource`. -/
theorem source_kept_when_sources_agree (E : Env) (m : Method) (app : App)
    (hreq : m.request = none) (hresp : m.response = none) (steps : List Step)
    (m1 : Method) (app1 : App) (hrun : m.run E steps app = .ok (m1, app1)) :
    (m.AgreesAt m.RequestFullType m.RequestTypeSource →
      (∀ s ∈ steps, s.AgreesAt m.RequestFullType m.RequestTypeSource) →
      ∀ p m2 app2, m1.Request E app1 = .ok (p, m2, app2) →
        (app2.msg p).Source = m.RequestTypeSource) ∧
    (m.AgreesAt m.ResponseFullType m.ResponseTypeSource →
      (∀ s ∈ steps, s.AgreesAt m.ResponseFullType m.ResponseTypeSource) →
      ∀ p m2 app2, m1.Response E app1 = .ok (p, m2, app2) →
        (app2.msg p).Source = m.ResponseTypeSource) := by
  constructor
  · intro hm hsteps p m2 app2 h
    obtain ⟨ha, hg1⟩ := run_good E _ _ m steps m app hm (GoodAt_fresh m _ _ app hreq hresp)
      hsteps m1 app1 hrun
    exact (Request_good E _ _ m m1 app1 ha hg1 p m2 app2 h).2 rfl
  · intro hm hsteps p m2 app2 h
    obtain ⟨ha, hg1⟩ := run_good E _ _ m steps m app hm (GoodAt_fresh m _ _ app hreq hresp)
      hsteps m1 app1 hrun
    exact (Response_good E _ _ m m1 app1 ha hg1 p m2 app2 h).2 rfl

/-- Witness of the amended C10: a method whose request and response are
both `lnrpc.Req` with the source `req.proto`, and another method with the
same request type and source, whose response is of another type. -/
theorem source_kept_when_sources_agree_witness :
    ∃ m1 app1,
      (exampleMethod "First".toList "lnrpc.Req".toList "req.proto".toList "lnrpc.Req".toList
          "req.proto".toList).run (goEnv id)
        [.own .Request,
         .other (exampleMethod "Second".toList "lnrpc.Req".toList "req.proto".toList
           "lnrpc.Resp".toList "rpc.proto".toList) .NestedMessages,
         .own .Response] exampleApp = .ok (m1, app1) ∧
      (∀ p m2 app2, m1.Request (goEnv id) app1 = .ok (p, m2, app2) →
        (app2.msg p).Source = "req.proto".toList) ∧
      (∀ p m2 app2, m1.Response (goEnv id) app1 = .ok (p, m2, app2) →
        (app2.msg p).Source = "req.proto".toList) :=
  ⟨_, _, rfl,
    (source_kept_when_sources_agree (goEnv id)
      (exampleMethod "First".toList "lnrpc.Req".toList "req.proto".toList "lnrpc.Req".toList
        "req.proto".toList) exampleApp rfl rfl
      [.own .Request,
       .other (exampleMethod "Second".toList "lnrpc.Req".toList "req.proto".toList
         "lnrpc.Resp".toList "rpc.proto".toList) .NestedMessages,
       .own .Response] _ _ rfl).1 ⟨fun _ => rfl, fun _ => rfl⟩
      (by
        intro s hs
        simp only [List.mem_cons, List.mem_singleton, List.mem_nil_iff, or_false] at hs
        rcases hs with rfl | rfl | rfl
        · trivial
        · exact ⟨fun _ => rfl, by decide⟩
        · trivial),
    (source_kept_when_sources_agree (goEnv id)
      (exampleMethod "First".toList "lnrpc.Req".toList "req.proto".toList "lnrpc.Req".toList
        "req.proto".toList) exampleApp rfl rfl
      [.own .Request,
       .other (exampleMethod "Second".toList "lnrpc.Req".toList "req.proto".toList
         "lnrpc.Resp".toList "rpc.proto".toList) .NestedMessages,
       .own .Response] _ _ rfl).2 ⟨fun _ => rfl, fun _ => rfl⟩
      (by
        intro s hs
        simp only [List.mem_cons, List.mem_singleton, List.mem_nil_iff, or_false] at hs
        rcases hs with rfl | rfl | rfl
        · trivial
        · exact ⟨fun _ => rfl, by decide⟩
        · trivial)⟩

/-! ## When the accessors return -/

theorem map_FullName_set (d : Message) (source : GoString) :
    ∀ (l : List Message) (p : Nat),
      (l.set p { l.getD p d with Source := source }).map (fun msg => msg.FullName)
        = l.map (fun msg => msg.FullName)
  | [], _ => rfl
  | _ :: _, 0 => rfl
  | x :: xs, p + 1 => by
    simp only [List.set_cons_succ, List.map_cons, List.getD_cons_succ, List.cons.injEq, true_and]
    exact map_FullName_set d source xs p

theorem findMessage_congr (name : GoString) :
    ∀ (l1 l2 : List Message),
      l1.map (fun msg => msg.FullName) = l2.map (fun msg => msg.FullName) →
      findMessage name l1 = findMessage name l2
  | [], [], _ => rfl
  | [], _ :: _, h => by simp at h
  | _ :: _, [], h => by simp at h
  | x :: xs, y :: ys, h => by
    simp only [List.map_cons, List.cons.injEq] at h
    simp only [findMessage, h.1, findMessage_congr name xs ys h.2]

theorem GetMessage_setSource (app : App) (unknown : GoString → GoString) (p : MsgPtr)
    (source name : GoString) :
    (app.setSource p source).GetMessage unknown name = app.GetMessage unknown name := by
  unfold App.GetMessage App.setSource App.msg
  simp only
  rw [findMessage_congr name _ _ (map_FullName_set _ source app.Messages p)]

theorem Request_GetMessage (E : Env) (m : Method) (app : App) (p : MsgPtr) (m1 : Method)
    (app1 : App) (h : m.Request E app = .ok (p, m1, app1)) (name : GoString) :
    app1.GetMessage E.unknown name = app.GetMessage E.unknown name := by
  unfold Method.Request at h
  cases hc : m.request with
  | some q =>
    rw [hc] at h
    simp only [Except.ok.injEq, Prod.mk.injEq] at h
    rw [← h.2.2]
  | none =>
    rw [hc] at h
    cases hg : app.GetMessage E.unknown m.RequestFullType with
    | error err => rw [hg] at h; simp at h
    | ok q =>
      rw [hg] at h
      simp only [Except.ok.injEq, Prod.mk.injEq] at h
      rw [← h.2.2, GetMessage_setSource]
      rfl

theorem Request_returns (E : Env) (m : Method) (app : App) (rq : MsgPtr)
    (h : app.GetMessage E.unknown m.RequestFullType = .ok rq) :
    ∃ p app1, m.Request E app = .ok (p, { m with request := some p }, app1) := by
  cases hc : m.request with
  | some q =>
    refine ⟨q, app, ?_⟩
    unfold Method.Request
    rw [hc]
    simp only [Except.ok.injEq, Prod.mk.injEq, true_and, and_true]
    cases m; simp_all
  | none => exact ⟨rq, _, by rw [Request_miss E m app hc, h]⟩

theorem Response_returns (E : Env) (m : Method) (app : App) (rp : MsgPtr)
    (h : app.GetMessage E.unknown m.ResponseFullType = .ok rp) :
    ∃ p app1, m.Response E app = .ok (p, { m with response := some p }, app1) := by
  cases hc : m.response with
  | some q =>
    refine ⟨q, app, ?_⟩
    unfold Method.Response
    rw [hc]
    simp only [Except.ok.injEq, Prod.mk.injEq, true_and, and_true]
    cases m; simp_all
  | none => exact ⟨rp, _, by rw [Response_miss E m app hc, h]⟩

/-- When the registry resolves the request type and the response type of a
method, the collecting half of `NestedMessages()` and of `NestedEnums()`
returns, and so do the two accessors. -/
theorem nested_lists_return (E : Env) (m : Method) (app : App) (rq rp : MsgPtr)
    (hq : app.GetMessage E.unknown m.RequestFullType = .ok rq)
    (hp : app.GetMessage E.unknown m.ResponseFullType = .ok rp) :
    (∃ r, m.collectMessages E app = .ok r) ∧ (∃ r, m.collectEnums E app = .ok r) ∧
    (∃ r, m.NestedMessages E app = .ok r) ∧ (∃ r, m.NestedEnums E app = .ok r) := by
  obtain ⟨p, app1, h1⟩ := Request_returns E m app rq hq
  have hg := Request_GetMessage E m app p _ app1 h1 m.ResponseFullType
  have hcm : ∃ r, m.collectMessages E app = .ok r := by
    obtain ⟨q, app2, h2⟩ := Response_returns E { m with request := some p }
      (app1.record (.getNestedMessages p 10)) rp (hg.trans hp)
    unfold Method.collectMessages
    rw [h1]
    simp only
    rw [h2]
    exact ⟨_, rfl⟩
  have hce : ∃ r, m.collectEnums E app = .ok r := by
    obtain ⟨q, app2, h2⟩ := Response_returns E { m with request := some p }
      (app1.record (.getNestedEnums p 10)) rp (hg.trans hp)
    unfold Method.collectEnums
    rw [h1]
    simp only
    rw [h2]
    exact ⟨_, rfl⟩
  refine ⟨hcm, hce, ?_, ?_⟩
  · obtain ⟨r, hr⟩ := hcm
    unfold Method.NestedMessages
    cases m.nestedMessages with
    | some l => exact ⟨_, rfl⟩
    | none => simp only [hr]; exact ⟨_, rfl⟩
  · obtain ⟨r, hr⟩ := hce
    unfold Method.NestedEnums
    cases m.nestedEnums with
    | some l => exact ⟨_, rfl⟩
    | none => simp only [hr]; exact ⟨_, rfl⟩

/-! ## The modelled resolvers key the map by full name -/

theorem findEnum_some (name : GoString) (d : Enum) :
    ∀ (l : List Enum) (p : EnumPtr), findEnum name l = some p →
      p < l.length ∧ (l.getD p d).FullName = name
  | [], _, h => by simp [findEnum] at h
  | e :: rest, p, h => by
    unfold findEnum at h
    split at h
    · next hn =>
      cases h
      exact ⟨by simp, by simpa using hn⟩
    · cases hr : findEnum name rest with
      | none => simp [hr] at h
      | some q =>
        simp only [hr, Option.map_some', Option.some.injEq] at h
        subst h
        obtain ⟨h1, h2⟩ := findEnum_some name d rest q hr
        exact ⟨by simpa using h1, by simpa using h2⟩

theorem insert_keyed {V : Type} (key : V → GoString) (all : GoMap V) (k : GoString) (v : V)
    (hall : ∀ kv ∈ all.entries, key kv.2 = kv.1) (hv : key v = k) :
    ∀ kv ∈ (all.insert k v).entries, key kv.2 = kv.1 := by
  intro kv hkv
  unfold GoMap.insert at hkv
  split at hkv
  · simp only [List.mem_map] at hkv
    obtain ⟨kv0, hmem, rfl⟩ := hkv
    split
    · exact hv
    · exact hall kv0 hmem
  · simp only [List.mem_append, List.mem_singleton] at hkv
    rcases hkv with hkv | rfl
    · exact hall kv hkv
    · exact hv

theorem GetNestedMessages_keyed (unknown : GoString → GoString) (app : App) :
    ∀ (depth : Nat) (root : MsgPtr) (all : GoMap MsgPtr),
      (∀ kv ∈ all.entries, (app.msg kv.2).FullName = kv.1) →
      ∀ kv ∈ (GetNestedMessages unknown app depth root all).entries,
        (app.msg kv.2).FullName = kv.1
  | 0, _, _, h => by simpa [GetNestedMessages] using h
  | depth + 1, root, all, h => by
    have ih := GetNestedMessages_keyed unknown app depth
    unfold GetNestedMessages
    generalize (app.msg root).Fields = fields
    induction fields generalizing all with
    | nil => simpa using h
    | cons f fields ihf =>
      rw [List.foldl_cons]
      apply ihf
      split
      · exact h
      · split
        · exact h
        · next p hp =>
          exact ih p _ (insert_keyed (fun q => (app.msg q).FullName) all f.FullType p h
            (GetMessage_valid app unknown f.FullType p hp).2)

theorem GetNestedEnums_keyed (unknown : GoString → GoString) (app : App) :
    ∀ (depth : Nat) (root : MsgPtr) (all : GoMap EnumPtr),
      (∀ kv ∈ all.entries, (app.enum kv.2).FullName = kv.1) →
      ∀ kv ∈ (GetNestedEnums unknown app depth root all).entries,
        (app.enum kv.2).FullName = kv.1
  | 0, _, _, h => by simpa [GetNestedEnums] using h
  | depth + 1, root, all, h => by
    have ih := GetNestedEnums_keyed unknown app depth
    unfold GetNestedEnums
    generalize (app.msg root).Fields = fields
    induction fields generalizing all with
    | nil => simpa using h
    | cons f fields ihf =>
      rw [List.foldl_cons]
      apply ihf
      split
      · next e he =>
        split
        · exact h
        · exact insert_keyed (fun q => (app.enum q).FullName) all f.FullType e h
            (findEnum_some f.FullType _ app.Enums e he).2
      · split
        · exact h
        · next p _ => exact ih p _ h

theorem Response_FullName (E : Env) (m : Method) (app : App) (p : MsgPtr) (m1 : Method)
    (app1 : App) (h : m.Response E app = .ok (p, m1, app1)) (q : MsgPtr) :
    (app1.msg q).FullName = (app.msg q).FullName := by
  unfold Method.Response at h
  cases hc : m.response with
  | some r =>
    rw [hc] at h
    simp only [Except.ok.injEq, Prod.mk.injEq] at h
    rw [← h.2.2]
  | none =>
    rw [hc] at h
    cases hg : app.GetMessage E.unknown m.ResponseFullType with
    | error err => rw [hg] at h; simp at h
    | ok r =>
      rw [hg] at h
      simp only [Except.ok.injEq, Prod.mk.injEq] at h
      rw [← h.2.2]
      by_cases hq : q = r
      · subst hq
        rw [msg_setSource_self (app.record _) q _ (GetMessage_valid app _ _ q hg).1]
        rfl
      · rw [msg_setSource_other (app.record _) r q _ hq]
        rfl

theorem Response_Enums (E : Env) (m : Method) (app : App) (p : MsgPtr) (m1 : Method)
    (app1 : App) (h : m.Response E app = .ok (p, m1, app1)) : app1.Enums = app.Enums := by
  unfold Method.Response at h
  cases hc : m.response with
  | some r =>
    rw [hc] at h
    simp only [Except.ok.injEq, Prod.mk.injEq] at h
    rw [← h.2.2]
  | none =>
    rw [hc] at h
    cases hg : app.GetMessage E.unknown m.ResponseFullType with
    | error err => rw [hg] at h; simp at h
    | ok r =>
      rw [hg] at h
      simp only [Except.ok.injEq, Prod.mk.injEq] at h
      rw [← h.2.2]
      rfl

/-- With the resolvers as the spec describes them, the maps `NestedMessages()`
and `NestedEnums()` collect are keyed by the full names of their values. -/
theorem goEnv_collect_keyed (order : List (GoString × Nat) → List (GoString × Nat))
    (m : Method) (app : App) :
    (∀ (all : GoMap MsgPtr) (m1 : Method) (app1 : App),
      m.collectMessages (goEnv order) app = .ok (all, m1, app1) →
      ∀ kv ∈ all.entries, (app1.msg kv.2).FullName = kv.1) ∧
    (∀ (all : GoMap EnumPtr) (m1 : Method) (app1 : App),
      m.collectEnums (goEnv order) app = .ok (all, m1, app1) →
      ∀ kv ∈ all.entries, (app1.enum kv.2).FullName = kv.1) := by
  constructor
  · intro all m1 app1 h
    unfold Method.collectMessages at h
    cases hq : m.Request (goEnv order) app with
    | error e => rw [hq] at h; simp at h
    | ok r =>
      obtain ⟨req, ma, appa⟩ := r
      rw [hq] at h
      simp only at h
      cases hp : ma.Response (goEnv order) (appa.record (.getNestedMessages req 10)) with
      | error e => rw [hp] at h; simp at h
      | ok r2 =>
        obtain ⟨resp, mb, appb⟩ := r2
        rw [hp] at h
        simp only [Except.ok.injEq, Prod.mk.injEq] at h
        obtain ⟨rfl, _, rfl⟩ := h
        have hn := Response_FullName (goEnv order) ma _ resp mb appb hp
        have h1 := GetNestedMessages_keyed (fun _ => "UnknownType".toList) appa 10 req
          GoMap.empty (fun kv hkv => by simp [GoMap.empty] at hkv)
        have h2 := GetNestedMessages_keyed (fun _ => "UnknownType".toList) appb 10 resp _
          (fun kv hkv => (hn kv.2).trans (h1 kv hkv))
        exact h2
  · intro all m1 app1 h
    unfold Method.collectEnums at h
    cases hq : m.Request (goEnv order) app with
    | error e => rw [hq] at h; simp at h
    | ok r =>
      obtain ⟨req, ma, appa⟩ := r
      rw [hq] at h
      simp only at h
      cases hp : ma.Response (goEnv order) (appa.record (.getNestedEnums req 10)) with
      | error e => rw [hp] at h; simp at h
      | ok r2 =>
        obtain ⟨resp, mb, appb⟩ := r2
        rw [hp] at h
        simp only [Except.ok.injEq, Prod.mk.injEq] at h
        obtain ⟨rfl, _, rfl⟩ := h
        have he : appb.Enums = appa.Enums :=
          Response_Enums (goEnv order) ma (appa.record (.getNestedEnums req 10)) resp mb appb hp
        have hn : ∀ q, (appb.enum q).FullName = (appa.enum q).FullName := by
          intro q; unfold App.enum; rw [he]
        have h1 := GetNestedEnums_keyed (fun _ => "UnknownType".toList) appa 10 req
          GoMap.empty (fun kv hkv => by simp [GoMap.empty] at hkv)
        have h2 := GetNestedEnums_keyed (fun _ => "UnknownType".toList) appb 10 resp _
          (fun kv hkv => (hn kv.2).trans (h1 kv hkv))
        exact h2

/-! ## Claims on `NewMethod`, `ExportMarkdown` and `parseDescription` -/

/-- C12: `NewMethod` builds `RestMapping` from the first element of the
definition's REST mapping list: two definitions that differ in the later
elements only give the same method, hence the same `RestMapping`,
`HasRestMapping()`, `RestMethod()` and `RestPath()`; and when the list is
`nil` or empty the method has no `RestMapping` and `HasRestMapping()` is
false. -/
theorem NewMethod_first_mapping (D : DefsEnv) (methodDef : ServiceMethod)
    (first : RESTMappingDef) (later later2 : List RESTMappingDef) :
    (NewMethod D { methodDef with RESTMappings := some (first :: later) }).RestMapping
      = some (D.NewRestMapping first) ∧
    NewMethod D { methodDef with RESTMappings := some (first :: later) }
      = NewMethod D { methodDef with RESTMappings := some (first :: later2) } ∧
    (NewMethod D { methodDef with RESTMappings := some (first :: later) }).HasRestMapping
      = (NewMethod D { methodDef with RESTMappings := some (first :: later2) }).HasRestMapping ∧
    (NewMethod D { methodDef with RESTMappings := some (first :: later) }).RestMethod
      = (NewMethod D { methodDef with RESTMappings := some (first :: later2) }).RestMethod ∧
    (NewMethod D { methodDef with RESTMappings := some (first :: later) }).RestPath
      = (NewMethod D { methodDef with RESTMappings := some (first :: later2) }).RestPath ∧
    (NewMethod D { methodDef with RESTMappings := none }).RestMapping = none ∧
    (NewMethod D { methodDef with RESTMappings := some [] }).RestMapping = none ∧
    (NewMethod D { methodDef with RESTMappings := none }).HasRestMapping = false ∧
    (NewMethod D { methodDef with RESTMappings := some [] }).HasRestMapping = false :=
  ⟨rfl, rfl, rfl, rfl, rfl, rfl, rfl, rfl, rfl⟩

theorem parseDescription_takeWhile (d : GoString) :
    parseDescription d =
      if Contains (d.takeWhile (fun c => c != '\n')) ": `".toList = true then
        (d.dropWhile (fun c => c != '\n')).drop 1
      else d := by
  unfold parseDescription
  by_cases hd : d = []
  · subst hd; decide
  · have hj : Join ((Split d '\n').drop 1) "\n".toList
        = (d.dropWhile (fun c => c != '\n')).drop 1 := Split_tail d '\n'
    simp only [hd, if_false, Split_head, hj]

theorem not_mem_takeWhile_ne (sep : Char) (d : GoString) :
    sep ∉ d.takeWhile (fun c => c != sep) := by
  intro h
  have := List.mem_takeWhile_imp h
  simp at this

theorem dropWhile_ne_cases (sep : Char) (d : GoString) :
    d.dropWhile (fun c => c != sep) = [] ∨
      ∃ after, d.dropWhile (fun c => c != sep) = sep :: after := by
  induction d with
  | nil => exact Or.inl rfl
  | cons c d ih =>
    by_cases hc : c = sep
    · subst hc
      exact Or.inr ⟨d, by simp [List.dropWhile]⟩
    · have hne : (c != sep) = true := by simpa using hc
      simpa [List.dropWhile, hne] using ih

/-- C18: `parseDescription d` is a suffix of `d`, and it is `d`, or `d` is a
first line without newline, a newline and `parseDescription d`, or `d` is a
single line that contains a colon, a space and a backtick and
`parseDescription d` is empty. -/
theorem parseDescription_suffix (d : GoString) :
    parseDescription d <:+ d ∧
    (parseDescription d = d ∨
      (∃ firstLine : GoString, '\n' ∉ firstLine ∧
        d = firstLine ++ "\n".toList ++ parseDescription d) ∨
      ('\n' ∉ d ∧ Contains d ": `".toList = true ∧ parseDescription d = [])) := by
  have hsplit : d.takeWhile (fun c => c != '\n') ++ d.dropWhile (fun c => c != '\n') = d :=
    List.takeWhile_append_dropWhile _ d
  rw [parseDescription_takeWhile]
  by_cases hc : Contains (d.takeWhile (fun c => c != '\n')) ": `".toList = true
  · rw [if_pos hc]
    rcases dropWhile_ne_cases '\n' d with hnil | ⟨after, hafter⟩
    · have hd : d.takeWhile (fun c => c != '\n') = d := by
        rw [hnil, List.append_nil] at hsplit; exact hsplit
      rw [hnil]
      refine ⟨List.nil_suffix, Or.inr (Or.inr ⟨?_, ?_, rfl⟩)⟩
      · have := not_mem_takeWhile_ne '\n' d
        rwa [hd] at this
      · rwa [hd] at hc
    · rw [hafter]
      have hd : d = d.takeWhile (fun c => c != '\n') ++ "\n".toList ++ after := by
        conv_lhs => rw [← hsplit, hafter]
        simp
      refine ⟨?_, Or.inr (Or.inl ⟨_, not_mem_takeWhile_ne '\n' d, ?_⟩)⟩
      · exact ⟨d.takeWhile (fun c => c != '\n') ++ "\n".toList, by
          simpa using hd.symm⟩
      · simpa using hd
  · rw [if_neg hc]
    exact ⟨List.suffix_refl d, Or.inl rfl⟩

/-- C19: for the method `NewMethod` builds, `IsDeprecated()` is whether the
lower-cased `parseDescription` of the definition's description contains
"deprecated"; a definition whose only "deprecated" is on a first line that
is stripped as a command line gives a method that is not deprecated. -/
theorem NewMethod_IsDeprecated (D : DefsEnv) (tbl : Char → Char) (methodDef : ServiceMethod) :
    (NewMethod D methodDef).IsDeprecated tbl
      = Contains (ToLower tbl (parseDescription methodDef.Description)) "deprecated".toList ∧
    Contains (ToLower tbl "lncli: `deprecated`\nCloses a channel.".toList)
      "deprecated".toList = true ∧
    (NewMethod D { methodDef with
      Description := "lncli: `deprecated`\nCloses a channel.".toList }).IsDeprecated tbl
      = false := by
  refine ⟨?_, rfl, ?_⟩
  · unfold NewMethod Method.IsDeprecated
    cases methodDef.RESTMappings with
    | none => rfl
    | some l => cases l <;> rfl
  · unfold NewMethod Method.IsDeprecated
    cases methodDef.RESTMappings with
    | none => rfl
    | some l => cases l <;> rfl

/-- C16, counterexample: on a method with a REST mapping whose request type
the registry cannot resolve, `ExportMarkdown` panics in `Request()`; it does
not reach the rendering engine and returns nothing. -/
theorem ExportMarkdown_panics_before_render :
    ({ exampleMethod "Echo".toList "lnrpc.Gone".toList [] "lnrpc.Resp".toList [] with
        RestMapping := some ⟨"GET".toList, "/v1/echo".toList⟩ }).exportPanic
      (goEnv id) exampleExport "docs".toList exampleApp
      = some "Error getting message lnrpc.Gone for Echo: UnknownType".toList := by
  decide

theorem Request_Name (E : Env) (m : Method) (app : App) (p : MsgPtr) (m1 : Method)
    (app1 : App) (h : m.Request E app = .ok (p, m1, app1)) : m1.Name = m.Name := by
  rw [(Request_shape E m app p m1 app1 h).1]

theorem applyRestMapping_ok (E : Env) (X : ExportEnv) (m : Method) (app : App)
    (h : m.RestMapping = none ∨ ∃ r, m.Request E app = .ok r) :
    ∃ m1 app1 done, m.applyRestMapping E X app = .ok (m1, app1, done) ∧
      m1.Name = m.Name ∧ done.countP ExportEvent.isRender = 0 := by
  unfold Method.applyRestMapping
  cases hr : m.RestMapping with
  | none => exact ⟨m, app, [], rfl, rfl, rfl⟩
  | some r =>
    rcases h with h | ⟨⟨p, ma, appa⟩, h⟩
    · rw [hr] at h; cases h
    · simp only [h]
      exact ⟨ma, X.UpdateMessage r appa p, _, rfl, Request_Name E m app p ma appa h, rfl⟩

theorem applyRestMapping_error (E : Env) (X : ExportEnv) (m : Method) (app : App)
    (e : GoString) (h : m.applyRestMapping E X app = .error e) :
    ∃ r, m.RestMapping = some r ∧ m.Request E app = .error e := by
  unfold Method.applyRestMapping at h
  cases hr : m.RestMapping with
  | none => rw [hr] at h; cases h
  | some r =>
    rw [hr] at h
    cases hq : m.Request E app with
    | error e2 =>
      rw [hq] at h
      simp only [Except.error.injEq] at h
      exact ⟨r, rfl, by rw [h]⟩
    | ok res => rw [hq] at h; cases h

/-- C16, amended: when the method has no REST mapping, or `Request()` returns
on it, `ExportMarkdown` runs the rendering engine exactly once, on the file
`<servicePath>/<kebab-case name>.mdx`, and returns what the engine returned:
`nil` when it succeeded, its error when it failed.  And on every method
`ExportMarkdown` panics exactly when the method has a REST mapping and
`Request()` panics on it, with the panic of `Request()`. -/
theorem ExportMarkdown_returns_engine_result (E : Env) (X : ExportEnv) (m : Method)
    (servicePath : GoString) (app : App) :
    ((m.RestMapping = none ∨ ∃ r, m.Request E app = .ok r) →
      ∃ m1 app1 done,
        m.ExportMarkdown E X servicePath app
          = .ok (X.ExecuteMethodTemplate app1 m1
              (servicePath ++ "/".toList ++ X.ToKebabCase m.Name ++ ".mdx".toList),
            m1, app1, done) ∧
        done.countP ExportEvent.isRender = 1) ∧
    (∀ e, m.ExportMarkdown E X servicePath app = .error e ↔
      ∃ r, m.RestMapping = some r ∧ m.Request E app = .error e) := by
  constructor
  · intro h
    obtain ⟨m1, app1, done, hpre, hname, hcount⟩ := applyRestMapping_ok E X m app h
    refine ⟨m1, app1,
      done ++ [.printf ("Exporting method ".toList ++ m1.Name ++ " to ".toList
        ++ (servicePath ++ "/".toList ++ X.ToKebab m1.Name ++ ".mdx".toList) ++ "\n".toList)]
        ++ [.executeMethodTemplate
          (servicePath ++ "/".toList ++ X.ToKebabCase m1.Name ++ ".mdx".toList)], ?_, ?_⟩
    · unfold Method.ExportMarkdown
      rw [hpre]
      simp only [← hname]
      cases X.ExecuteMethodTemplate app1 m1
        (servicePath ++ "/".toList ++ X.ToKebabCase m1.Name ++ ".mdx".toList) <;> rfl
    · simp [List.countP_append, hcount, ExportEvent.isRender]
  · intro e
    constructor
    · intro he
      unfold Method.ExportMarkdown at he
      cases hpre : m.applyRestMapping E X app with
      | error e2 =>
        rw [hpre] at he
        simp only [Except.error.injEq] at he
        rw [← he]
        exact applyRestMapping_error E X m app e2 hpre
      | ok res =>
        obtain ⟨m1, app1, done⟩ := res
        rw [hpre] at he
        simp only at he
        split at he <;> cases he
    · rintro ⟨r, hr, hq⟩
      unfold Method.ExportMarkdown Method.applyRestMapping
      rw [hr]
      simp only [hq]

/-- Witness of the amended C16: the engine of `exampleExport` fails on the
method `Broken`, which has no REST mapping, and `ExportMarkdown` returns that
error; and on the method with a REST mapping whose request type the registry
does not hold, it panics with the panic of `Request()`. -/
theorem ExportMarkdown_returns_engine_result_witness :
    (∃ m1 app1 done,
      (exampleMethod "Broken".toList "lnrpc.Req".toList [] "lnrpc.Resp".toList []).ExportMarkdown
          (goEnv id) exampleExport "docs".toList exampleApp
        = .ok (exampleExport.ExecuteMethodTemplate app1 m1
            ("docs".toList ++ "/".toList ++ exampleExport.ToKebabCase "Broken".toList
              ++ ".mdx".toList),
          m1, app1, done) ∧
      done.countP ExportEvent.isRender = 1) ∧
    (exampleMethod "Broken".toList "lnrpc.Req".toList [] "lnrpc.Resp".toList []).exportPanic
      (goEnv id) exampleExport "docs".toList exampleApp = none ∧
    ({ exampleMethod "Echo".toList "lnrpc.Gone".toList [] "lnrpc.Resp".toList [] with
        RestMapping := some ⟨"GET".toList, "/v1/echo".toList⟩ }).ExportMarkdown
      (goEnv id) exampleExport "docs".toList exampleApp
      = .error "Error getting message lnrpc.Gone for Echo: UnknownType".toList :=
  ⟨(ExportMarkdown_returns_engine_result (goEnv id) exampleExport
      (exampleMethod "Broken".toList "lnrpc.Req".toList [] "lnrpc.Resp".toList [])
      "docs".toList exampleApp).1 (Or.inl rfl), by decide,
   ((ExportMarkdown_returns_engine_result (goEnv id) exampleExport
      { exampleMethod "Echo".toList "lnrpc.Gone".toList [] "lnrpc.Resp".toList [] with
        RestMapping := some ⟨"GET".toList, "/v1/echo".toList⟩ }
      "docs".toList exampleApp).2 _).2 ⟨_, rfl, rfl⟩⟩

/-! ## Lemmas on Go maps -/

theorem GoMap.ext_entries {V : Type} (a b : GoMap V) (h : a.entries = b.entries) : a = b := by
  cases a; cases b; simp only at h; subst h; rfl

theorem lookup_eq_none_iff {V : Type} (all : GoMap V) (k : GoString) :
    all.lookup k = none ↔ k ∉ all.entries.map Prod.fst := by
  unfold GoMap.lookup
  simp only [Option.map_eq_none', List.find?_eq_none, decide_eq_true_eq, List.mem_map,
    not_exists, not_and]

theorem lookup_eq_some_mem {V : Type} (all : GoMap V) (k : GoString) (v : V)
    (h : all.lookup k = some v) : k ∈ all.entries.map Prod.fst := by
  by_contra hk
  rw [(lookup_eq_none_iff all k).2 hk] at h
  cases h

theorem insert_entries {V : Type} (all : GoMap V) (k : GoString) (v : V)
    (h : k ∉ all.entries.map Prod.fst) : (all.insert k v).entries = all.entries ++ [(k, v)] := by
  unfold GoMap.insert
  rw [dif_neg h]

theorem mem_keys_of_mem {V : Type} (all : GoMap V) (kv : GoString × V)
    (h : kv ∈ all.entries) : kv.1 ∈ all.entries.map Prod.fst :=
  List.mem_map_of_mem _ h

theorem entry_unique {V : Type} (all : GoMap V) (k : GoString) (v w : V)
    (hv : (k, v) ∈ all.entries) (hw : (k, w) ∈ all.entries) : v = w := by
  have hnd := all.nodupKeys
  generalize all.entries = l at hv hw hnd
  induction l with
  | nil => cases hv
  | cons x l ih =>
    simp only [List.map_cons, List.nodup_cons] at hnd
    rcases List.mem_cons.1 hv with hv1 | hv1 <;> rcases List.mem_cons.1 hw with hw1 | hw1
    · rw [← hv1] at hw1; exact (Prod.mk.inj hw1).2.symm
    · rw [← hv1] at hnd
      have hk : k ∈ l.map Prod.fst := List.mem_map_of_mem Prod.fst hw1
      exact (hnd.1 hk).elim
    · rw [← hw1] at hnd
      have hk : k ∈ l.map Prod.fst := List.mem_map_of_mem Prod.fst hv1
      exact (hnd.1 hk).elim
    · exact ih hv1 hw1 hnd.2

theorem GetMessage_ok_iff (app : App) (unknown : GoString → GoString) (name : GoString)
    (p : MsgPtr) : app.GetMessage unknown name = .ok p ↔ findMessage name app.Messages = some p := by
  unfold App.GetMessage
  cases findMessage name app.Messages <;> simp

/-! ## Lemmas on the modelled resolver of messages -/

theorem GetNestedMessages_succ (unknown : GoString → GoString) (app : App) (d : Nat)
    (root : MsgPtr) (all : GoMap MsgPtr) :
    GetNestedMessages unknown app (d + 1) root all
      = (app.msg root).Fields.foldl (visitMessageField unknown app d) all := rfl

theorem visitMessageField_cases (unknown : GoString → GoString) (app : App) (d : Nat)
    (all : GoMap MsgPtr) (f : Field) :
    (f.FullType ∈ all.entries.map Prod.fst ∧ visitMessageField unknown app d all f = all) ∨
    (f.FullType ∉ all.entries.map Prod.fst ∧ findMessage f.FullType app.Messages = none ∧
      visitMessageField unknown app d all f = all) ∨
    (∃ q, f.FullType ∉ all.entries.map Prod.fst ∧
      findMessage f.FullType app.Messages = some q ∧
      (all.insert f.FullType q).entries = all.entries ++ [(f.FullType, q)] ∧
      visitMessageField unknown app d all f
        = GetNestedMessages unknown app d q (all.insert f.FullType q)) := by
  unfold visitMessageField
  cases hl : all.lookup f.FullType with
  | some v => exact Or.inl ⟨lookup_eq_some_mem all _ v hl, rfl⟩
  | none =>
    have hk := (lookup_eq_none_iff all f.FullType).1 hl
    unfold App.GetMessage
    cases hf : findMessage f.FullType app.Messages with
    | none => exact Or.inr (Or.inl ⟨hk, rfl, rfl⟩)
    | some q => exact Or.inr (Or.inr ⟨q, hk, rfl, insert_entries all _ q hk, rfl⟩)

theorem GetNestedMessages_mono (unknown : GoString → GoString) (app : App) :
    ∀ (d : Nat) (p : MsgPtr) (all : GoMap MsgPtr) (kv : GoString × MsgPtr),
      kv ∈ all.entries → kv ∈ (GetNestedMessages unknown app d p all).entries
  | 0, _, _, _, h => h
  | d + 1, p, all, kv, h => by
    rw [GetNestedMessages_succ]
    generalize (app.msg p).Fields = fields
    induction fields generalizing all with
    | nil => exact h
    | cons f fields ihf =>
      rw [List.foldl_cons]
      apply ihf
      rcases visitMessageField_cases unknown app d all f with ⟨_, he⟩ | ⟨_, _, he⟩ |
        ⟨q, _, _, hins, he⟩
      · rw [he]; exact h
      · rw [he]; exact h
      · rw [he]
        apply GetNestedMessages_mono unknown app d q
        rw [hins]
        exact List.mem_append_left _ h

theorem foldl_visit_mono (unknown : GoString → GoString) (app : App) (d : Nat)
    (fields : List Field) (all : GoMap MsgPtr) (kv : GoString × MsgPtr)
    (h : kv ∈ all.entries) :
    kv ∈ (fields.foldl (visitMessageField unknown app d) all).entries := by
  induction fields generalizing all with
  | nil => exact h
  | cons f fields ihf =>
    rw [List.foldl_cons]
    apply ihf
    rcases visitMessageField_cases unknown app d all f with ⟨_, he⟩ | ⟨_, _, he⟩ |
      ⟨q, _, _, hins, he⟩
    · rw [he]; exact h
    · rw [he]; exact h
    · rw [he]
      apply GetNestedMessages_mono unknown app d q
      rw [hins]
      exact List.mem_append_left _ h

theorem keys_mono (unknown : GoString → GoString) (app : App) (d : Nat) (p : MsgPtr)
    (all : GoMap MsgPtr) (k : GoString) (h : k ∈ all.entries.map Prod.fst) :
    k ∈ (GetNestedMessages unknown app d p all).entries.map Prod.fst := by
  obtain ⟨kv, hkv, rfl⟩ := List.mem_map.1 h
  exact List.mem_map_of_mem _ (GetNestedMessages_mono unknown app d p all kv hkv)

theorem GetNestedMessages_resolved (unknown : GoString → GoString) (app : App) :
    ∀ (d : Nat) (p : MsgPtr) (all : GoMap MsgPtr),
      Resolved app all → Resolved app (GetNestedMessages unknown app d p all)
  | 0, _, _, h => h
  | d + 1, p, all, h => by
    rw [GetNestedMessages_succ]
    generalize (app.msg p).Fields = fields
    induction fields generalizing all with
    | nil => exact h
    | cons f fields ihf =>
      rw [List.foldl_cons]
      apply ihf
      rcases visitMessageField_cases unknown app d all f with ⟨_, he⟩ | ⟨_, _, he⟩ |
        ⟨q, _, hq, hins, he⟩
      · rw [he]; exact h
      · rw [he]; exact h
      · rw [he]
        apply GetNestedMessages_resolved unknown app d q
        intro kv hkv
        rw [hins] at hkv
        rcases List.mem_append.1 hkv with hkv | hkv
        · exact h kv hkv
        · simp only [List.mem_singleton] at hkv
          subst hkv
          exact hq

theorem GetNestedMessages_sound (unknown : GoString → GoString) (app : App) :
    ∀ (d : Nat) (p : MsgPtr) (all : GoMap MsgPtr) (k : GoString),
      k ∈ (GetNestedMessages unknown app d p all).entries.map Prod.fst →
      k ∈ all.entries.map Prod.fst ∨ k ∈ namesWithin app d p
  | 0, _, _, _, h => Or.inl h
  | d + 1, p, all, k, h => by
    rw [GetNestedMessages_succ] at h
    unfold namesWithin
    generalize (app.msg p).Fields = fields at h ⊢
    induction fields generalizing all with
    | nil => exact Or.inl h
    | cons f fields ihf =>
      rw [List.foldl_cons] at h
      rw [List.flatMap_cons, List.mem_append]
      rcases ihf _ h with h1 | h1
      · rcases visitMessageField_cases unknown app d all f with ⟨_, he⟩ | ⟨_, _, he⟩ |
          ⟨q, _, hq, hins, he⟩
        · rw [he] at h1; exact Or.inl h1
        · rw [he] at h1; exact Or.inl h1
        · rw [he] at h1
          rcases GetNestedMessages_sound unknown app d q _ k h1 with h2 | h2
          · rw [hins, List.map_append, List.mem_append] at h2
            rcases h2 with h2 | h2
            · exact Or.inl h2
            · simp only [List.map_cons, List.map_nil, List.mem_singleton] at h2
              refine Or.inr (Or.inl ?_)
              rw [hq, h2]
              exact List.mem_cons_self _ _
          · refine Or.inr (Or.inl ?_)
            rw [hq]
            exact List.mem_cons_of_mem _ h2
      · exact Or.inr (Or.inr h1)

theorem GetNestedMessages_children (unknown : GoString → GoString) (app : App) (d : Nat)
    (p : MsgPtr) (all : GoMap MsgPtr) :
    ChildrenIn app p (GetNestedMessages unknown app (d + 1) p all) := by
  intro f hf q hq
  rw [GetNestedMessages_succ]
  generalize (app.msg p).Fields = fields at hf
  induction fields generalizing all with
  | nil => cases hf
  | cons g fields ihf =>
    rw [List.foldl_cons]
    rcases List.mem_cons.1 hf with rfl | hf
    · have hkey : f.FullType ∈ (visitMessageField unknown app d all f).entries.map Prod.fst := by
        rcases visitMessageField_cases unknown app d all f with ⟨hk, he⟩ | ⟨_, hn, _⟩ |
          ⟨q2, _, _, hins, he⟩
        · rw [he]; exact hk
        · rw [hn] at hq; cases hq
        · rw [he]
          apply keys_mono
          rw [hins]
          simp
      obtain ⟨kv, hkv, hk⟩ := List.mem_map.1 hkey
      rw [← hk]
      exact List.mem_map_of_mem _ (foldl_visit_mono unknown app d fields _ kv hkv)
    · exact ihf _ hf

theorem ChildrenIn_mono (app : App) (p : MsgPtr) (a b : GoMap MsgPtr)
    (h : ChildrenIn app p a)
    (hab : ∀ k ∈ a.entries.map Prod.fst, k ∈ b.entries.map Prod.fst) : ChildrenIn app p b :=
  fun f hf q hq => hab _ (h f hf q hq)

theorem pathsEnd_succ (app : App) (d : Nat) (p : MsgPtr) (h : pathsEnd app (d + 1) p = true)
    (f : Field) (hf : f ∈ (app.msg p).Fields) (q : MsgPtr)
    (hq : findMessage f.FullType app.Messages = some q) : pathsEnd app d q = true := by
  unfold pathsEnd at h
  rw [List.all_eq_true] at h
  have := h f hf
  rw [hq] at this
  exact this

theorem pathsEnd_zero (app : App) (p : MsgPtr) (h : pathsEnd app 0 p = true)
    (f : Field) (hf : f ∈ (app.msg p).Fields) :
    findMessage f.FullType app.Messages = none := by
  unfold pathsEnd at h
  rw [List.all_eq_true] at h
  simpa using h f hf

theorem foldl_visit_closed (unknown : GoString → GoString) (app : App) (d : Nat)
    (ih : ∀ (q : MsgPtr) (all : GoMap MsgPtr), pathsEnd app d q = true →
      ChildrenIn app q (GetNestedMessages unknown app d q all) ∧
      ∀ kv ∈ (GetNestedMessages unknown app d q all).entries,
        kv ∈ all.entries ∨ ChildrenIn app kv.2 (GetNestedMessages unknown app d q all))
    (base : GoMap MsgPtr) (fields : List Field)
    (hp : ∀ f ∈ fields, ∀ q, findMessage f.FullType app.Messages = some q →
      pathsEnd app d q = true) :
    ∀ cur : GoMap MsgPtr,
      (∀ kv ∈ cur.entries, kv ∈ base.entries ∨ ChildrenIn app kv.2 cur) →
      ∀ kv ∈ (fields.foldl (visitMessageField unknown app d) cur).entries,
        kv ∈ base.entries ∨
          ChildrenIn app kv.2 (fields.foldl (visitMessageField unknown app d) cur) := by
  induction fields with
  | nil => intro cur h; exact h
  | cons f fields ihf =>
    intro cur h
    rw [List.foldl_cons]
    apply ihf (fun g hg => hp g (List.mem_cons_of_mem _ hg))
    rcases visitMessageField_cases unknown app d cur f with ⟨_, he⟩ | ⟨_, _, he⟩ |
      ⟨q, _, hq, hins, he⟩
    · rw [he]; exact h
    · rw [he]; exact h
    · rw [he]
      obtain ⟨hch, hnew⟩ := ih q (cur.insert f.FullType q)
        (hp f (List.mem_cons_self _ _) q hq)
      intro kv hkv
      rcases hnew kv hkv with hold | hc
      · rw [hins] at hold
        rcases List.mem_append.1 hold with hold | hold
        · rcases h kv hold with hb | hc
          · exact Or.inl hb
          · refine Or.inr (ChildrenIn_mono app kv.2 cur _ hc (fun k hk => ?_))
            apply keys_mono
            rw [hins, List.map_append]
            exact List.mem_append_left _ hk
        · simp only [List.mem_singleton] at hold
          subst hold
          exact Or.inr hch
      · exact Or.inr hc

theorem GetNestedMessages_closed (unknown : GoString → GoString) (app : App) :
    ∀ (d : Nat) (p : MsgPtr) (all : GoMap MsgPtr), pathsEnd app d p = true →
      ChildrenIn app p (GetNestedMessages unknown app d p all) ∧
      ∀ kv ∈ (GetNestedMessages unknown app d p all).entries,
        kv ∈ all.entries ∨ ChildrenIn app kv.2 (GetNestedMessages unknown app d p all)
  | 0, p, all, h => by
    refine ⟨fun f hf q hq => ?_, fun kv hkv => Or.inl hkv⟩
    rw [pathsEnd_zero app p h f hf] at hq
    cases hq
  | d + 1, p, all, h => by
    refine ⟨GetNestedMessages_children unknown app d p all, ?_⟩
    rw [GetNestedMessages_succ]
    exact foldl_visit_closed unknown app d (GetNestedMessages_closed unknown app d) all
      (app.msg p).Fields (fun f hf q hq => pathsEnd_succ app d p h f hf q hq) all
      (fun kv hkv => Or.inl hkv)

theorem names_in_closed (app : App) (all : GoMap MsgPtr) (hres : Resolved app all)
    (hclosed : ∀ kv ∈ all.entries, ChildrenIn app kv.2 all) :
    ∀ (d : Nat) (p : MsgPtr), ChildrenIn app p all →
      ∀ name ∈ namesWithin app d p, name ∈ all.entries.map Prod.fst
  | 0, _, _, name, h => by simp [namesWithin] at h
  | d + 1, p, hp, name, h => by
    unfold namesWithin at h
    rw [List.mem_flatMap] at h
    obtain ⟨f, hf, hname⟩ := h
    cases hq : findMessage f.FullType app.Messages with
    | none => rw [hq] at hname; cases hname
    | some q =>
      rw [hq] at hname
      have hkey := hp f hf q hq
      rcases List.mem_cons.1 hname with rfl | hname
      · exact hkey
      · obtain ⟨kv, hkv, hk⟩ := List.mem_map.1 hkey
        have hv : kv.2 = q := by
          have := hres kv hkv
          rw [hk, hq] at this
          exact (Option.some.inj this).symm
        have hcq : ChildrenIn app q all := hv ▸ hclosed kv hkv
        exact names_in_closed app all hres hclosed d q hcq name hname

/-! ## Chains -/

theorem onlyRef_iff (app : App) (p : MsgPtr) (name : GoString) (q : MsgPtr) :
    app.onlyRef p name q = true ↔
      findMessage name app.Messages = some q ∧
      (∃ f ∈ (app.msg p).Fields, f.FullType = name) ∧
      ∀ f ∈ (app.msg p).Fields,
        f.FullType = name ∨ findMessage f.FullType app.Messages = none := by
  unfold App.onlyRef
  simp only [Bool.and_eq_true, decide_eq_true_eq, List.any_eq_true, List.all_eq_true,
    Bool.or_eq_true, Option.isNone_iff_eq_none, and_assoc]

theorem foldl_visit_onlyRef (unknown : GoString → GoString) (app : App) (d : Nat)
    (name : GoString) (q : MsgPtr) (hq : findMessage name app.Messages = some q)
    (fields : List Field)
    (hall : ∀ f ∈ fields, f.FullType = name ∨ findMessage f.FullType app.Messages = none) :
    ∀ cur : GoMap MsgPtr,
      (name ∈ cur.entries.map Prod.fst →
        fields.foldl (visitMessageField unknown app d) cur = cur) ∧
      (name ∉ cur.entries.map Prod.fst → (∃ f ∈ fields, f.FullType = name) →
        fields.foldl (visitMessageField unknown app d) cur
          = GetNestedMessages unknown app d q (cur.insert name q)) := by
  induction fields with
  | nil =>
    intro cur
    exact ⟨fun _ => rfl, fun _ h => by obtain ⟨f, hf, _⟩ := h; cases hf⟩
  | cons f fields ihf =>
    intro cur
    have hrest : ∀ g ∈ fields,
        g.FullType = name ∨ findMessage g.FullType app.Messages = none :=
      fun g hg => hall g (List.mem_cons_of_mem _ hg)
    have hf := hall f (List.mem_cons_self _ _)
    constructor
    · intro hin
      rw [List.foldl_cons]
      have hstep : visitMessageField unknown app d cur f = cur := by
        rcases visitMessageField_cases unknown app d cur f with ⟨_, he⟩ | ⟨_, _, he⟩ |
          ⟨q2, hk, hq2, _, _⟩
        · exact he
        · exact he
        · rcases hf with hf | hf
          · rw [hf] at hk; exact (hk hin).elim
          · rw [hf] at hq2; cases hq2
      rw [hstep]
      exact (ihf hrest cur).1 hin
    · intro hnot hex
      rw [List.foldl_cons]
      rcases visitMessageField_cases unknown app d cur f with ⟨hk, he⟩ | ⟨_, hn, he⟩ |
        ⟨q2, hk, hq2, hins, he⟩
      · rcases hf with hf | hf
        · rw [hf] at hk; exact (hnot hk).elim
        · rw [he]
          obtain ⟨g, hg, hgn⟩ := hex
          rcases List.mem_cons.1 hg with rfl | hg
          · obtain ⟨kv, hkv, hkk⟩ := List.mem_map.1 hk
            rw [hgn] at hk
            exact (hnot hk).elim
          · exact (ihf hrest cur).2 hnot ⟨g, hg, hgn⟩
      · rw [he]
        obtain ⟨g, hg, hgn⟩ := hex
        rcases List.mem_cons.1 hg with rfl | hg
        · rw [hgn, hq] at hn; cases hn
        · exact (ihf hrest cur).2 hnot ⟨g, hg, hgn⟩
      · rcases hf with hf | hf
        · rw [hf, hq] at hq2
          have hqq : q2 = q := (Option.some.inj hq2).symm
          rw [he, hf, hqq]
          apply (ihf hrest _).1
          apply keys_mono
          rw [insert_entries cur name q hnot]
          simp
        · rw [hf] at hq2; cases hq2

theorem chain_collected (unknown : GoString → GoString) (app : App) :
    ∀ (d : Nat) (p : MsgPtr) (chain : List (GoString × MsgPtr)) (all : GoMap MsgPtr),
      app.chain p chain = true → (chain.map Prod.fst).Nodup →
      (∀ name ∈ (chain.map Prod.fst).take d, name ∉ all.entries.map Prod.fst) →
      ∀ name ∈ (chain.map Prod.fst).take d,
        name ∈ (GetNestedMessages unknown app d p all).entries.map Prod.fst
  | 0, _, _, _, _, _, _, name, h => by simp at h
  | _ + 1, _, [], _, _, _, _, name, h => by simp at h
  | d + 1, p, (t, q) :: rest, all, hc, hnd, hnot, name, h => by
    simp only [App.chain, Bool.and_eq_true] at hc
    obtain ⟨href, hrest⟩ := hc
    obtain ⟨hq, hex, hall⟩ := (onlyRef_iff app p t q).1 href
    simp only [List.map_cons, List.nodup_cons] at hnd
    simp only [List.map_cons, List.take_succ_cons, List.mem_cons] at h hnot
    have htnot : t ∉ all.entries.map Prod.fst := hnot t (Or.inl rfl)
    rw [GetNestedMessages_succ,
      (foldl_visit_onlyRef unknown app d t q hq (app.msg p).Fields hall all).2 htnot hex]
    rcases h with rfl | h
    · apply keys_mono
      rw [insert_entries all name q htnot]
      simp
    · apply chain_collected unknown app d q rest (all.insert t q) hrest hnd.2 _ name h
      intro n hn hin
      rw [insert_entries all t q htnot, List.map_append, List.mem_append] at hin
      rcases hin with hin | hin
      · exact hnot n (Or.inr hn) hin
      · simp only [List.map_cons, List.map_nil, List.mem_singleton] at hin
        subst hin
        exact hnd.1 (List.mem_of_mem_take hn)

theorem chain_namesWithin (app : App) :
    ∀ (d : Nat) (p : MsgPtr) (chain : List (GoString × MsgPtr)),
      app.chain p chain = true → d ≤ chain.length →
      ∀ name ∈ namesWithin app d p, name ∈ (chain.map Prod.fst).take d
  | 0, _, _, _, _, name, h => by simp [namesWithin] at h
  | _ + 1, _, [], _, hlen, _, _ => by simp at hlen
  | d + 1, p, (t, q) :: rest, hc, hlen, name, h => by
    simp only [App.chain, Bool.and_eq_true] at hc
    obtain ⟨href, hrest⟩ := hc
    obtain ⟨hq, _, hall⟩ := (onlyRef_iff app p t q).1 href
    unfold namesWithin at h
    rw [List.mem_flatMap] at h
    obtain ⟨f, hf, hname⟩ := h
    simp only [List.map_cons, List.take_succ_cons, List.mem_cons]
    rcases hall f hf with hft | hfn
    · rw [hft, hq] at hname
      rcases List.mem_cons.1 hname with rfl | hname
      · exact Or.inl rfl
      · exact Or.inr (chain_namesWithin app d q rest hrest
          (by simpa using hlen) name hname)
    · rw [hfn] at hname
      cases hname

/-! ## The resolvers do not read the sources -/

theorem getD_of_map_eq {α β : Type} (g : α → β) (d : α) :
    ∀ (l1 l2 : List α), l1.map g = l2.map g → ∀ p, g (l1.getD p d) = g (l2.getD p d)
  | [], [], _, _ => rfl
  | [], _ :: _, h, _ => by simp at h
  | _ :: _, [], h, _ => by simp at h
  | x :: xs, y :: ys, h, p => by
    simp only [List.map_cons, List.cons.injEq] at h
    cases p with
    | zero => simpa using h.1
    | succ p => simpa using getD_of_map_eq g d xs ys h.2 p

theorem Similar_refl (app : App) : app.Similar app := ⟨rfl, rfl⟩

theorem Similar_trans {app app1 app2 : App} (h1 : app.Similar app1) (h2 : app1.Similar app2) :
    app.Similar app2 := ⟨h2.1.trans h1.1, h2.2.trans h1.2⟩

theorem Similar_record (app : App) (e : Event) : app.Similar (app.record e) := ⟨rfl, rfl⟩

theorem map_shape_set (d : Message) (source : GoString) :
    ∀ (l : List Message) (p : Nat),
      (l.set p { l.getD p d with Source := source }).map (fun msg => (msg.FullName, msg.Fields))
        = l.map (fun msg => (msg.FullName, msg.Fields))
  | [], _ => rfl
  | _ :: _, 0 => rfl
  | x :: xs, p + 1 => by
    simp only [List.set_cons_succ, List.map_cons, List.getD_cons_succ, List.cons.injEq, true_and]
    exact map_shape_set d source xs p

theorem Similar_setSource (app : App) (p : MsgPtr) (source : GoString) :
    app.Similar (app.setSource p source) :=
  ⟨map_shape_set _ source app.Messages p, rfl⟩

theorem Similar_fields {app app1 : App} (h : app.Similar app1) (p : MsgPtr) :
    (app1.msg p).Fields = (app.msg p).Fields := by
  have := getD_of_map_eq (fun msg : Message => (msg.FullName, msg.Fields)) ⟨[], [], []⟩
    app1.Messages app.Messages h.1 p
  exact (Prod.mk.inj this).2

theorem Similar_FullName {app app1 : App} (h : app.Similar app1) (p : MsgPtr) :
    (app1.msg p).FullName = (app.msg p).FullName := by
  have := getD_of_map_eq (fun msg : Message => (msg.FullName, msg.Fields)) ⟨[], [], []⟩
    app1.Messages app.Messages h.1 p
  exact (Prod.mk.inj this).1

theorem Similar_enum {app app1 : App} (h : app.Similar app1) (p : EnumPtr) :
    app1.enum p = app.enum p := by
  unfold App.enum
  rw [h.2]

theorem Similar_findMessage {app app1 : App} (h : app.Similar app1) (name : GoString) :
    findMessage name app1.Messages = findMessage name app.Messages := by
  apply findMessage_congr
  have := congrArg (List.map Prod.fst) h.1
  simpa [List.map_map, Function.comp] using this

theorem Similar_GetMessage {app app1 : App} (h : app.Similar app1)
    (unknown : GoString → GoString) (name : GoString) :
    app1.GetMessage unknown name = app.GetMessage unknown name := by
  unfold App.GetMessage
  rw [Similar_findMessage h]

theorem Similar_GetNestedMessages {app app1 : App} (h : app.Similar app1)
    (unknown : GoString → GoString) :
    ∀ (d : Nat) (p : MsgPtr) (all : GoMap MsgPtr),
      GetNestedMessages unknown app1 d p all = GetNestedMessages unknown app d p all
  | 0, _, _ => rfl
  | d + 1, p, all => by
    have hstep : visitMessageField unknown app1 d = visitMessageField unknown app d := by
      funext cur f
      unfold visitMessageField
      rw [Similar_GetMessage h]
      cases cur.lookup f.FullType with
      | some _ => rfl
      | none =>
        cases app.GetMessage unknown f.FullType with
        | error _ => rfl
        | ok q => exact Similar_GetNestedMessages h unknown d q _
    rw [GetNestedMessages_succ, GetNestedMessages_succ, hstep, Similar_fields h]

theorem GetNestedEnums_succ (unknown : GoString → GoString) (app : App) (d : Nat)
    (root : MsgPtr) (all : GoMap EnumPtr) :
    GetNestedEnums unknown app (d + 1) root all
      = (app.msg root).Fields.foldl (visitEnumField unknown app d) all := rfl

theorem Similar_GetNestedEnums {app app1 : App} (h : app.Similar app1)
    (unknown : GoString → GoString) :
    ∀ (d : Nat) (p : MsgPtr) (all : GoMap EnumPtr),
      GetNestedEnums unknown app1 d p all = GetNestedEnums unknown app d p all
  | 0, _, _ => rfl
  | d + 1, p, all => by
    have hstep : visitEnumField unknown app1 d = visitEnumField unknown app d := by
      funext cur f
      unfold visitEnumField App.GetEnum
      rw [Similar_GetMessage h, h.2]
      cases findEnum f.FullType app.Enums with
      | some _ => rfl
      | none =>
        cases app.GetMessage unknown f.FullType with
        | error _ => rfl
        | ok q => exact Similar_GetNestedEnums h unknown d q _
    rw [GetNestedEnums_succ, GetNestedEnums_succ, hstep, Similar_fields h]

/-! ## The roots of the two traversals -/

theorem Request_root (E : Env) (m : Method) (app : App) (rq : MsgPtr)
    (h : m.requestRoot app = some rq) :
    ∃ app1, m.Request E app = .ok (rq, { m with request := some rq }, app1) ∧
      app.Similar app1 := by
  unfold Method.requestRoot at h
  cases hc : m.request with
  | some p =>
    rw [hc] at h
    simp only [Option.some.injEq] at h
    subst h
    refine ⟨app, ?_, Similar_refl app⟩
    unfold Method.Request
    rw [hc]
    simp only [Except.ok.injEq, Prod.mk.injEq, true_and, and_true]
    cases m; simp_all
  | none =>
    rw [hc] at h
    simp only at h
    refine ⟨_, by rw [Request_miss E m app hc, (GetMessage_ok_iff app _ _ rq).2 h], ?_⟩
    exact Similar_trans (Similar_record app _) (Similar_setSource _ _ _)

theorem Response_root (E : Env) (m : Method) (app : App) (rp : MsgPtr)
    (h : m.responseRoot app = some rp) :
    ∃ app1, m.Response E app = .ok (rp, { m with response := some rp }, app1) ∧
      app.Similar app1 := by
  unfold Method.responseRoot at h
  cases hc : m.response with
  | some p =>
    rw [hc] at h
    simp only [Option.some.injEq] at h
    subst h
    refine ⟨app, ?_, Similar_refl app⟩
    unfold Method.Response
    rw [hc]
    simp only [Except.ok.injEq, Prod.mk.injEq, true_and, and_true]
    cases m; simp_all
  | none =>
    rw [hc] at h
    simp only at h
    refine ⟨_, by rw [Response_miss E m app hc, (GetMessage_ok_iff app _ _ rp).2 h], ?_⟩
    exact Similar_trans (Similar_record app _) (Similar_setSource _ _ _)

theorem responseRoot_after (m : Method) (app app1 : App) (hs : app.Similar app1)
    (p : MsgPtr) :
    ({ m with request := some p } : Method).responseRoot app1 = m.responseRoot app := by
  unfold Method.responseRoot
  simp only [Similar_findMessage hs]

/-- With the resolvers of the spec, the four collecting functions on a method
whose roots are `rq` and `rp`: what they return, in terms of the registry the
call starts from. -/
theorem collect_roots (E : Env) (hres : E.SpecResolvers) (m : Method) (app : App)
    (rq rp : MsgPtr) (hq : m.requestRoot app = some rq) (hp : m.responseRoot app = some rp) :
    (∃ m1 app1, app.Similar app1 ∧ m1.nestedMessages = m.nestedMessages ∧
      m.collectMessages E app = .ok (GetNestedMessages E.unknown app 10 rp
        (GetNestedMessages E.unknown app 10 rq GoMap.empty), m1, app1) ∧
      m.collectMessagesSeparate E app = .ok ((GetNestedMessages E.unknown app 10 rq
        GoMap.empty).merge (GetNestedMessages E.unknown app 10 rp GoMap.empty), m1, app1)) ∧
    (∃ m1 app1, app.Similar app1 ∧ m1.nestedEnums = m.nestedEnums ∧
      m.collectEnums E app = .ok (GetNestedEnums E.unknown app 10 rp
        (GetNestedEnums E.unknown app 10 rq GoMap.empty), m1, app1) ∧
      m.collectEnumsSeparate E app = .ok ((GetNestedEnums E.unknown app 10 rq
        GoMap.empty).merge (GetNestedEnums E.unknown app 10 rp GoMap.empty), m1, app1)) := by
  obtain ⟨appa, hreq, hsa⟩ := Request_root E m app rq hq
  have hresp : ∀ e : Event, ∃ appb,
      ({ m with request := some rq } : Method).Response E (appa.record e)
        = .ok (rp, { ({ m with request := some rq } : Method) with response := some rp }, appb) ∧
      app.Similar appb := by
    intro e
    have hs : app.Similar (appa.record e) := Similar_trans hsa (Similar_record appa e)
    obtain ⟨appb, h1, h2⟩ := Response_root E { m with request := some rq } (appa.record e) rp
      ((responseRoot_after m app _ hs rq).trans hp)
    exact ⟨appb, h1, Similar_trans hs h2⟩
  refine ⟨?_, ?_⟩
  · obtain ⟨appb, hr, hsb⟩ := hresp (.getNestedMessages rq 10)
    refine ⟨{ ({ m with request := some rq } : Method) with response := some rp },
      appb.record (.getNestedMessages rp 10), Similar_trans hsb (Similar_record appb _), rfl,
      ?_, ?_⟩
    · unfold Method.collectMessages
      rw [hreq]
      simp only
      rw [hr]
      simp only [hres.1, Similar_GetNestedMessages hsa, Similar_GetNestedMessages hsb]
    · unfold Method.collectMessagesSeparate
      rw [hreq]
      simp only
      rw [hr]
      simp only [hres.1, Similar_GetNestedMessages hsa, Similar_GetNestedMessages hsb]
  · obtain ⟨appb, hr, hsb⟩ := hresp (.getNestedEnums rq 10)
    refine ⟨{ ({ m with request := some rq } : Method) with response := some rp },
      appb.record (.getNestedEnums rp 10), Similar_trans hsb (Similar_record appb _), rfl,
      ?_, ?_⟩
    · unfold Method.collectEnums
      rw [hreq]
      simp only
      rw [hr]
      simp only [hres.2, Similar_GetNestedEnums hsa, Similar_GetNestedEnums hsb]
    · unfold Method.collectEnumsSeparate
      rw [hreq]
      simp only
      rw [hr]
      simp only [hres.2, Similar_GetNestedEnums hsa, Similar_GetNestedEnums hsb]

theorem goEnv_SpecResolvers (order : List (GoString × Nat) → List (GoString × Nat)) :
    (goEnv order).SpecResolvers := ⟨fun _ _ _ _ => rfl, fun _ _ _ _ => rfl⟩

/-! ## Lemmas on `addAll` and on the modelled resolver of enums -/

theorem addAll_eq_foldl {V : Type} (all : GoMap V) (l : List (GoString × V)) :
    all.addAll l = l.foldl GoMap.addOne all := rfl

theorem addAll_nil {V : Type} (all : GoMap V) : all.addAll [] = all := rfl

theorem addAll_cons {V : Type} (all : GoMap V) (kv : GoString × V) (l : List (GoString × V)) :
    all.addAll (kv :: l) = (all.addOne kv).addAll l := rfl

theorem addAll_append {V : Type} (all : GoMap V) (l1 l2 : List (GoString × V)) :
    all.addAll (l1 ++ l2) = (all.addAll l1).addAll l2 := by
  simp only [addAll_eq_foldl, List.foldl_append]

theorem addOne_cases {V : Type} (all : GoMap V) (kv : GoString × V) :
    (kv.1 ∈ all.entries.map Prod.fst ∧ all.addOne kv = all) ∨
    (kv.1 ∉ all.entries.map Prod.fst ∧ (all.addOne kv).entries = all.entries ++ [kv]) := by
  unfold GoMap.addOne
  cases hl : all.lookup kv.1 with
  | some v => exact Or.inl ⟨lookup_eq_some_mem all _ v hl, rfl⟩
  | none =>
    have hk := (lookup_eq_none_iff all kv.1).1 hl
    exact Or.inr ⟨hk, insert_entries all kv.1 kv.2 hk⟩

theorem addOne_mem {V : Type} (all : GoMap V) (kv x : GoString × V) :
    x ∈ (all.addOne kv).entries ↔
      x ∈ all.entries ∨ (kv.1 ∉ all.entries.map Prod.fst ∧ x = kv) := by
  rcases addOne_cases all kv with ⟨hk, he⟩ | ⟨hk, he⟩
  · rw [he]
    exact ⟨Or.inl, fun h => h.elim id (fun h2 => (h2.1 hk).elim)⟩
  · rw [he, List.mem_append, List.mem_singleton]
    exact ⟨fun h => h.elim Or.inl (fun h2 => Or.inr ⟨hk, h2⟩), fun h => h.elim Or.inl
      (fun h2 => Or.inr h2.2)⟩

theorem addOne_keys {V : Type} (all : GoMap V) (kv : GoString × V) (k : GoString) :
    k ∈ (all.addOne kv).entries.map Prod.fst ↔ k ∈ all.entries.map Prod.fst ∨ k = kv.1 := by
  rcases addOne_cases all kv with ⟨hk, he⟩ | ⟨_, he⟩
  · rw [he]
    exact ⟨Or.inl, fun h => h.elim id (fun h2 => h2 ▸ hk)⟩
  · rw [he, List.map_append, List.mem_append, List.map_cons, List.map_nil,
      List.mem_singleton]

theorem addAll_keys {V : Type} (l : List (GoString × V)) :
    ∀ (all : GoMap V) (k : GoString),
      k ∈ (all.addAll l).entries.map Prod.fst ↔
        k ∈ all.entries.map Prod.fst ∨ k ∈ l.map Prod.fst := by
  induction l with
  | nil =>
    intro all k
    rw [addAll_nil, List.map_nil]
    exact ⟨Or.inl, fun h => h.elim id (fun h2 => absurd h2 (List.not_mem_nil k))⟩
  | cons kv l ih =>
    intro all k
    rw [addAll_cons, ih, addOne_keys, List.map_cons, List.mem_cons, or_assoc]

theorem addAll_mem {V : Type} (l : List (GoString × V)) :
    ∀ (all : GoMap V) (x : GoString × V),
      x ∈ (all.addAll l).entries → x ∈ all.entries ∨ x ∈ l := by
  induction l with
  | nil => intro all x h; exact Or.inl h
  | cons kv l ih =>
    intro all x h
    rw [addAll_cons] at h
    rcases ih _ x h with h1 | h1
    · rcases (addOne_mem all kv x).1 h1 with h2 | h2
      · exact Or.inl h2
      · exact Or.inr (h2.2 ▸ List.mem_cons_self _ _)
    · exact Or.inr (List.mem_cons_of_mem _ h1)

theorem addAll_mono {V : Type} (l : List (GoString × V)) :
    ∀ (all : GoMap V) (x : GoString × V), x ∈ all.entries → x ∈ (all.addAll l).entries := by
  induction l with
  | nil => intro all x h; exact h
  | cons kv l ih =>
    intro all x h
    rw [addAll_cons]
    exact ih _ x ((addOne_mem all kv x).2 (Or.inl h))

theorem addOne_of_mem {V : Type} (all : GoMap V) (kv : GoString × V)
    (h : kv.1 ∈ all.entries.map Prod.fst) : all.addOne kv = all := by
  rcases addOne_cases all kv with ⟨_, he⟩ | ⟨hk, _⟩
  · exact he
  · exact (hk h).elim

theorem addOne_of_not_mem {V : Type} (all : GoMap V) (kv : GoString × V)
    (h : kv.1 ∉ all.entries.map Prod.fst) : (all.addOne kv).entries = all.entries ++ [kv] := by
  rcases addOne_cases all kv with ⟨hk, _⟩ | ⟨_, he⟩
  · exact (h hk).elim
  · exact he

/-- Adding the entries of a map built by `addAll` from `l` is adding `l`. -/
theorem addAll_addAll_entries {V : Type} (l : List (GoString × V)) :
    ∀ (a b : GoMap V), a.addAll (b.addAll l).entries = (a.addAll b.entries).addAll l := by
  induction l with
  | nil => intro a b; rfl
  | cons kv l ih =>
    intro a b
    rw [addAll_cons, ih, addAll_cons]
    congr 1
    by_cases hk : kv.1 ∈ b.entries.map Prod.fst
    · rw [addOne_of_mem b kv hk]
      exact (addOne_of_mem _ kv ((addAll_keys b.entries a kv.1).2 (Or.inr hk))).symm
    · rw [addOne_of_not_mem b kv hk, addAll_append]
      rfl

theorem merge_addAll {V : Type} (a : GoMap V) (l : List (GoString × V)) :
    a.merge (GoMap.empty.addAll l) = a.addAll l := by
  unfold GoMap.merge
  rw [addAll_addAll_entries]
  rfl

theorem visitEnumField_eq (unknown : GoString → GoString) (app : App) (d : Nat)
    (ih : ∀ (q : MsgPtr) (all : GoMap EnumPtr),
      GetNestedEnums unknown app d q all = all.addAll (enumsWithin app d q))
    (all : GoMap EnumPtr) (f : Field) :
    visitEnumField unknown app d all f =
      all.addAll (match app.GetEnum f.FullType with
        | some e => [(f.FullType, e)]
        | none =>
          match findMessage f.FullType app.Messages with
          | some q => enumsWithin app d q
          | none => []) := by
  unfold visitEnumField App.GetMessage
  cases app.GetEnum f.FullType with
  | some e =>
    simp only [addAll_cons, addAll_nil, GoMap.addOne]
    cases all.lookup f.FullType <;> rfl
  | none =>
    cases findMessage f.FullType app.Messages with
    | none => rfl
    | some q => exact ih q all

theorem GetNestedEnums_addAll (unknown : GoString → GoString) (app : App) :
    ∀ (d : Nat) (p : MsgPtr) (all : GoMap EnumPtr),
      GetNestedEnums unknown app d p all = all.addAll (enumsWithin app d p)
  | 0, _, _ => rfl
  | d + 1, p, all => by
    rw [GetNestedEnums_succ]
    unfold enumsWithin
    generalize (app.msg p).Fields = fields
    induction fields generalizing all with
    | nil => rfl
    | cons f fields ihf =>
      rw [List.foldl_cons, List.flatMap_cons, addAll_append, ihf,
        visitEnumField_eq unknown app d (GetNestedEnums_addAll unknown app d)]

/-! ## The nested lists with the resolvers of the spec -/

theorem Rooted_roots (m : Method) (app : App) (rq rp : MsgPtr) (h : m.Rooted app rq rp) :
    m.requestRoot app = some rq ∧ m.responseRoot app = some rp := by
  obtain ⟨h1, h2, h3, h4⟩ := h
  unfold Method.requestRoot Method.responseRoot
  constructor
  · rcases h2 with h2 | h2 <;> rw [h2]
    exact h1
  · rcases h4 with h4 | h4 <;> rw [h4]
    exact h3

theorem Resolved_empty (app : App) : Resolved app GoMap.empty := by
  intro kv hkv
  cases hkv

theorem Resolved_keyed (app app1 : App) (hs : app.Similar app1) (all : GoMap MsgPtr)
    (h : Resolved app all) : ∀ kv ∈ all.entries, (app1.msg kv.2).FullName = kv.1 := by
  intro kv hkv
  rw [Similar_FullName hs]
  exact (findMessage_some kv.1 _ app.Messages kv.2 (h kv hkv)).2

theorem map_FullName_similar (app app1 : App) (hs : app.Similar app1) (l : List MsgPtr) :
    l.map (fun p => (app1.msg p).FullName) = l.map (fun p => (app.msg p).FullName) :=
  List.map_congr_left (fun p _ => Similar_FullName hs p)

/-- With the resolvers of the spec, `NestedMessages()` on a method with no
cached list and with roots `rq` and `rp` returns a list whose full names are
the keys of the collected map, none twice. -/
theorem NestedMessages_of_roots (E : Env) (hres : E.SpecResolvers) (hrange : E.RangeOk)
    (hsort : E.SortOk) (m : Method) (app : App) (rq rp : MsgPtr)
    (hroot : m.Rooted app rq rp) (hc : m.nestedMessages = none) :
    ∃ l m1 app1, m.NestedMessages E app = .ok (l, m1, app1) ∧
      (l.map (fun p => (app.msg p).FullName)).Perm
        ((GetNestedMessages E.unknown app 10 rp
          (GetNestedMessages E.unknown app 10 rq GoMap.empty)).entries.map Prod.fst) ∧
      (l.map (fun p => (app.msg p).FullName)).Nodup := by
  obtain ⟨hq, hp⟩ := Rooted_roots m app rq rp hroot
  obtain ⟨⟨m1, app1, hs, _, hcol, _⟩, _⟩ := collect_roots E hres m app rq rp hq hp
  have hresolved : Resolved app (GetNestedMessages E.unknown app 10 rp
      (GetNestedMessages E.unknown app 10 rq GoMap.empty)) :=
    GetNestedMessages_resolved _ _ _ _ _
      (GetNestedMessages_resolved _ _ _ _ _ (Resolved_empty app))
  obtain ⟨_, h2, h3, _⟩ := sorted_values E hrange hsort _ (fun p => (app1.msg p).FullName)
    (Resolved_keyed app app1 hs _ hresolved)
  refine ⟨E.SortFunc (lessMessage E app1) ((E.range (GetNestedMessages E.unknown app 10 rp
      (GetNestedMessages E.unknown app 10 rq GoMap.empty))).map Prod.snd),
    { m1 with nestedMessages := some (E.SortFunc (lessMessage E app1)
      ((E.range (GetNestedMessages E.unknown app 10 rp
        (GetNestedMessages E.unknown app 10 rq GoMap.empty))).map Prod.snd)) }, app1, ?_, ?_, ?_⟩
  · unfold Method.NestedMessages
    rw [hc, hcol]
  · rw [← map_FullName_similar app app1 hs]
    exact h2
  · rw [← map_FullName_similar app app1 hs]
    exact h3

theorem keyed_empty (app : App) :
    ∀ kv ∈ (GoMap.empty : GoMap EnumPtr).entries, (app.enum kv.2).FullName = kv.1 := by
  intro kv hkv
  cases hkv

/-- With the resolvers of the spec, `NestedEnums()` on a method with no cached
list and with roots `rq` and `rp` returns a list whose full names are the keys
of the collected map, none twice. -/
theorem NestedEnums_of_roots (E : Env) (hres : E.SpecResolvers) (hrange : E.RangeOk)
    (hsort : E.SortOk) (m : Method) (app : App) (rq rp : MsgPtr)
    (hroot : m.Rooted app rq rp) (hc : m.nestedEnums = none) :
    ∃ l m1 app1, m.NestedEnums E app = .ok (l, m1, app1) ∧
      (l.map (fun p => (app.enum p).FullName)).Perm
        ((GetNestedEnums E.unknown app 10 rp
          (GetNestedEnums E.unknown app 10 rq GoMap.empty)).entries.map Prod.fst) ∧
      (l.map (fun p => (app.enum p).FullName)).Nodup := by
  obtain ⟨hq, hp⟩ := Rooted_roots m app rq rp hroot
  obtain ⟨_, ⟨m1, app1, hs, _, hcol, _⟩⟩ := collect_roots E hres m app rq rp hq hp
  have hkey := GetNestedEnums_keyed E.unknown app 10 rp _
    (GetNestedEnums_keyed E.unknown app 10 rq GoMap.empty (keyed_empty app))
  have hfun : (fun p => (app1.enum p).FullName) = (fun p => (app.enum p).FullName) := by
    funext p
    rw [Similar_enum hs]
  obtain ⟨_, h2, h3, _⟩ := sorted_values E hrange hsort _ (fun p => (app1.enum p).FullName)
    (by rw [hfun]; exact hkey)
  refine ⟨E.SortFunc (lessEnum E app1) ((E.range (GetNestedEnums E.unknown app 10 rp
      (GetNestedEnums E.unknown app 10 rq GoMap.empty))).map Prod.snd),
    { m1 with nestedEnums := some (E.SortFunc (lessEnum E app1)
      ((E.range (GetNestedEnums E.unknown app 10 rp
        (GetNestedEnums E.unknown app 10 rq GoMap.empty))).map Prod.snd)) }, app1, ?_, ?_, ?_⟩
  · unfold Method.NestedEnums
    rw [hc, hcol]
  · rw [← hfun]
    exact h2
  · rw [← hfun]
    exact h3

theorem countP_eq_one_of_mem {α : Type} (key : α → GoString) (a : GoString) :
    ∀ (l : List α), (l.map key).Nodup → a ∈ l.map key →
      l.countP (fun p => decide (key p = a)) = 1
  | [], _, h => by simp at h
  | x :: l, hnd, h => by
    simp only [List.map_cons, List.nodup_cons] at hnd
    simp only [List.map_cons, List.mem_cons] at h
    rw [List.countP_cons]
    by_cases hx : key x = a
    · have hzero : l.countP (fun p => decide (key p = a)) = 0 := by
        rw [List.countP_eq_zero]
        intro p hp hpa
        simp only [decide_eq_true_eq] at hpa
        exact hnd.1 (hx ▸ hpa ▸ List.mem_map_of_mem key hp)
      simp [hx, hzero]
    · rcases h with h | h
      · exact (hx h.symm).elim
      · simp [hx, countP_eq_one_of_mem key a l hnd.2 h]

theorem collected_sound (unknown : GoString → GoString) (app : App) (rq rp : MsgPtr)
    (k : GoString)
    (h : k ∈ (GetNestedMessages unknown app 10 rp
      (GetNestedMessages unknown app 10 rq GoMap.empty)).entries.map Prod.fst) :
    k ∈ namesWithin app 10 rq ∨ k ∈ namesWithin app 10 rp := by
  rcases GetNestedMessages_sound unknown app 10 rp _ k h with h1 | h1
  · rcases GetNestedMessages_sound unknown app 10 rq _ k h1 with h2 | h2
    · cases h2
    · exact Or.inl h2
  · exact Or.inr h1

theorem take_drop_disjoint {α : Type} (l : List α) (hnd : l.Nodup) (n : Nat) (a : α)
    (h1 : a ∈ l.take n) (h2 : a ∈ l.drop n) : False := by
  rw [← List.take_append_drop n l, List.nodup_append] at hnd
  exact hnd.2.2 h1 h2

/-- C14, counterexample: the response is the start of a chain of 12
references; the request reaches the first message of that chain, `lnrpc.C1`,
through 10 references.  `NestedMessages()` returns the 9 messages of the side
chain and `lnrpc.C1`: the run from the response finds `lnrpc.C1` in the map
and goes no further, so `lnrpc.C11`, two references from the response, is not
in the result. -/
theorem response_chain_cut_short :
    forkApp.chain 0 ((List.range 12).map (fun i => (chainName (i + 1), i + 1))) = true ∧
    (exampleMethod "Walk".toList "lnrpc.Fork".toList [] (chainName 0) []).nestedMessageNames
      (goEnv id) forkApp
        = some ((List.range 9).map (fun i => sideName (i + 1)) ++ [chainName 1]) ∧
    chainName 2 ∈ namesWithin forkApp 2 0 ∧
    chainName 2 ∉ (List.range 9).map (fun i => sideName (i + 1)) ++ [chainName 1] := by
  decide

/-- C14, amended: with the resolvers of the spec, `NestedMessages()` returns,
and every type of its result is within 10 references of the request or of the
response.  For a chain of more than 10 message references from the request,
the result holds the first 10 types of the chain, and a type of the chain
beyond the tenth only when it is within 10 references of the response.  For
a chain of more than 10 message references from the response the same holds,
with the two roots exchanged, when none of its first 10 types is within 10
references of the request.  And `NestedEnums()` returns, its result holding
exactly the enums that are field types of the request, of the response, or of
a message within 9 references of one of them. -/
theorem depth_bound_truncates (E : Env) (hres : E.SpecResolvers) (hrange : E.RangeOk)
    (hsort : E.SortOk) (m : Method) (app : App) (rq rp : MsgPtr)
    (hroot : m.Rooted app rq rp) (hcm : m.nestedMessages = none) (hce : m.nestedEnums = none) :
    (∃ l m1 app1, m.NestedMessages E app = .ok (l, m1, app1) ∧
      (∀ name ∈ l.map (fun p => (app.msg p).FullName),
        name ∈ namesWithin app 10 rq ∨ name ∈ namesWithin app 10 rp) ∧
      (∀ chain : List (GoString × MsgPtr), app.chain rq chain = true →
        (chain.map Prod.fst).Nodup → 10 < chain.length →
        (∀ name ∈ (chain.map Prod.fst).take 10,
          name ∈ l.map (fun p => (app.msg p).FullName)) ∧
        (∀ name ∈ (chain.map Prod.fst).drop 10,
          name ∈ l.map (fun p => (app.msg p).FullName) → name ∈ namesWithin app 10 rp)) ∧
      (∀ chain : List (GoString × MsgPtr), app.chain rp chain = true →
        (chain.map Prod.fst).Nodup → 10 < chain.length →
        (∀ name ∈ (chain.map Prod.fst).take 10, name ∉ namesWithin app 10 rq) →
        (∀ name ∈ (chain.map Prod.fst).take 10,
          name ∈ l.map (fun p => (app.msg p).FullName)) ∧
        (∀ name ∈ (chain.map Prod.fst).drop 10,
          name ∈ l.map (fun p => (app.msg p).FullName) → name ∈ namesWithin app 10 rq))) ∧
    (∃ l m1 app1, m.NestedEnums E app = .ok (l, m1, app1) ∧
      ∀ name, name ∈ l.map (fun p => (app.enum p).FullName) ↔
        (name ∈ (enumsWithin app 10 rq).map Prod.fst ∨
          name ∈ (enumsWithin app 10 rp).map Prod.fst)) := by
  constructor
  · obtain ⟨l, m1, app1, hret, hperm, _⟩ :=
      NestedMessages_of_roots E hres hrange hsort m app rq rp hroot hcm
    have hsound : ∀ name ∈ l.map (fun p => (app.msg p).FullName),
        name ∈ namesWithin app 10 rq ∨ name ∈ namesWithin app 10 rp :=
      fun name hname => collected_sound E.unknown app rq rp name (hperm.mem_iff.1 hname)
    refine ⟨l, m1, app1, hret, hsound, ?_, ?_⟩
    · intro chain hchain hnd hlen
      constructor
      · intro name hname
        rw [hperm.mem_iff]
        apply keys_mono
        exact chain_collected E.unknown app 10 rq chain GoMap.empty hchain hnd
          (fun n _ hn => by cases hn) name hname
      · intro name hdrop hname
        rcases hsound name hname with h | h
        · exact (take_drop_disjoint _ hnd 10 name
            (chain_namesWithin app 10 rq chain hchain (Nat.le_of_lt hlen) name h) hdrop).elim
        · exact h
    · intro chain hchain hnd hlen hfresh
      constructor
      · intro name hname
        rw [hperm.mem_iff]
        refine chain_collected E.unknown app 10 rp chain _ hchain hnd (fun n hn hin => ?_)
          name hname
        rcases GetNestedMessages_sound E.unknown app 10 rq _ n hin with h | h
        · cases h
        · exact hfresh n hn h
      · intro name hdrop hname
        rcases hsound name hname with h | h
        · exact h
        · exact (take_drop_disjoint _ hnd 10 name
            (chain_namesWithin app 10 rp chain hchain (Nat.le_of_lt hlen) name h) hdrop).elim
  · obtain ⟨l, m1, app1, hret, hperm, _⟩ :=
      NestedEnums_of_roots E hres hrange hsort m app rq rp hroot hce
    refine ⟨l, m1, app1, hret, fun name => ?_⟩
    rw [hperm.mem_iff, GetNestedEnums_addAll, GetNestedEnums_addAll, addAll_keys, addAll_keys]
    constructor
    · rintro ((h | h) | h)
      · cases h
      · exact Or.inl h
      · exact Or.inr h
    · rintro (h | h)
      · exact Or.inl (Or.inr h)
      · exact Or.inr h

/-- Witness of the amended C14: a chain of 12 references, once from the
request, with the response at its end, and once from the response, with the
request at its end. -/
theorem depth_bound_truncates_witness :
    (∃ l m1 app1,
      (exampleMethod "Walk".toList (chainName 0) [] (chainName 12) []).NestedMessages
        (goEnv id) (chainApp 12) = .ok (l, m1, app1) ∧
      (∀ name ∈ (((List.range 12).map (fun i => (chainName (i + 1), i + 1))).map Prod.fst).take 10,
        name ∈ l.map (fun p => ((chainApp 12).msg p).FullName)) ∧
      (∀ name ∈ (((List.range 12).map (fun i => (chainName (i + 1), i + 1))).map Prod.fst).drop 10,
        name ∈ l.map (fun p => ((chainApp 12).msg p).FullName) →
        name ∈ namesWithin (chainApp 12) 10 12)) ∧
    (∃ l m1 app1,
      (exampleMethod "Walk".toList (chainName 12) [] (chainName 0) []).NestedMessages
        (goEnv id) (chainApp 12) = .ok (l, m1, app1) ∧
      (∀ name ∈ (((List.range 12).map (fun i => (chainName (i + 1), i + 1))).map Prod.fst).take 10,
        name ∈ l.map (fun p => ((chainApp 12).msg p).FullName)) ∧
      (∀ name ∈ (((List.range 12).map (fun i => (chainName (i + 1), i + 1))).map Prod.fst).drop 10,
        name ∈ l.map (fun p => ((chainApp 12).msg p).FullName) →
        name ∈ namesWithin (chainApp 12) 10 12)) := by
  obtain ⟨⟨l, m1, app1, hret, _, hq, _⟩, _⟩ :=
    depth_bound_truncates (goEnv id) (goEnv_SpecResolvers id)
      (goEnv_RangeOk id (fun l => List.Perm.refl l)) (goEnv_SortOk id)
      (exampleMethod "Walk".toList (chainName 0) [] (chainName 12) []) (chainApp 12) 0 12
      ⟨by decide, Or.inl rfl, by decide, Or.inl rfl⟩ rfl rfl
  obtain ⟨⟨l2, m2, app2, hret2, _, _, hp⟩, _⟩ :=
    depth_bound_truncates (goEnv id) (goEnv_SpecResolvers id)
      (goEnv_RangeOk id (fun l => List.Perm.refl l)) (goEnv_SortOk id)
      (exampleMethod "Walk".toList (chainName 12) [] (chainName 0) []) (chainApp 12) 12 0
      ⟨by decide, Or.inl rfl, by decide, Or.inl rfl⟩ rfl rfl
  exact ⟨⟨l, m1, app1, hret,
      hq ((List.range 12).map (fun i => (chainName (i + 1), i + 1))) (by decide) (by decide)
        (by decide)⟩,
    ⟨l2, m2, app2, hret2,
      hp ((List.range 12).map (fun i => (chainName (i + 1), i + 1))) (by decide) (by decide)
        (by decide) (by decide)⟩⟩

/-! ## When the depth bound is not reached -/

theorem closed_from_empty (unknown : GoString → GoString) (app : App) (p : MsgPtr)
    (hend : pathsEnd app 10 p = true) :
    ChildrenIn app p (GetNestedMessages unknown app 10 p GoMap.empty) ∧
    ∀ kv ∈ (GetNestedMessages unknown app 10 p GoMap.empty).entries,
      ChildrenIn app kv.2 (GetNestedMessages unknown app 10 p GoMap.empty) := by
  obtain ⟨h1, h2⟩ := GetNestedMessages_closed unknown app 10 p GoMap.empty hend
  refine ⟨h1, fun kv hkv => ?_⟩
  rcases h2 kv hkv with h | h
  · cases h
  · exact h

theorem complete_from_empty (unknown : GoString → GoString) (app : App) (p : MsgPtr)
    (hend : pathsEnd app 10 p = true) (d : Nat) (name : GoString)
    (h : name ∈ namesWithin app d p) :
    name ∈ (GetNestedMessages unknown app 10 p GoMap.empty).entries.map Prod.fst := by
  obtain ⟨h1, h2⟩ := closed_from_empty unknown app p hend
  exact names_in_closed app _
    (GetNestedMessages_resolved unknown app 10 p _ (Resolved_empty app)) h2 d p h1 name h

theorem complete_shared (unknown : GoString → GoString) (app : App) (rq rp : MsgPtr)
    (hendq : pathsEnd app 10 rq = true) (hendp : pathsEnd app 10 rp = true) (d : Nat)
    (name : GoString) (h : name ∈ namesWithin app d rq ∨ name ∈ namesWithin app d rp) :
    name ∈ (GetNestedMessages unknown app 10 rp
      (GetNestedMessages unknown app 10 rq GoMap.empty)).entries.map Prod.fst := by
  obtain ⟨hq1, hq2⟩ := closed_from_empty unknown app rq hendq
  obtain ⟨hp1, hp2⟩ := GetNestedMessages_closed unknown app 10 rp
    (GetNestedMessages unknown app 10 rq GoMap.empty) hendp
  have hmono : ∀ k ∈ (GetNestedMessages unknown app 10 rq GoMap.empty).entries.map Prod.fst,
      k ∈ (GetNestedMessages unknown app 10 rp
        (GetNestedMessages unknown app 10 rq GoMap.empty)).entries.map Prod.fst :=
    fun k hk => keys_mono unknown app 10 rp _ k hk
  have hres : Resolved app (GetNestedMessages unknown app 10 rp
      (GetNestedMessages unknown app 10 rq GoMap.empty)) :=
    GetNestedMessages_resolved _ _ _ _ _
      (GetNestedMessages_resolved _ _ _ _ _ (Resolved_empty app))
  have hclosed : ∀ kv ∈ (GetNestedMessages unknown app 10 rp
      (GetNestedMessages unknown app 10 rq GoMap.empty)).entries,
      ChildrenIn app kv.2 (GetNestedMessages unknown app 10 rp
        (GetNestedMessages unknown app 10 rq GoMap.empty)) := by
    intro kv hkv
    rcases hp2 kv hkv with hold | hc
    · exact ChildrenIn_mono app kv.2 _ _ (hq2 kv hold) hmono
    · exact hc
  rcases h with h | h
  · exact names_in_closed app _ hres hclosed d rq (ChildrenIn_mono app rq _ _ hq1 hmono) name h
  · exact names_in_closed app _ hres hclosed d rp hp1 name h

/-- C15, counterexample: in a chain of 12 references from the request, the
twelfth message is reachable from the request and is not in the result of
`NestedMessages()`, which holds the first ten. -/
theorem reachable_beyond_depth_missing :
    chainName 11 ∈ namesWithin (chainApp 12) 11 0 ∧
    (exampleMethod "Walk".toList (chainName 0) [] (chainName 12) []).nestedMessageNames
      (goEnv id) (chainApp 12) = some ((List.range 10).map (fun i => chainName (i + 1))) ∧
    chainName 11 ∉ (List.range 10).map (fun i => chainName (i + 1)) := by
  decide

/-- C15, amended: with the resolvers of the spec, when no chain of field type
references from the request message or from the response message has more
than 10 references, `NestedMessages()` holds exactly one entry of full name
`name` for every message name reachable through field type references from
the request or from the response. -/
theorem reachable_listed_once (E : Env) (hres : E.SpecResolvers) (hrange : E.RangeOk)
    (hsort : E.SortOk) (m : Method) (app : App) (rq rp : MsgPtr)
    (hroot : m.Rooted app rq rp) (hc : m.nestedMessages = none)
    (hendq : pathsEnd app 10 rq = true) (hendp : pathsEnd app 10 rp = true) :
    ∃ l m1 app1, m.NestedMessages E app = .ok (l, m1, app1) ∧
      ∀ (d : Nat) (name : GoString),
        (name ∈ namesWithin app d rq ∨ name ∈ namesWithin app d rp) →
        l.countP (fun p => decide ((app.msg p).FullName = name)) = 1 := by
  obtain ⟨l, m1, app1, hret, hperm, hnd⟩ :=
    NestedMessages_of_roots E hres hrange hsort m app rq rp hroot hc
  refine ⟨l, m1, app1, hret, fun d name h => ?_⟩
  apply countP_eq_one_of_mem (fun p => (app.msg p).FullName) _ l hnd
  rw [hperm.mem_iff]
  exact complete_shared E.unknown app rq rp hendq hendp d name h

/-- Witness of the amended C15: a chain of 5 references, the request at its
start and the response in its middle. -/
theorem reachable_listed_once_witness :
    ∃ l m1 app1,
      (exampleMethod "Walk".toList (chainName 0) [] (chainName 3) []).NestedMessages
        (goEnv id) (chainApp 5) = .ok (l, m1, app1) ∧
      ∀ (d : Nat) (name : GoString),
        (name ∈ namesWithin (chainApp 5) d 0 ∨ name ∈ namesWithin (chainApp 5) d 3) →
        l.countP (fun p => decide (((chainApp 5).msg p).FullName = name)) = 1 :=
  reachable_listed_once (goEnv id) (goEnv_SpecResolvers id)
    (goEnv_RangeOk id (fun l => List.Perm.refl l)) (goEnv_SortOk id)
    (exampleMethod "Walk".toList (chainName 0) [] (chainName 3) []) (chainApp 5) 0 3
    ⟨by decide, Or.inl rfl, by decide, Or.inl rfl⟩ rfl (by decide) (by decide)

/-! ## One shared map and two separate result sets -/

theorem Resolved_merge (app : App) (a b : GoMap MsgPtr) (ha : Resolved app a)
    (hb : Resolved app b) : Resolved app (a.merge b) := by
  intro kv hkv
  rcases addAll_mem b.entries a kv hkv with h | h
  · exact ha kv h
  · exact hb kv h

theorem nodup_entries {V : Type} (all : GoMap V) : all.entries.Nodup :=
  List.Nodup.of_map Prod.fst all.nodupKeys

theorem Resolved_perm (app : App) (a b : GoMap MsgPtr) (ha : Resolved app a)
    (hb : Resolved app b)
    (hk : ∀ k, k ∈ a.entries.map Prod.fst ↔ k ∈ b.entries.map Prod.fst) :
    a.entries.Perm b.entries := by
  have hsub : ∀ (a b : GoMap MsgPtr), Resolved app a → Resolved app b →
      (∀ k, k ∈ a.entries.map Prod.fst → k ∈ b.entries.map Prod.fst) →
      ∀ kv, kv ∈ a.entries → kv ∈ b.entries := by
    intro a b ha hb hk kv hkv
    obtain ⟨kw, hkw, hfst⟩ := List.mem_map.1 (hk kv.1 (List.mem_map_of_mem Prod.fst hkv))
    have h1 := ha kv hkv
    have h2 := hb kw hkw
    rw [hfst, h1] at h2
    have hsnd : kv.2 = kw.2 := Option.some.inj h2
    have : kw = kv := Prod.ext hfst hsnd.symm
    rw [← this]
    exact hkw
  rw [List.perm_ext_iff_of_nodup (nodup_entries a) (nodup_entries b)]
  exact fun kv => ⟨hsub a b ha hb (fun k => (hk k).1) kv, hsub b a hb ha (fun k => (hk k).2) kv⟩

/-- When no chain of references from either root has more than 10 references,
the shared map and the merged result sets hold the same entries. -/
theorem shared_perm_merged (unknown : GoString → GoString) (app : App) (rq rp : MsgPtr)
    (hendq : pathsEnd app 10 rq = true) (hendp : pathsEnd app 10 rp = true) :
    ((GetNestedMessages unknown app 10 rq GoMap.empty).merge
      (GetNestedMessages unknown app 10 rp GoMap.empty)).entries.Perm
    (GetNestedMessages unknown app 10 rp
      (GetNestedMessages unknown app 10 rq GoMap.empty)).entries := by
  apply Resolved_perm app
  · exact Resolved_merge app _ _ (GetNestedMessages_resolved _ _ _ _ _ (Resolved_empty app))
      (GetNestedMessages_resolved _ _ _ _ _ (Resolved_empty app))
  · exact GetNestedMessages_resolved _ _ _ _ _
      (GetNestedMessages_resolved _ _ _ _ _ (Resolved_empty app))
  · intro k
    constructor
    · intro h
      unfold GoMap.merge at h
      rw [addAll_keys] at h
      rcases h with h | h
      · exact keys_mono unknown app 10 rp _ k h
      · rcases GetNestedMessages_sound unknown app 10 rp _ k h with h1 | h1
        · cases h1
        · exact complete_shared unknown app rq rp hendq hendp 10 k (Or.inr h1)
    · intro h
      unfold GoMap.merge
      rw [addAll_keys]
      rcases collected_sound unknown app rq rp k h with h1 | h1
      · exact Or.inl (complete_from_empty unknown app rq hendq 10 k h1)
      · exact Or.inr (complete_from_empty unknown app rp hendp 10 k h1)

/-- The shared map of enums is the merged result sets, entry by entry and in
the same order. -/
theorem shared_eq_merged_enums (unknown : GoString → GoString) (app : App) (rq rp : MsgPtr) :
    (GetNestedEnums unknown app 10 rq GoMap.empty).merge
      (GetNestedEnums unknown app 10 rp GoMap.empty)
    = GetNestedEnums unknown app 10 rp (GetNestedEnums unknown app 10 rq GoMap.empty) := by
  rw [GetNestedEnums_addAll unknown app 10 rp GoMap.empty, merge_addAll,
    ← GetNestedEnums_addAll unknown app 10 rp]

theorem nodup_lower_keys {V : Type} (tbl : Char → Char) (all : GoMap V)
    (key : V → GoString) (hkey : ∀ kv ∈ all.entries, key kv.2 = kv.1)
    (names : List GoString) (hsub : ∀ k ∈ all.entries.map Prod.fst, k ∈ names)
    (hinj : ∀ a ∈ names, ∀ b ∈ names, ToLower tbl a = ToLower tbl b → a = b) :
    (all.entries.map (fun kv => ToLower tbl (key kv.2))).Nodup := by
  have h1 : all.entries.map (fun kv => ToLower tbl (key kv.2))
      = (all.entries.map Prod.fst).map (ToLower tbl) := by
    rw [List.map_map]
    exact List.map_congr_left (fun kv hkv => by simp only [Function.comp, hkey kv hkv])
  rw [h1]
  exact List.Nodup.map_on (fun a ha b hb hab => hinj a (hsub a ha) b (hsub b hb) hab)
    all.nodupKeys

/-- C17, counterexample: on a chain of 12 references from the request, with
the response the eighth message of the chain, the shared map gives the first
10 messages of the chain, and the two separate result sets merged give all
12: the run from the response, into an empty set of its own, goes on to the
end of the chain. -/
theorem shared_map_differs_from_separate :
    (exampleMethod "Walk".toList (chainName 0) [] (chainName 8) []).nestedMessageNames
      (goEnv id) (chainApp 12) = some ((List.range 10).map (fun i => chainName (i + 1))) ∧
    (exampleMethod "Walk".toList (chainName 0) [] (chainName 8) []).nestedMessageNamesSeparate
      (goEnv id) (goEnv id).range (chainApp 12)
        = some ((List.range 12).map (fun i => chainName (i + 1))) ∧
    (exampleMethod "Walk".toList (chainName 0) [] (chainName 8) []).NestedMessagesSeparate
        (goEnv id) (goEnv id).range (chainApp 12)
      ≠ (exampleMethod "Walk".toList (chainName 0) [] (chainName 8) []).NestedMessages
        (goEnv id) (chainApp 12) := by
  have h1 : (exampleMethod "Walk".toList (chainName 0) [] (chainName 8) []).nestedMessageNames
      (goEnv id) (chainApp 12) = some ((List.range 10).map (fun i => chainName (i + 1))) := by
    decide
  have h2 : (exampleMethod "Walk".toList (chainName 0) [] (chainName 8)
      []).nestedMessageNamesSeparate (goEnv id) (goEnv id).range (chainApp 12)
        = some ((List.range 12).map (fun i => chainName (i + 1))) := by
    decide
  refine ⟨h1, h2, fun h => ?_⟩
  unfold Method.nestedMessageNamesSeparate at h2
  unfold Method.nestedMessageNames at h1
  rw [h, h1] at h2
  revert h2
  decide

/-- C17, amended: with the resolvers of the spec, on a method whose request
and response types the registry resolves.  (1) When no chain of field type
references from the request or from the response has more than 10
references, and no two message names within 10 references of the roots are
equal after lower-casing, `NestedMessages()` (one shared map) is the call that
runs the resolver from each root into a result set of its own, merges the
two by full name and sorts: same list, same method state, same registry.
(2) The shared map of `NestedEnums()` is the merge of the two separate result
sets, entry by entry, so with the same `range` order the two calls are equal.
(3) With any `range` order on the merged map, they are equal when no two
enum names found from the roots are equal after lower-casing. -/
theorem shared_equals_separate (E : Env) (hres : E.SpecResolvers) (hrange : E.RangeOk)
    (hsort : E.SortOk) (range2 : GoMap Nat → List (GoString × Nat))
    (hrange2 : ∀ all : GoMap Nat, (range2 all).Perm all.entries)
    (m : Method) (app : App) (rq rp : MsgPtr) (hroot : m.Rooted app rq rp) :
    (pathsEnd app 10 rq = true → pathsEnd app 10 rp = true →
      (∀ a ∈ namesWithin app 10 rq ++ namesWithin app 10 rp,
        ∀ b ∈ namesWithin app 10 rq ++ namesWithin app 10 rp,
          ToLower E.unicodeToLower a = ToLower E.unicodeToLower b → a = b) →
      m.NestedMessagesSeparate E range2 app = m.NestedMessages E app) ∧
    m.NestedEnumsSeparate E E.range app = m.NestedEnums E app ∧
    ((∀ a ∈ (enumsWithin app 10 rq ++ enumsWithin app 10 rp).map Prod.fst,
        ∀ b ∈ (enumsWithin app 10 rq ++ enumsWithin app 10 rp).map Prod.fst,
          ToLower E.unicodeToLower a = ToLower E.unicodeToLower b → a = b) →
      m.NestedEnumsSeparate E range2 app = m.NestedEnums E app) := by
  obtain ⟨hq, hp⟩ := Rooted_roots m app rq rp hroot
  obtain ⟨⟨m1, app1, hs, _, hcol, hsep⟩, ⟨m2, app2, hs2, _, hcolE, hsepE⟩⟩ :=
    collect_roots E hres m app rq rp hq hp
  refine ⟨?_, ?_, ?_⟩
  · intro hendq hendp hinj
    unfold Method.NestedMessagesSeparate Method.NestedMessages
    cases hc : m.nestedMessages with
    | some l => rfl
    | none =>
      simp only
      rw [hcol, hsep]
      have hresolved : Resolved app (GetNestedMessages E.unknown app 10 rp
          (GetNestedMessages E.unknown app 10 rq GoMap.empty)) :=
        GetNestedMessages_resolved _ _ _ _ _
          (GetNestedMessages_resolved _ _ _ _ _ (Resolved_empty app))
      have hnd := nodup_lower_keys E.unicodeToLower _ (fun p => (app1.msg p).FullName)
        (Resolved_keyed app app1 hs _ hresolved)
        (namesWithin app 10 rq ++ namesWithin app 10 rp)
        (fun k hk => List.mem_append.2 (collected_sound E.unknown app rq rp k hk)) hinj
      have hsame : E.SortFunc (lessMessage E app1)
            ((range2 ((GetNestedMessages E.unknown app 10 rq GoMap.empty).merge
              (GetNestedMessages E.unknown app 10 rp GoMap.empty))).map Prod.snd)
          = E.SortFunc (lessMessage E app1)
            ((E.range (GetNestedMessages E.unknown app 10 rp
              (GetNestedMessages E.unknown app 10 rq GoMap.empty))).map Prod.snd) :=
        SortFunc_range_independent E hsort
          (fun p => ToLower E.unicodeToLower (app1.msg p).FullName) _ _ _
          ((hrange2 _).trans (shared_perm_merged E.unknown app rq rp hendq hendp))
          (hrange _) hnd
      simp only [hsame]
  · unfold Method.NestedEnumsSeparate Method.NestedEnums
    cases hc : m.nestedEnums with
    | some l => rfl
    | none =>
      simp only
      rw [hcolE, hsepE, shared_eq_merged_enums]
  · intro hinj
    unfold Method.NestedEnumsSeparate Method.NestedEnums
    cases hc : m.nestedEnums with
    | some l => rfl
    | none =>
      simp only
      rw [hcolE, hsepE, shared_eq_merged_enums]
      have hkey := GetNestedEnums_keyed E.unknown app 10 rp _
        (GetNestedEnums_keyed E.unknown app 10 rq GoMap.empty (keyed_empty app))
      have hfun : (fun p => (app2.enum p).FullName) = (fun p => (app.enum p).FullName) := by
        funext p
        rw [Similar_enum hs2]
      have hkeys : ∀ k ∈ (GetNestedEnums E.unknown app 10 rp
          (GetNestedEnums E.unknown app 10 rq GoMap.empty)).entries.map Prod.fst,
          k ∈ (enumsWithin app 10 rq ++ enumsWithin app 10 rp).map Prod.fst := by
        intro k hk
        rw [GetNestedEnums_addAll, GetNestedEnums_addAll, addAll_keys, addAll_keys] at hk
        rw [List.map_append, List.mem_append]
        rcases hk with (hk | hk) | hk
        · cases hk
        · exact Or.inl hk
        · exact Or.inr hk
      have hnd := nodup_lower_keys E.unicodeToLower _ (fun p => (app2.enum p).FullName)
        (by rw [hfun]; exact hkey) _ hkeys hinj
      have hsame : E.SortFunc (lessEnum E app2)
            ((range2 (GetNestedEnums E.unknown app 10 rp
              (GetNestedEnums E.unknown app 10 rq GoMap.empty))).map Prod.snd)
          = E.SortFunc (lessEnum E app2)
            ((E.range (GetNestedEnums E.unknown app 10 rp
              (GetNestedEnums E.unknown app 10 rq GoMap.empty))).map Prod.snd) :=
        SortFunc_range_independent E hsort
          (fun p => ToLower E.unicodeToLower (app2.enum p).FullName) _ _ _
          (hrange2 _) (hrange _) hnd
      simp only [hsame]

/-- Witness of the amended C17: a registry with no cycle, in which the request
and the response share `lnrpc.Inner` and the enum `lnrpc.Kind`; the merged map
is visited in the reverse of the order of the shared map. -/
theorem shared_equals_separate_witness :
    (exampleMethod "Tree".toList "lnrpc.TreeReq".toList [] "lnrpc.TreeResp".toList
        []).nestedMessageNames (goEnv id) treeApp
      = some ["lnrpc.Inner".toList, "lnrpc.Leaf".toList] ∧
    (exampleMethod "Tree".toList "lnrpc.TreeReq".toList [] "lnrpc.TreeResp".toList
        []).nestedEnumNames (goEnv id) treeApp
      = some ["lnrpc.Kind".toList, "lnrpc.Side".toList] ∧
    (exampleMethod "Tree".toList "lnrpc.TreeReq".toList [] "lnrpc.TreeResp".toList
        []).NestedMessagesSeparate (goEnv id) (fun all => all.entries.reverse) treeApp
      = (exampleMethod "Tree".toList "lnrpc.TreeReq".toList [] "lnrpc.TreeResp".toList
        []).NestedMessages (goEnv id) treeApp ∧
    (exampleMethod "Tree".toList "lnrpc.TreeReq".toList [] "lnrpc.TreeResp".toList
        []).NestedEnumsSeparate (goEnv id) (goEnv id).range treeApp
      = (exampleMethod "Tree".toList "lnrpc.TreeReq".toList [] "lnrpc.TreeResp".toList
        []).NestedEnums (goEnv id) treeApp ∧
    (exampleMethod "Tree".toList "lnrpc.TreeReq".toList [] "lnrpc.TreeResp".toList
        []).NestedEnumsSeparate (goEnv id) (fun all => all.entries.reverse) treeApp
      = (exampleMethod "Tree".toList "lnrpc.TreeReq".toList [] "lnrpc.TreeResp".toList
        []).NestedEnums (goEnv id) treeApp :=
  have h := shared_equals_separate (goEnv id) (goEnv_SpecResolvers id)
    (goEnv_RangeOk id (fun l => List.Perm.refl l)) (goEnv_SortOk id)
    (fun all => all.entries.reverse) (fun all => List.reverse_perm _)
    (exampleMethod "Tree".toList "lnrpc.TreeReq".toList [] "lnrpc.TreeResp".toList [])
    treeApp 0 1 ⟨by decide, Or.inl rfl, by decide, Or.inl rfl⟩
  ⟨by decide, by decide, h.1 (by decide) (by decide) (by decide), h.2.1, h.2.2 (by decide)⟩

end Models
